import Mathlib

/-!
# Compact_container_with_index (CGAL, Combinatorial_map package)

A shallow embedding of `Compact_container_with_index.h`: the index-addressed
arena, its in-place free list with an external vector of used flags (the strategy
the arena instantiates, `Free_list_management<CC, Tag_false, Tag_true>`), the two
growth policies, the bidirectional iterator, the handle class `Index_for_cc_with_index`
and the two other free-list strategies (`Free_list_management<CC, Tag_true, Tag_true>`
with a stack, `Free_list_management<CC, Tag_false, Tag_false>` with bit squatting).

Conventions of the embedding.

* `size_type` is `std::size_t` (64 bits): values are natural numbers and every
  arithmetic step that can wrap is written modulo `size_type_range`.  The bit-squatting
  strategy, whose encoding depends on the width of `size_type`, takes the number `w` of
  bits as an argument.
* The build with CGAL assertions enabled is modelled.  An operation returns `none`
  when a `CGAL_assertion` / `CGAL_precondition` fails, and also when the code would
  read or write outside an allocated block or a `std::vector` (undefined behaviour in
  C++); it returns `some` of its result otherwise.
* Memory allocation itself is assumed to succeed.
* Storage holding no constructed object (freshly allocated, or zero-filled by the
  `memset` in `erase`) is modelled by the value `zero_filled`.
* The move constructor and the move assignment are not embedded.  The member
  initialiser `free_list(*this)` of the move constructor passes a reference, while the
  constructor of every free-list strategy takes a pointer to the container, so that the
  constructor, and the move assignment written through it, cannot be instantiated.
-/

namespace CGAL

/-- The number of values of `size_type` (`std::size_t`, 64 bits). -/
def size_type_range : Nat := 2 ^ 64

/-- The constant `null_descriptor = std::numeric_limits<size_type>::max()`. -/
def null_descriptor : Nat := size_type_range - 1

/-- The class `Compact_container_with_index_traits<T, size_type>`: access to the
`size_type` data member of `T` that the in-place free list borrows
(`t.for_compact_container()` and `t.for_compact_container(v)`).  The member is a plain
data member, so reading it after writing `v` gives `v`.  `zero_filled` is the content
of storage that holds no constructed object. -/
class Compact_container_with_index_traits (T : Type) where
  size_t : T → Nat
  set_size_t : T → Nat → T
  zero_filled : T
  size_t_set_size_t : ∀ (t : T) (v : Nat), size_t (set_size_t t v) = v

export Compact_container_with_index_traits (size_t set_size_t zero_filled)

/-- The class `Index_for_cc_with_index<Index_type>`: a wrapper around one `size_type`. -/
structure Index_for_cc_with_index where
  m_idx : Nat
deriving DecidableEq, Repr

/-- The member `size_type for_compact_container() const` of `Index_for_cc_with_index`. -/
def Index_for_cc_with_index.for_compact_container (i : Index_for_cc_with_index) : Nat :=
  i.m_idx

/-- The member `void for_compact_container(size_type v)` of `Index_for_cc_with_index`. -/
def Index_for_cc_with_index.set_for_compact_container (_i : Index_for_cc_with_index)
    (v : Nat) : Index_for_cc_with_index :=
  { m_idx := v }

instance : Compact_container_with_index_traits Index_for_cc_with_index where
  size_t := Index_for_cc_with_index.for_compact_container
  set_size_t := Index_for_cc_with_index.set_for_compact_container
  zero_filled := { m_idx := 0 }
  size_t_set_size_t := fun _ _ => rfl

/-- The two increment policies, each with its template argument `unsigned int k`. -/
inductive Increment_policy where
  | Multiply_by_two_policy_for_cc_with_size (k : Nat)
  | Constant_size_policy_for_cc_with_size (k : Nat)
deriving DecidableEq, Repr

/-- The constant `first_block_size = k` of a policy (an `unsigned int`, 32 bits). -/
def Increment_policy.first_block_size : Increment_policy → Nat
  | .Multiply_by_two_policy_for_cc_with_size k => k % 2 ^ 32
  | .Constant_size_policy_for_cc_with_size k => k % 2 ^ 32

/-- Data members of `Free_list_management<CC_with_index, Tag_false, Tag_true>`
(in-place free list, vector of Booleans); the back pointer `m_cc_with_index` is the
container the functions below receive. -/
structure Free_list_management_Tag_false_Tag_true where
  m_free_list : Nat
  m_used : List Bool
deriving DecidableEq, Repr

/-- Data members of `Compact_container_with_index<T, Allocator, Increment_policy>`.
`all_items = none` is the null pointer; `some items` is an allocated block. -/
structure Compact_container_with_index (T : Type) (P : Increment_policy) where
  capacity_ : Nat
  size_ : Nat
  block_size : Nat
  all_items : Option (List T)
  free_list : Free_list_management_Tag_false_Tag_true
deriving DecidableEq, Repr

section operations

variable {T : Type} [Compact_container_with_index_traits T] {P : Increment_policy}

namespace Compact_container_with_index

/-- The member `size_type capacity() const`. -/
def capacity (c : Compact_container_with_index T P) : Nat := c.capacity_

/-- The member `size_type size() const`. -/
def size (c : Compact_container_with_index T P) : Nat := c.size_

/-- The member `bool empty() const`. -/
def empty (c : Compact_container_with_index T P) : Bool := c.size_ == 0

/-- The member `operator[]`: `CGAL_assertion(all_items!=nullptr && i<capacity_)`, then
`all_items[i]`. -/
def subscript (c : Compact_container_with_index T P) (i : Nat) : Option T :=
  match c.all_items with
  | none => none
  | some items => if i < c.capacity_ then items[i]? else none

/-- A store through the reference returned by `operator[]`. -/
def assign_subscript (c : Compact_container_with_index T P) (i : Nat) (t : T) :
    Option (Compact_container_with_index T P) :=
  match c.all_items with
  | none => none
  | some items =>
    if i < c.capacity_ ∧ i < items.length then
      some { c with all_items := some (items.set i t) }
    else none

end Compact_container_with_index

namespace Free_list_management_Tag_false_Tag_true

/-- The loop `for(; i<capacity()-1; ++i) set_size_t((*m_cc_with_index)[i], i+1);` run for
`n` more iterations from index `i`. -/
def link_successors (c : Compact_container_with_index T P) :
    Nat → Nat → Option (Compact_container_with_index T P)
  | _, 0 => some c
  | i, n + 1 => do
    let e ← c.subscript i
    let c1 ← c.assign_subscript i (set_size_t e (i + 1))
    link_successors c1 (i + 1) n

/-- The member `init()`. -/
def init (c : Compact_container_with_index T P) :
    Option (Compact_container_with_index T P) :=
  if 0 < c.capacity_ then do
    let c1 : Compact_container_with_index T P :=
      { c with free_list := { m_free_list := 0, m_used := List.replicate c.capacity_ false } }
    let c2 ← link_successors c1 0 (c.capacity_ - 1)
    let e ← c2.subscript (c.capacity_ - 1)
    c2.assign_subscript (c.capacity_ - 1) (set_size_t e null_descriptor)
  else
    some { c with free_list := { m_free_list := null_descriptor, m_used := [] } }

/-- The member `increase_to(old_size)`, called when the capacity has already been
raised. -/
def increase_to (c : Compact_container_with_index T P) (old_size : Nat) :
    Option (Compact_container_with_index T P) :=
  if ¬ (old_size < c.capacity_) then none            -- CGAL_assertion(capacity()>old_size)
  else if c.free_list.m_free_list ≠ null_descriptor then none
                                                     -- CGAL_assertion(m_free_list==null_descriptor)
  else do
    let c1 : Compact_container_with_index T P :=
      { c with free_list :=
          { c.free_list with
            m_used := c.free_list.m_used.take c.capacity_ ++
              List.replicate (c.capacity_ - c.free_list.m_used.length) false } }
    let i := if 0 < old_size then old_size - 1 else 0
    let c2 ← link_successors c1 i (c.capacity_ - 1 - i)
    let e ← c2.subscript (c.capacity_ - 1)
    let c3 ← c2.assign_subscript (c.capacity_ - 1) (set_size_t e null_descriptor)
    some { c3 with free_list := { c3.free_list with m_free_list := old_size } }

/-- The member `bool is_empty() const`. -/
def is_empty (c : Compact_container_with_index T P) : Bool :=
  c.free_list.m_free_list == null_descriptor

/-- The member `bool is_used(size_type i) const`:
`CGAL_assertion(i<capacity() && i!=null_descriptor)`, then `m_used[i]`. -/
def is_used (c : Compact_container_with_index T P) (i : Nat) : Option Bool :=
  if i < c.capacity_ ∧ i ≠ null_descriptor then c.free_list.m_used[i]? else none

/-- The member `push(i)`: the element `i` becomes free. -/
def push (c : Compact_container_with_index T P) (i : Nat) :
    Option (Compact_container_with_index T P) :=
  if ¬ (i < c.capacity_ ∧ i ≠ null_descriptor) then none
  else do
    let used ← is_used c i
    if ¬ used then none                              -- CGAL_assertion(is_used(i))
    else
      let c1 : Compact_container_with_index T P :=
        { c with free_list := { c.free_list with m_used := c.free_list.m_used.set i false } }
      let e ← c1.subscript i
      let c2 ← c1.assign_subscript i (set_size_t e c1.free_list.m_free_list)
      some { c2 with free_list := { c2.free_list with m_free_list := i } }

/-- The member `size_type top() const`. -/
def top (c : Compact_container_with_index T P) : Option Nat :=
  if is_empty c then none else some c.free_list.m_free_list

/-- The member `pop()`: the top element becomes used and is returned. -/
def pop (c : Compact_container_with_index T P) :
    Option (Nat × Compact_container_with_index T P) :=
  if is_empty c then none                            -- CGAL_assertion(!is_empty())
  else do
    let t ← top c
    let used ← is_used c t
    if used then none                                -- CGAL_assertion(!is_used(top()))
    else
      let res := c.free_list.m_free_list
      let e ← c.subscript res
      some (res, { c with free_list :=
        { m_free_list := size_t e, m_used := c.free_list.m_used.set res true } })

/-- The member `copy_special_data(src, dest)`. -/
def copy_special_data (src dest : T) : T :=
  set_size_t dest (size_t src)

end Free_list_management_Tag_false_Tag_true

namespace Increment_policy

/-- The static member `increase_size(cc)` of the policy `P`:
`Multiply_by_two_policy_for_cc_with_size` sets `cc.block_size=cc.capacity_`,
`Constant_size_policy_for_cc_with_size` does nothing. -/
def increase_size (c : Compact_container_with_index T P) : Compact_container_with_index T P :=
  match P with
  | .Multiply_by_two_policy_for_cc_with_size _ => { c with block_size := c.capacity_ }
  | .Constant_size_policy_for_cc_with_size _ => c

end Increment_policy

namespace Compact_container_with_index

open Free_list_management_Tag_false_Tag_true

/-- The member `bool is_used(size_type i) const`. -/
def is_used (c : Compact_container_with_index T P) (i : Nat) : Option Bool :=
  Free_list_management_Tag_false_Tag_true.is_used c i

/-- The private member `init()`. -/
def init (c : Compact_container_with_index T P) : Option (Compact_container_with_index T P) :=
  Free_list_management_Tag_false_Tag_true.init
    { c with block_size := P.first_block_size, capacity_ := 0, size_ := 0, all_items := none }

/-- The constructor `Compact_container_with_index(const Allocator&)`: `init()` run on the
new object (whose members hold nothing meaningful before). -/
def construct : Option (Compact_container_with_index T P) :=
  init { capacity_ := 0, size_ := 0, block_size := 0, all_items := none,
         free_list := { m_free_list := 0, m_used := [] } }

/-- The loop of `increase_size()` over `index < oldcapacity`, run for `n` more iterations
from `index`: a used element is copied into the new block `all_items2`, a free one has
its special data copied.  `c` already holds the new capacity. -/
def relocate (c : Compact_container_with_index T P) (all_items : List T) :
    List T → Nat → Nat → Option (List T)
  | all_items2, _, 0 => some all_items2
  | all_items2, index, n + 1 => do
    let used ← c.is_used index
    let src ← all_items[index]?
    let dest ← all_items2[index]?
    if used then
      relocate c all_items (all_items2.set index src) (index + 1) n
    else
      relocate c all_items (all_items2.set index (copy_special_data src dest)) (index + 1) n

/-- The private member `increase_size()`. -/
def increase_size (c : Compact_container_with_index T P) :
    Option (Compact_container_with_index T P) := do
  let oldcapacity := c.capacity_
  let c1 : Compact_container_with_index T P :=
    { c with capacity_ := (c.capacity_ + c.block_size) % size_type_range }
  let all_items2 ← relocate c1 (c.all_items.getD [])
    (List.replicate c1.capacity_ zero_filled) 0 oldcapacity
  let c2 : Compact_container_with_index T P := { c1 with all_items := some all_items2 }
  let c3 ← increase_to c2 oldcapacity
  some (Increment_policy.increase_size c3)

/-- The member `Index insert(const T &t)`. -/
def insert (c : Compact_container_with_index T P) (t : T) :
    Option (Nat × Compact_container_with_index T P) := do
  let c1 ← if is_empty c then increase_size c else some c
  let (ret, c2) ← pop c1
  let _e ← c2.subscript ret
  let c3 ← c2.assign_subscript ret t                           -- new (&e) value_type(t)
  some (ret, { c3 with size_ := (c3.size_ + 1) % size_type_range })

/-- The member `Index emplace(const Args&... args)`; `value_type` is the constructor of
`T` the arguments are forwarded to. -/
def emplace {Args : Type} (c : Compact_container_with_index T P) (value_type : Args → T)
    (args : Args) : Option (Nat × Compact_container_with_index T P) := do
  let c1 ← if is_empty c then increase_size c else some c
  let (ret, c2) ← pop c1
  let _e ← c2.subscript ret
  let c3 ← c2.assign_subscript ret (value_type args)           -- new (&e) value_type(args...)
  some (ret, { c3 with size_ := (c3.size_ + 1) % size_type_range })

/-- The member `void erase(Index i)`. -/
def erase (c : Compact_container_with_index T P) (i : Nat) :
    Option (Compact_container_with_index T P) := do
  let used ← c.is_used i
  if ¬ used then none                                           -- CGAL_precondition(is_used(i))
  else
    let _e ← c.subscript i
    let c1 ← c.assign_subscript i zero_filled                   -- destroy, then memset
    let c2 ← push c1 i
    some { c2 with size_ := (c2.size_ + size_type_range - 1) % size_type_range }

end Compact_container_with_index

/-- Data member `m_index` of `CC_iterator_with_index`; the pointer `m_ptr_to_cc` is the
container the functions below receive. -/
structure CC_iterator_with_index where
  m_index : Nat
deriving DecidableEq, Repr

namespace CC_iterator_with_index

/-- The loop test of `increment()` at index `i`, and the rest of the loop for at most
`fuel` more iterations: `while (m_index < capacity_ && !is_used(m_index)) ++m_index;`. -/
def increment_loop (c : Compact_container_with_index T P) : Nat → Nat → Option Nat
  | fuel, i =>
    if i < c.capacity_ then
      match c.is_used i, fuel with
      | none, _ => none
      | some true, _ => some i
      | some false, 0 => none
      | some false, fuel + 1 => increment_loop c fuel ((i + 1) % size_type_range)
    else some i

/-- The member `increment()`. -/
def increment (c : Compact_container_with_index T P) (it : CC_iterator_with_index) :
    Option CC_iterator_with_index :=
  if it.m_index < c.capacity_ then                   -- CGAL_assertion_msg(m_index < capacity_)
    (increment_loop c (c.capacity_ - it.m_index) ((it.m_index + 1) % size_type_range)).map
      CC_iterator_with_index.mk
  else none

/-- The loop test of `decrement()` at index `i`, and the rest of the loop for at most
`fuel` more iterations: `while (!is_used(m_index)) --m_index;`. -/
def decrement_loop (c : Compact_container_with_index T P) : Nat → Nat → Option Nat
  | fuel, i =>
    match c.is_used i, fuel with
    | none, _ => none
    | some true, _ => some i
    | some false, 0 => none
    | some false, fuel + 1 =>
      decrement_loop c fuel ((i + size_type_range - 1) % size_type_range)

/-- The member `decrement()`. -/
def decrement (c : Compact_container_with_index T P) (it : CC_iterator_with_index) :
    Option CC_iterator_with_index :=
  if 0 < it.m_index then                             -- CGAL_assertion_msg(m_index>0)
    (decrement_loop c it.m_index ((it.m_index + size_type_range - 1) % size_type_range)).map
      CC_iterator_with_index.mk
  else none

end CC_iterator_with_index

namespace Compact_container_with_index

/-- The member `iterator end()`. -/
def «end» (c : Compact_container_with_index T P) : CC_iterator_with_index :=
  { m_index := c.capacity_ }

/-- The member `iterator begin()`, with the constructor `CC_iterator_with_index(ptr, int, int)`
it uses. -/
def begin (c : Compact_container_with_index T P) : Option CC_iterator_with_index :=
  if c.empty then some c.end
  else do
    let used ← c.is_used 0
    if ¬ used then CC_iterator_with_index.increment c { m_index := 0 }
    else some { m_index := 0 }

end Compact_container_with_index

namespace Free_list_management_Tag_false_Tag_true

/-- The member `swap(Self& other)`: `m_free_list` and `m_used` are exchanged (not the back
pointer); the result is the new `*this` and the new `other`. -/
def swap (a other : Free_list_management_Tag_false_Tag_true) :
    Free_list_management_Tag_false_Tag_true × Free_list_management_Tag_false_Tag_true :=
  ({ m_free_list := other.m_free_list, m_used := other.m_used },
   { m_free_list := a.m_free_list, m_used := a.m_used })

end Free_list_management_Tag_false_Tag_true

namespace Compact_container_with_index

/-- The member `void swap(Self &c)`; the result is the new `*this` and the new `c`. -/
def swap (a c : Compact_container_with_index T P) :
    Compact_container_with_index T P × Compact_container_with_index T P :=
  ({ capacity_ := c.capacity_, size_ := c.size_, block_size := c.block_size,
     all_items := c.all_items,
     free_list := (Free_list_management_Tag_false_Tag_true.swap a.free_list c.free_list).1 },
   { capacity_ := a.capacity_, size_ := a.size_, block_size := a.block_size,
     all_items := a.all_items,
     free_list := (Free_list_management_Tag_false_Tag_true.swap a.free_list c.free_list).2 })

/-- The member `void reserve(size_type n)`: `if ( capacity_>=n ) return;` and then nothing,
the rest of the body being commented out (`// TODO`). -/
def reserve (c : Compact_container_with_index T P) (n : Nat) :
    Compact_container_with_index T P :=
  if c.capacity_ ≥ n then c else c

/-- The loop of `clear()`, run for `n` more iterations from index `i`:
`if ( is_used(i) ) alloc.destroy(&operator[](i));`. -/
def destroy_used (c : Compact_container_with_index T P) : Nat → Nat → Option Unit
  | _, 0 => some ()
  | i, n + 1 => do
    let used ← c.is_used i
    if used then do
      let _e ← c.subscript i
      destroy_used c (i + 1) n
    else destroy_used c (i + 1) n

/-- The member `void clear()`. -/
def clear (c : Compact_container_with_index T P) :
    Option (Compact_container_with_index T P) := do
  destroy_used c 0 c.capacity_
  init { c with all_items := none }

/-- The loop `while (first != last) erase(first++);` of the member
`void erase(iterator first, iterator last)`, for at most `fuel` iterations. -/
def erase_loop : Nat → Compact_container_with_index T P → CC_iterator_with_index →
    CC_iterator_with_index → Option (Compact_container_with_index T P)
  | fuel, c, first, last =>
    if first = last then some c
    else
      match fuel with
      | 0 => none
      | fuel + 1 => do
        let next ← CC_iterator_with_index.increment c first        -- first++
        let c1 ← c.erase first.m_index
        erase_loop fuel c1 next last

/-- The member `void erase(iterator first, iterator last)`. -/
def erase_range (c : Compact_container_with_index T P) (first last : CC_iterator_with_index) :
    Option (Compact_container_with_index T P) :=
  erase_loop c.capacity_ c first last

/-- Modelled from the spec: an assignment `*result = value` through the output iterator
`CGAL::inserter(*this)`, which is declared in `CGAL/iterator.h` and is not among the
sources at hand.  The copy re-inserts the values "via the normal insertion sequence":
the assignment calls `insert(value)`. -/
def inserter_assign (d : Compact_container_with_index T P) (value : T) :
    Option (Compact_container_with_index T P) :=
  (d.insert value).map Prod.snd

/-- The call `std::copy(first, c.end(), CGAL::inserter(*this))`, for at most `fuel`
iterations; `d` is `*this`. -/
def copy_loop (c : Compact_container_with_index T P) :
    Nat → CC_iterator_with_index → Compact_container_with_index T P →
    Option (Compact_container_with_index T P)
  | fuel, first, d =>
    if first = c.end then some d
    else
      match fuel with
      | 0 => none
      | fuel + 1 => do
        let value ← c.subscript first.m_index                      -- *first
        let d1 ← inserter_assign d value
        let next ← CC_iterator_with_index.increment c first        -- ++first
        copy_loop c fuel next d1

/-- The copy constructor `Compact_container_with_index(const Compact_container_with_index &c)`:
`init(); block_size = c.block_size; std::copy(c.begin(), c.end(), CGAL::inserter(*this));`. -/
def copy_construct (c : Compact_container_with_index T P) :
    Option (Compact_container_with_index T P) := do
  let d ← init ({ capacity_ := 0, size_ := 0, block_size := 0, all_items := none,
                  free_list := { m_free_list := 0, m_used := [] } } :
                Compact_container_with_index T P)
  let d1 : Compact_container_with_index T P := { d with block_size := c.block_size }
  let first ← c.begin
  copy_loop c c.capacity_ first d1

/-- The copy assignment `operator=(const Compact_container_with_index &c)` for `&c != this`:
`Self tmp(c); swap(tmp);`; the result is the new `*this`. -/
def copy_assign (a c : Compact_container_with_index T P) :
    Option (Compact_container_with_index T P) := do
  let tmp ← copy_construct c
  some (a.swap tmp).1

end Compact_container_with_index

namespace Index_for_cc_with_index

/-- The constructor `Index_for_cc_with_index(size_type idx=(std::numeric_limits<size_type>::max)())`
called without argument (called with `idx` it is `mk idx`). -/
def default_constructed : Index_for_cc_with_index :=
  { m_idx := size_type_range - 1 }

/-- The conversion `operator size_t() const`. -/
def to_size_t (i : Index_for_cc_with_index) : Nat := i.m_idx

/-- The member `bool operator==(const Self& n) const`. -/
def equals (i n : Index_for_cc_with_index) : Bool := i.m_idx == n.m_idx

/-- The member `bool operator==(size_type n) const`. -/
def equals_size_type (i : Index_for_cc_with_index) (n : Nat) : Bool := i.m_idx == n

/-- The member `Self& operator++()`: `++m_idx`. -/
def pre_increment (i : Index_for_cc_with_index) : Index_for_cc_with_index :=
  { m_idx := (i.m_idx + 1) % size_type_range }

/-- The member `Self& operator--()`: `--m_idx`. -/
def pre_decrement (i : Index_for_cc_with_index) : Index_for_cc_with_index :=
  { m_idx := (i.m_idx + size_type_range - 1) % size_type_range }

/-- The member `Self operator++(int)`: the value returned and the new `*this`. -/
def post_increment (i : Index_for_cc_with_index) :
    Index_for_cc_with_index × Index_for_cc_with_index :=
  (i, { m_idx := (i.m_idx + 1) % size_type_range })

/-- The member `Self operator--(int)`: the value returned and the new `*this`. -/
def post_decrement (i : Index_for_cc_with_index) :
    Index_for_cc_with_index × Index_for_cc_with_index :=
  (i, { m_idx := (i.m_idx + size_type_range - 1) % size_type_range })

end Index_for_cc_with_index

/-- The constant `null_descriptor` of `Free_list_management<CC, Tag_false, Tag_true>`
(`std::numeric_limits<size_type>::max()`). -/
protected def Free_list_management_Tag_false_Tag_true.null_descriptor : Nat :=
  CGAL.null_descriptor

/-- The constant `Compact_container_with_index::null_descriptor`
(`TFree_list_management::null_descriptor`). -/
protected def Compact_container_with_index.null_descriptor : Nat :=
  Free_list_management_Tag_false_Tag_true.null_descriptor

/-- The member `operator*` of the iterator: `(*m_ptr_to_cc)[m_index]`. -/
def CC_iterator_with_index.dereference (c : Compact_container_with_index T P)
    (it : CC_iterator_with_index) : Option T :=
  c.subscript it.m_index

namespace Compact_container_with_index

/-- The member `bool owns(const_iterator cit) const`, for an iterator `cit` of this
container: the pointer `&*cit` is then `all_items + m_index`, so that the test
`c>=all_items && c<(all_items+capacity_)` is `m_index < capacity_`. -/
def owns (c : Compact_container_with_index T P) (cit : CC_iterator_with_index) :
    Option Bool :=
  if cit = c.end then some true
  else do
    let _e ← CC_iterator_with_index.dereference c cit              -- const_pointer c=&*cit;
    if cit.m_index < c.capacity_ then c.is_used cit.m_index
    else some false

/-- The member `bool owns_dereferencable(const_iterator cit) const`:
`cit!=end() && owns(cit)`. -/
def owns_dereferencable (c : Compact_container_with_index T P)
    (cit : CC_iterator_with_index) : Option Bool :=
  if cit ≠ c.end then c.owns cit else some false

end Compact_container_with_index

/-- Data members of `Free_list_management<CC_with_index, Tag_true, Tag_true>` (free list in
a `std::stack`, whose top is the head of the list `m_free_list`; vector of Booleans).  The
functions of this strategy use the container only through `capacity()`, which they receive
as the argument `capacity`. -/
structure Free_list_management_Tag_true_Tag_true where
  m_free_list : List Nat
  m_used : List Bool
  m_first_free_index : Nat
deriving DecidableEq, Repr

namespace Free_list_management_Tag_true_Tag_true

/-- The constant `null_descriptor=std::numeric_limits<size_type>::max()`. -/
protected def null_descriptor : Nat := size_type_range - 1

/-- The member `init()`. -/
def init (capacity : Nat) (s : Free_list_management_Tag_true_Tag_true) :
    Free_list_management_Tag_true_Tag_true :=
  { m_free_list := [],
    m_used := if 0 < capacity then List.replicate capacity false else s.m_used,
    m_first_free_index := 0 }

/-- The member `increase_to(old_size)`. -/
def increase_to (capacity : Nat) (s : Free_list_management_Tag_true_Tag_true)
    (old_size : Nat) : Option Free_list_management_Tag_true_Tag_true :=
  if ¬ (old_size < capacity) then none               -- CGAL_assertion(capacity()>old_size)
  else if s.m_first_free_index ≠ old_size then none  -- CGAL_assertion(m_first_free_index==old_size)
  else
    some { s with m_used := s.m_used.take capacity ++
                    List.replicate (capacity - s.m_used.length) false }

/-- The member `swap(Self& other)`; the result is the new `*this` and the new `other`. -/
def swap (a other : Free_list_management_Tag_true_Tag_true) :
    Free_list_management_Tag_true_Tag_true × Free_list_management_Tag_true_Tag_true :=
  (other, a)

/-- The member `bool is_empty() const`. -/
def is_empty (capacity : Nat) (s : Free_list_management_Tag_true_Tag_true) : Bool :=
  s.m_free_list.isEmpty && s.m_first_free_index == capacity

/-- The member `bool is_used(size_type i) const`. -/
def is_used (capacity : Nat) (s : Free_list_management_Tag_true_Tag_true) (i : Nat) :
    Option Bool :=
  if i < capacity ∧ i ≠ Free_list_management_Tag_true_Tag_true.null_descriptor then
    s.m_used[i]?
  else none

/-- The member `push(i)`: the element `i` becomes free. -/
def push (capacity : Nat) (s : Free_list_management_Tag_true_Tag_true) (i : Nat) :
    Option Free_list_management_Tag_true_Tag_true :=
  if ¬ (i < capacity ∧ i ≠ Free_list_management_Tag_true_Tag_true.null_descriptor) then none
  else do
    let used ← is_used capacity s i
    if ¬ used then none                              -- CGAL_assertion(is_used(i))
    else some { s with m_used := s.m_used.set i false, m_free_list := i :: s.m_free_list }

/-- The member `size_type top() const`. -/
def top (capacity : Nat) (s : Free_list_management_Tag_true_Tag_true) : Option Nat :=
  if is_empty capacity s then none                   -- CGAL_assertion(!is_empty())
  else if s.m_first_free_index ≠ capacity then some s.m_first_free_index
  else s.m_free_list.head?

/-- The member `pop()`: the top element becomes used and is returned. -/
def pop (capacity : Nat) (s : Free_list_management_Tag_true_Tag_true) :
    Option (Nat × Free_list_management_Tag_true_Tag_true) :=
  if is_empty capacity s then none                   -- CGAL_assertion(!is_empty())
  else do
    let t ← top capacity s
    let used ← is_used capacity s t
    if used then none                                -- CGAL_assertion(!is_used(top()))
    else if s.m_first_free_index ≠ capacity then
      let res := s.m_first_free_index
      if res < s.m_used.length then
        some (res, { s with m_first_free_index := (s.m_first_free_index + 1) % size_type_range,
                            m_used := s.m_used.set res true })
      else none
    else do
      let res ← s.m_free_list.head?
      if res < s.m_used.length then
        some (res, { s with m_free_list := s.m_free_list.tail,
                            m_used := s.m_used.set res true })
      else none

/-- The member `copy_special_data(src, dest)`: nothing is done. -/
def copy_special_data (_src dest : T) : T := dest

end Free_list_management_Tag_true_Tag_true

/-- Data members of `Free_list_management<CC_with_index, Tag_false, Tag_false>` (in-place
free list and in-place Booleans); the back pointer `m_cc_with_index` is the container the
functions below receive.  The source writes `m_cc_with_index[i]` where the element `i` of
the container is meant; it is read here as `(*m_cc_with_index)[i]`, as in the strategy
`Free_list_management<CC_with_index, Tag_false, Tag_true>`.  The functions take the number
`w` of bits of `size_type` (`sizeof(size_type)*8`) as their first argument. -/
structure Free_list_management_Tag_false_Tag_false where
  m_free_list : Nat
deriving DecidableEq, Repr

namespace Free_list_management_Tag_false_Tag_false

/-- The enumeration `enum Type { USED = 0, FREE = 1 };`. -/
inductive «Type» where
  | USED
  | FREE
deriving DecidableEq, Repr

/-- The conversion `(size_type)t` of an enumerator. -/
def «Type».to_size_type : «Type» → Nat
  | .USED => 0
  | .FREE => 1

/-- The conversion `(Type) n`; it is undefined for a number that is no enumerator. -/
def «Type».of_size_type : Nat → Option «Type»
  | 0 => some .USED
  | 1 => some .FREE
  | _ => none

/-- The constant `null_descriptor=std::numeric_limits<size_type>::max()/2`. -/
protected def null_descriptor (w : Nat) : Nat := (2 ^ w - 1) / 2

/-- The constant `nbbits_size_type_m1 = sizeof(size_type)*8 - 1`. -/
def nbbits_size_type_m1 (w : Nat) : Nat := w - 1

/-- The constant `mask_type = ((size_type)-1)-(((size_type)-1)/2)`. -/
def mask_type (w : Nat) : Nat := (2 ^ w - 1) - (2 ^ w - 1) / 2

/-- The function `static_type(e)`:
`(Type) ((Traits::size_t(e) & mask_type)>>(nbbits_size_type_m1))`. -/
def static_type (w : Nat) (e : T) : Option «Type» :=
  «Type».of_size_type ((size_t e &&& mask_type w) >>> nbbits_size_type_m1 w)

/-- The function `static_get_val(e)`: `Traits::size_t(e) & ~mask_type`, the complement
being taken on `w` bits. -/
def static_get_val (w : Nat) (e : T) : Nat :=
  size_t e &&& (2 ^ w - 1 - mask_type w)

/-- The function `static_set_type(e, t)`. -/
def static_set_type (w : Nat) (e : T) (t : «Type») : T :=
  set_size_t e (static_get_val w e ||| (t.to_size_type <<< nbbits_size_type_m1 w))

/-- The function `static_set_val(e, v, t)`. -/
def static_set_val (w : Nat) (e : T) (v : Nat) (t : «Type») : T :=
  set_size_t e (v ||| (t.to_size_type <<< nbbits_size_type_m1 w))

/-- The loop `for(; i<capacity(); ++i) static_set_val((*m_cc_with_index)[i], i+1, FREE);`
run for `n` more iterations from index `i`. -/
def link_free_successors (w : Nat) (c : Compact_container_with_index T P) :
    Nat → Nat → Option (Compact_container_with_index T P)
  | _, 0 => some c
  | i, n + 1 => do
    let e ← c.subscript i
    let c1 ← c.assign_subscript i (static_set_val w e ((i + 1) % 2 ^ w) .FREE)
    link_free_successors w c1 (i + 1) n

/-- The member `init()`; the result is the container and the new strategy. -/
def init (w : Nat) (c : Compact_container_with_index T P)
    (_s : Free_list_management_Tag_false_Tag_false) :
    Option (Compact_container_with_index T P × Free_list_management_Tag_false_Tag_false) := do
  let c1 ← link_free_successors w c 0 c.capacity_
  some (c1, { m_free_list := 0 })

/-- The member `increase_to(old_size)`, called when the capacity has already been
raised. -/
def increase_to (w : Nat) (c : Compact_container_with_index T P)
    (s : Free_list_management_Tag_false_Tag_false) (old_size : Nat) :
    Option (Compact_container_with_index T P × Free_list_management_Tag_false_Tag_false) :=
  if ¬ (old_size < c.capacity_) then none            -- CGAL_assertion(capacity()>old_size)
  else if s.m_free_list ≠ old_size then none         -- CGAL_assertion(m_free_list==old_size)
  else do
    let c1 ← link_free_successors w c old_size (c.capacity_ - old_size)
    some (c1, s)

/-- The member `swap(Self& other)`; the result is the new `*this` and the new `other`. -/
def swap (a other : Free_list_management_Tag_false_Tag_false) :
    Free_list_management_Tag_false_Tag_false × Free_list_management_Tag_false_Tag_false :=
  ({ m_free_list := other.m_free_list }, { m_free_list := a.m_free_list })

/-- The member `bool is_empty() const`. -/
def is_empty (c : Compact_container_with_index T P)
    (s : Free_list_management_Tag_false_Tag_false) : Bool :=
  s.m_free_list == c.capacity_

/-- The member `bool is_used(size_type i) const`. -/
def is_used (w : Nat) (c : Compact_container_with_index T P) (i : Nat) : Option Bool := do
  let e ← c.subscript i
  let t ← static_type w e
  some (t == .USED)

/-- The member `push(i)`: the element `i` becomes free. -/
def push (w : Nat) (c : Compact_container_with_index T P)
    (s : Free_list_management_Tag_false_Tag_false) (i : Nat) :
    Option (Compact_container_with_index T P × Free_list_management_Tag_false_Tag_false) :=
  if ¬ (i < c.capacity_) then none                   -- CGAL_assertion(i<capacity())
  else do
    let e ← c.subscript i
    let c1 ← c.assign_subscript i (static_set_val w e s.m_free_list .FREE)
    some (c1, { m_free_list := i })

/-- The member `size_type top() const`. -/
def top (c : Compact_container_with_index T P)
    (s : Free_list_management_Tag_false_Tag_false) : Option Nat :=
  if is_empty c s then none else some s.m_free_list

/-- The member `pop()`: the top element becomes used and is returned. -/
def pop (w : Nat) (c : Compact_container_with_index T P)
    (s : Free_list_management_Tag_false_Tag_false) :
    Option (Nat × Compact_container_with_index T P ×
      Free_list_management_Tag_false_Tag_false) :=
  if is_empty c s then none                          -- CGAL_assertion(!is_empty())
  else do
    let res := s.m_free_list
    let e ← c.subscript res
    let c1 ← c.assign_subscript res (static_set_type w e .USED)
    let e1 ← c1.subscript res
    some (res, c1, { m_free_list := size_t e1 })

/-- The member `copy_special_data(src, dest)`. -/
def copy_special_data (src dest : T) : T :=
  set_size_t dest (size_t src)

end Free_list_management_Tag_false_Tag_false

/-- The constructor `Free_list_management(CC_with_index* cc_with_index)` of the strategy
`Free_list_management<CC_with_index, Tag_true, Tag_true>`: the stack and the vector are
default-constructed, hence empty, and `m_first_free_index` is not initialised (it holds
`uninitialized`). -/
def Free_list_management_Tag_true_Tag_true.construct (uninitialized : Nat) :
    Free_list_management_Tag_true_Tag_true :=
  { m_free_list := [], m_used := [], m_first_free_index := uninitialized }

end operations

section specification

variable {T : Type} [Compact_container_with_index_traits T] {P : Increment_policy}

/-- The block of elements `all_items` as a list (empty for the null pointer). -/
def Compact_container_with_index.items (c : Compact_container_with_index T P) : List T :=
  c.all_items.getD []

/-- An operation of a client on the arena. -/
inductive Operation (T : Type) where
  | insert (t : T)
  | emplace (t : T)
  | erase (i : Nat)

/-- One client operation applied to the arena (for `emplace` the constructor called is the
copy of the argument). -/
def apply_operation (c : Compact_container_with_index T P) :
    Operation T → Option (Compact_container_with_index T P)
  | .insert t => (c.insert t).map Prod.snd
  | .emplace t => (c.emplace (fun (a : T) => a) t).map Prod.snd
  | .erase i => c.erase i

/-- A sequence of client operations applied in order; `none` as soon as one of them fails. -/
def run (c : Compact_container_with_index T P) :
    List (Operation T) → Option (Compact_container_with_index T P)
  | [] => some c
  | op :: ops => (apply_operation c op).bind (fun c1 => run c1 ops)

/-- An arena state is reachable when a sequence of insert/emplace/erase calls, none of which
fails, leads to it from a freshly constructed arena. -/
def Reachable (c : Compact_container_with_index T P) : Prop :=
  ∃ (c0 : Compact_container_with_index T P) (ops : List (Operation T)),
    Compact_container_with_index.construct = some c0 ∧ run c0 ops = some c

/-- The list `l` is the chain of indices met when following the link fields from `h` up to
`null_descriptor`. -/
def Links (items : List T) : Nat → List Nat → Prop
  | h, [] => h = null_descriptor
  | h, x :: xs => h = x ∧ x ≠ null_descriptor ∧
      ∃ e, items[x]? = some e ∧ Links items (size_t e) xs

/-- The representation invariant of the arena, with `l` the content of its free list. -/
structure Inv (c : Compact_container_with_index T P) (l : List Nat) : Prop where
  cap_lt : c.capacity_ < size_type_range
  used_len : c.free_list.m_used.length = c.capacity_
  items_len : c.items.length = c.capacity_
  items_some : 0 < c.capacity_ → c.all_items = some c.items
  links : Links c.items c.free_list.m_free_list l
  nodup : l.Nodup
  mem : ∀ i, i ∈ l ↔ c.free_list.m_used[i]? = some false
  size_eq : c.size_ + l.length = c.capacity_

/-- Following the link fields from index `i` until `null_descriptor` is met, for at most
`fuel` steps; the indices visited, in order. -/
def follow_links (c : Compact_container_with_index T P) : Nat → Nat → Option (List Nat)
  | fuel, i =>
    if i = null_descriptor then some []
    else
      match fuel with
      | 0 => none
      | fuel + 1 =>
        match c.subscript i with
        | none => none
        | some e => (follow_links c fuel (size_t e)).map (fun l => i :: l)

/-- The free list of the arena: the indices met from the head `m_free_list`. -/
def free_list_indices (c : Compact_container_with_index T P) : Option (List Nat) :=
  follow_links c c.capacity_ c.free_list.m_free_list

/-- The loop `for (; it != end(); ++it)` for at most `fuel` iterations: the indices the
iterator stands at, in order. -/
def traverse_loop (c : Compact_container_with_index T P) :
    Nat → CC_iterator_with_index → Option (List Nat)
  | fuel, it =>
    if it = c.end then some []
    else
      match fuel with
      | 0 => none
      | fuel + 1 =>
        match CC_iterator_with_index.increment c it with
        | none => none
        | some it1 => (traverse_loop c fuel it1).map (fun l => it.m_index :: l)

/-- The indices visited by `for (it = begin(); it != end(); ++it)`. -/
def traverse (c : Compact_container_with_index T P) : Option (List Nat) :=
  c.begin.bind (fun it => traverse_loop c c.capacity_ it)

/-- The indices `i < capacity()` with `is_used(i)`, in increasing order. -/
def used_indices (c : Compact_container_with_index T P) : List Nat :=
  (List.range c.capacity_).filter (fun i => c.is_used i == some true)

/-- One client operation applied to the arena and to the list of outstanding handles: the
handles returned by insertions and not erased since. -/
def apply_tracking (s : Compact_container_with_index T P × List Nat) :
    Operation T → Option (Compact_container_with_index T P × List Nat)
  | .insert t => (s.1.insert t).map (fun r => (r.2, r.1 :: s.2))
  | .emplace t => (s.1.emplace (fun (a : T) => a) t).map (fun r => (r.2, r.1 :: s.2))
  | .erase i => (s.1.erase i).map (fun c1 => (c1, s.2.erase i))

/-- A sequence of client operations applied in order, with the outstanding handles. -/
def run_tracking (s : Compact_container_with_index T P × List Nat) :
    List (Operation T) → Option (Compact_container_with_index T P × List Nat)
  | [] => some s
  | op :: ops => (apply_tracking s op).bind (fun s1 => run_tracking s1 ops)

/-- The values met by `for (it = begin(); it != end(); ++it)`, each read with `operator*`. -/
def traverse_values (c : Compact_container_with_index T P) : Option (List T) :=
  (traverse c).bind (fun l => l.mapM (fun i => c.subscript i))

/-- The policy `Multiply_by_two_policy_for_cc_with_size<2>`. -/
def doubling_2 : Increment_policy := .Multiply_by_two_policy_for_cc_with_size 2

/-- The policy `Multiply_by_two_policy_for_cc_with_size<1>`. -/
def doubling_1 : Increment_policy := .Multiply_by_two_policy_for_cc_with_size 1

/-- The policy `Multiply_by_two_policy_for_cc_with_size<0>`. -/
def doubling_0 : Increment_policy := .Multiply_by_two_policy_for_cc_with_size 0

/-- Example: a freshly constructed arena of `Index_for_cc_with_index` elements. -/
def arena_fresh (P : Increment_policy) : Compact_container_with_index Index_for_cc_with_index P :=
  { capacity_ := 0, size_ := 0, block_size := P.first_block_size, all_items := none,
    free_list := { m_free_list := null_descriptor, m_used := [] } }

/-- Example: the arena with policy `doubling_2` after the insertion of the elements 10 and
20; it is full. -/
def arena_AB : Compact_container_with_index Index_for_cc_with_index doubling_2 :=
  { capacity_ := 2, size_ := 2, block_size := 2,
    all_items := some [{ m_idx := 10 }, { m_idx := 20 }],
    free_list := { m_free_list := null_descriptor, m_used := [true, true] } }

/-- Example: the arena with policy `doubling_2` after the insertion of the elements 10, 20
and 30. -/
def arena_ABC : Compact_container_with_index Index_for_cc_with_index doubling_2 :=
  { capacity_ := 4, size_ := 3, block_size := 4,
    all_items := some [{ m_idx := 10 }, { m_idx := 2 }, { m_idx := 30 },
      { m_idx := null_descriptor }],
    free_list := { m_free_list := 3, m_used := [true, true, true, false] } }

/-- Example: the arena `arena_ABC` after `erase(1)`. -/
def arena_AC : Compact_container_with_index Index_for_cc_with_index doubling_2 :=
  { capacity_ := 4, size_ := 2, block_size := 4,
    all_items := some [{ m_idx := 10 }, { m_idx := 3 }, { m_idx := 30 },
      { m_idx := null_descriptor }],
    free_list := { m_free_list := 1, m_used := [true, false, true, false] } }

/-- Example: the arena `arena_AC` after the insertion of the element 40. -/
def arena_ADC : Compact_container_with_index Index_for_cc_with_index doubling_2 :=
  { capacity_ := 4, size_ := 3, block_size := 4,
    all_items := some [{ m_idx := 10 }, { m_idx := 40 }, { m_idx := 30 },
      { m_idx := null_descriptor }],
    free_list := { m_free_list := 3, m_used := [true, true, true, false] } }

/-- The values of the list inserted one after the other (as the member
`insert(InputIterator first, InputIterator last)` does), with the handle each insertion
returns, in order. -/
def insert_handles (c : Compact_container_with_index T P) :
    List T → Option (List Nat × Compact_container_with_index T P)
  | [] => some ([], c)
  | t :: ts => do
    let (h, c1) ← c.insert t
    let (hs, c2) ← insert_handles c1 ts
    some (h :: hs, c2)

/-- One client operation applied to the arena and to the number of growths so far: an
insertion calls `increase_size()` exactly when it finds the free list empty. -/
def apply_counting (s : Compact_container_with_index T P × Nat) :
    Operation T → Option (Compact_container_with_index T P × Nat)
  | .insert t => (s.1.insert t).map (fun r =>
      (r.2, if Free_list_management_Tag_false_Tag_true.is_empty s.1 then s.2 + 1 else s.2))
  | .emplace t => (s.1.emplace (fun (a : T) => a) t).map (fun r =>
      (r.2, if Free_list_management_Tag_false_Tag_true.is_empty s.1 then s.2 + 1 else s.2))
  | .erase i => (s.1.erase i).map (fun c1 => (c1, s.2))

/-- A sequence of client operations applied in order, with the number of growths. -/
def run_counting (s : Compact_container_with_index T P × Nat) :
    List (Operation T) → Option (Compact_container_with_index T P × Nat)
  | [] => some s
  | op :: ops => (apply_counting s op).bind (fun s1 => run_counting s1 ops)

/-- The policy `Constant_size_policy_for_cc_with_size<0>`. -/
def constant_0 : Increment_policy := .Constant_size_policy_for_cc_with_size 0

/-- The policy `Constant_size_policy_for_cc_with_size<1>`. -/
def constant_1 : Increment_policy := .Constant_size_policy_for_cc_with_size 1

/-- The policy `Constant_size_policy_for_cc_with_size<2>`. -/
def constant_2 : Increment_policy := .Constant_size_policy_for_cc_with_size 2

/-- The value of `block_size` after a growth that brought the capacity to `new_capacity`
(the effect of `Increment_policy::increase_size`). -/
def Increment_policy.block_size_after_growth (P : Increment_policy)
    (new_capacity old_block_size : Nat) : Nat :=
  match P with
  | .Multiply_by_two_policy_for_cc_with_size _ => new_capacity
  | .Constant_size_policy_for_cc_with_size _ => old_block_size

/-- The invariant that links `block_size` to the policy: under the doubling policy it is
`first_block_size` while the capacity is 0 and the capacity afterwards; under the constant
policy it is always `first_block_size`. -/
def Block_size_inv (c : Compact_container_with_index T P) : Prop :=
  match P with
  | .Multiply_by_two_policy_for_cc_with_size k =>
    (c.capacity_ = 0 ∧ c.block_size = k % 2 ^ 32) ∨
    (0 < c.capacity_ ∧ c.block_size = c.capacity_)
  | .Constant_size_policy_for_cc_with_size k => c.block_size = k % 2 ^ 32

/-- Example: the arena with policy `constant_2` after the insertion of the elements 10, 20
and 30. -/
def arena_constant_ABC : Compact_container_with_index Index_for_cc_with_index constant_2 :=
  { capacity_ := 4, size_ := 3, block_size := 2,
    all_items := some [{ m_idx := 10 }, { m_idx := 2 }, { m_idx := 30 },
      { m_idx := null_descriptor }],
    free_list := { m_free_list := 3, m_used := [true, true, true, false] } }

/-- Example: the arena with policy `constant_1` after the insertion of the elements 10 and
20, `erase(0)` and the insertion of the element 30; it holds 30 in slot 0 and 20 in
slot 1. -/
def arena_CB : Compact_container_with_index Index_for_cc_with_index constant_1 :=
  { capacity_ := 2, size_ := 2, block_size := 1,
    all_items := some [{ m_idx := 30 }, { m_idx := 20 }],
    free_list := { m_free_list := null_descriptor, m_used := [true, true] } }

/-- Example: what the copy constructor makes of `arena_CB`. -/
def arena_CB_copy : Compact_container_with_index Index_for_cc_with_index constant_1 :=
  { capacity_ := 2, size_ := 2, block_size := 1,
    all_items := some [{ m_idx := 1 }, { m_idx := 20 }],
    free_list := { m_free_list := null_descriptor, m_used := [true, true] } }

/-- Example: the arena with policy `constant_1` after the insertion of the element 30 into a
fresh arena. -/
def arena_C : Compact_container_with_index Index_for_cc_with_index constant_1 :=
  { capacity_ := 1, size_ := 1, block_size := 1,
    all_items := some [{ m_idx := 30 }],
    free_list := { m_free_list := null_descriptor, m_used := [true] } }

/-- A strategy `Free_list_management<CC_with_index, Tag_true, Tag_true>` together with
the capacity of the container it points to. -/
structure Stack_strategy_state where
  capacity : Nat
  free_list : Free_list_management_Tag_true_Tag_true
deriving DecidableEq, Repr

/-- A call on the strategy `Free_list_management<CC_with_index, Tag_true, Tag_true>`:
`push(i)`, `pop()`, or `increase_to(old capacity)` after the container has raised its
capacity to `new_capacity`. -/
inductive Stack_strategy_operation where
  | push (i : Nat)
  | pop
  | increase_to (new_capacity : Nat)
deriving DecidableEq, Repr

/-- One call applied to the strategy; `none` when an assertion of the call fails. -/
def Stack_strategy_state.apply (s : Stack_strategy_state) :
    Stack_strategy_operation → Option Stack_strategy_state
  | .push i =>
    (Free_list_management_Tag_true_Tag_true.push s.capacity s.free_list i).map
      (fun f => { capacity := s.capacity, free_list := f })
  | .pop =>
    (Free_list_management_Tag_true_Tag_true.pop s.capacity s.free_list).map
      (fun r => { capacity := s.capacity, free_list := r.2 })
  | .increase_to new_capacity =>
    if new_capacity < size_type_range then
      (Free_list_management_Tag_true_Tag_true.increase_to new_capacity s.free_list
        s.capacity).map (fun f => { capacity := new_capacity, free_list := f })
    else none

/-- A sequence of calls applied to the strategy, each within its asserted precondition. -/
def Stack_strategy_state.run (s : Stack_strategy_state) :
    List Stack_strategy_operation → Option Stack_strategy_state
  | [] => some s
  | op :: ops => (s.apply op).bind (fun s1 => s1.run ops)

/-- The representation invariant of the strategy
`Free_list_management<CC_with_index, Tag_true, Tag_true>`. -/
structure Stack_strategy_inv (s : Stack_strategy_state) : Prop where
  cap_lt : s.capacity < size_type_range
  used_len : s.free_list.m_used.length = s.capacity
  first_le : s.free_list.m_first_free_index ≤ s.capacity
  free_iff : ∀ i, i < s.capacity →
    (s.free_list.m_used[i]? = some false ↔
      (s.free_list.m_first_free_index ≤ i ∨ i ∈ s.free_list.m_free_list))
  nodup : s.free_list.m_free_list.Nodup
  mem_lt : ∀ i, i ∈ s.free_list.m_free_list → i < s.free_list.m_first_free_index

/-- Example: a container of capacity 130 with an allocated block of 130 elements, for a
`size_type` of 8 bits. -/
def arena_130 : Compact_container_with_index Index_for_cc_with_index constant_1 :=
  { capacity_ := 130, size_ := 129, block_size := 1,
    all_items := some (List.replicate 130 { m_idx := 0 }),
    free_list := { m_free_list := 0, m_used := [] } }

/-- Example: the arena `arena_ABC` after `erase(0)`: slot 0 is free, the first used slot
is slot 1. -/
def arena_BC : Compact_container_with_index Index_for_cc_with_index doubling_2 :=
  { capacity_ := 4, size_ := 2, block_size := 4,
    all_items := some [{ m_idx := 3 }, { m_idx := 2 }, { m_idx := 30 },
      { m_idx := null_descriptor }],
    free_list := { m_free_list := 0, m_used := [false, true, true, false] } }

/-- Example: the arena `arena_AB` inside `increase_size()`, at the call
`free_list.increase_to(2)`: the capacity has been raised to 4 and the two used elements
have been copied into the new block. -/
def arena_AB_relocated : Compact_container_with_index Index_for_cc_with_index doubling_2 :=
  { capacity_ := 4, size_ := 2, block_size := 2,
    all_items := some [{ m_idx := 10 }, { m_idx := 20 }, { m_idx := 0 }, { m_idx := 0 }],
    free_list := { m_free_list := null_descriptor, m_used := [true, true] } }

/-- Example: the arena `arena_AB_relocated` after `free_list.increase_to(2)`. -/
def arena_AB_threaded : Compact_container_with_index Index_for_cc_with_index doubling_2 :=
  { capacity_ := 4, size_ := 2, block_size := 2,
    all_items := some [{ m_idx := 10 }, { m_idx := 2 }, { m_idx := 3 },
      { m_idx := null_descriptor }],
    free_list := { m_free_list := 2, m_used := [true, true, false, false] } }

/-- The indices returned by `n` successive calls of `pop()` on the strategy
`Free_list_management<CC_with_index, Tag_false, Tag_true>` of the container `c`, in the
order of the calls, and the container they leave. -/
def Free_list_management_Tag_false_Tag_true.pops :
    Nat → Compact_container_with_index T P →
      Option (List Nat × Compact_container_with_index T P)
  | 0, c => some ([], c)
  | n + 1, c => do
    let r ← Free_list_management_Tag_false_Tag_true.pop c
    let rs ← Free_list_management_Tag_false_Tag_true.pops n r.2
    some (r.1 :: rs.1, rs.2)

/-- The indices returned by `n` successive calls of `pop()` on the strategy
`Free_list_management<CC_with_index, Tag_true, Tag_true>`, in the order of the calls, and
the strategy they leave. -/
def Free_list_management_Tag_true_Tag_true.pops (capacity : Nat) :
    Nat → Free_list_management_Tag_true_Tag_true →
      Option (List Nat × Free_list_management_Tag_true_Tag_true)
  | 0, s => some ([], s)
  | n + 1, s => do
    let r ← Free_list_management_Tag_true_Tag_true.pop capacity s
    let rs ← Free_list_management_Tag_true_Tag_true.pops capacity n r.2
    some (r.1 :: rs.1, rs.2)

/-- The indices returned by `n` successive calls of `pop()` on the strategy
`Free_list_management<CC_with_index, Tag_false, Tag_false>` of the container `c`, in the
order of the calls, and the container and the strategy they leave. -/
def Free_list_management_Tag_false_Tag_false.pops (w : Nat) :
    Nat → Compact_container_with_index T P → Free_list_management_Tag_false_Tag_false →
      Option (List Nat × Compact_container_with_index T P ×
        Free_list_management_Tag_false_Tag_false)
  | 0, c, s => some ([], c, s)
  | n + 1, c, s => do
    let r ← Free_list_management_Tag_false_Tag_false.pop w c s
    let rs ← Free_list_management_Tag_false_Tag_false.pops w n r.2.1 r.2.2
    some (r.1 :: rs.1, rs.2)

/-- Example: a container of capacity 128 with an allocated block of 128 elements, for a
`size_type` of 8 bits. -/
def arena_128 : Compact_container_with_index Index_for_cc_with_index constant_1 :=
  { capacity_ := 128, size_ := 0, block_size := 1,
    all_items := some (List.replicate 128 { m_idx := 0 }),
    free_list := { m_free_list := 0, m_used := [] } }

/-- The chain of the in-place free list of the bit-squatting strategy on a `size_type` of
`w` bits: `l` lists the indices met from `h`, each below `capacity` and tagged `FREE`, and
the value stored in the last of them is `capacity`, the end of the list. -/
def Tagged_links (w : Nat) (items : List T) (capacity : Nat) : Nat → List Nat → Prop
  | h, [] => h = capacity
  | h, x :: xs => h = x ∧ x < capacity ∧
      ∃ e, items[x]? = some e ∧
        Free_list_management_Tag_false_Tag_false.static_type w e = some .FREE ∧
        Tagged_links w items capacity
          (Free_list_management_Tag_false_Tag_false.static_get_val w e) xs

/-- A strategy `Free_list_management<CC_with_index, Tag_false, Tag_false>` together with
the container it points to. -/
structure Bit_squatting_state (T : Type) (P : Increment_policy) where
  container : Compact_container_with_index T P
  free_list : Free_list_management_Tag_false_Tag_false

/-- A call on the strategy `Free_list_management<CC_with_index, Tag_false, Tag_false>`:
`push(i)`, `pop()`, or `increase_to(old capacity)` after the container has moved to a
block that holds the elements `new_elements` after the old ones. -/
inductive Bit_squatting_operation (T : Type) where
  | push (i : Nat)
  | pop
  | increase_to (new_elements : List T)

/-- One call applied to the strategy, within the contract of the interface: `push(i)` is
called on a used index and the capacity stays below `2^(w-1)`; `none` when the contract is
not met or an assertion of the call fails. -/
def Bit_squatting_state.apply (w : Nat) (s : Bit_squatting_state T P) :
    Bit_squatting_operation T → Option (Bit_squatting_state T P)
  | .push i =>
    match Free_list_management_Tag_false_Tag_false.is_used w s.container i with
    | some true =>
      (Free_list_management_Tag_false_Tag_false.push w s.container s.free_list i).map
        (fun r => { container := r.1, free_list := r.2 })
    | _ => none
  | .pop =>
    (Free_list_management_Tag_false_Tag_false.pop w s.container s.free_list).map
      (fun r => { container := r.2.1, free_list := r.2.2 })
  | .increase_to new_elements =>
    if s.container.capacity_ + new_elements.length < 2 ^ (w - 1) then
      (Free_list_management_Tag_false_Tag_false.increase_to w
        { s.container with
          capacity_ := s.container.capacity_ + new_elements.length,
          all_items := some (s.container.items ++ new_elements) }
        s.free_list s.container.capacity_).map
        (fun r => { container := r.1, free_list := r.2 })
    else none

/-- A sequence of calls applied to the strategy. -/
def Bit_squatting_state.run (w : Nat) (s : Bit_squatting_state T P) :
    List (Bit_squatting_operation T) → Option (Bit_squatting_state T P)
  | [] => some s
  | op :: ops => (s.apply w op).bind (fun s1 => s1.run w ops)

/-- The representation invariant of the strategy
`Free_list_management<CC_with_index, Tag_false, Tag_false>`, with `l` the content of its
free list. -/
structure Bit_squatting_inv (w : Nat) (s : Bit_squatting_state T P) (l : List Nat) :
    Prop where
  width : 1 ≤ w
  cap_lt : s.container.capacity_ < 2 ^ (w - 1)
  items_len : s.container.items.length = s.container.capacity_
  items_some : 0 < s.container.capacity_ → s.container.all_items = some s.container.items
  links : Tagged_links w s.container.items s.container.capacity_ s.free_list.m_free_list l
  nodup : l.Nodup
  mem : ∀ i, i ∈ l ↔
    ∃ e, s.container.items[i]? = some e ∧
      Free_list_management_Tag_false_Tag_false.static_type w e = some .FREE

/-- Example: a container of capacity 2 with an allocated block of two elements. -/
def arena_two_slots : Compact_container_with_index Index_for_cc_with_index constant_2 :=
  { capacity_ := 2, size_ := 0, block_size := 2,
    all_items := some [{ m_idx := 0 }, { m_idx := 0 }],
    free_list := { m_free_list := 0, m_used := [] } }

end specification

end CGAL

namespace CGAL

section lemmas

open Compact_container_with_index Free_list_management_Tag_false_Tag_true

variable {T : Type} [Compact_container_with_index_traits T] {P : Increment_policy}

theorem size_type_range_pos : 0 < size_type_range := by
  unfold size_type_range; positivity

theorem null_descriptor_succ : null_descriptor + 1 = size_type_range := by
  have := size_type_range_pos
  unfold null_descriptor; omega

omit [Compact_container_with_index_traits T] in
theorem items_of_some {c : Compact_container_with_index T P} {items : List T}
    (h : c.all_items = some items) : c.items = items := by
  simp [Compact_container_with_index.items, h]

theorem link_successors_spec (n : Nat) : ∀ (i : Nat) (c : Compact_container_with_index T P)
    (items : List T), c.all_items = some items → items.length = c.capacity_ →
    i + n ≤ c.capacity_ →
    ∃ items1, link_successors c i n = some { c with all_items := some items1 } ∧
      items1.length = items.length ∧
      (∀ j, j < i ∨ i + n ≤ j → items1[j]? = items[j]?) ∧
      (∀ j e, i ≤ j → j < i + n → items[j]? = some e →
        items1[j]? = some (set_size_t e (j + 1))) := by
  induction n with
  | zero =>
    intro i c items h _ _
    refine ⟨items, ?_, rfl, fun _ _ => rfl, fun j e h1 h2 => by omega⟩
    simp only [link_successors]
    congr
    cases c; simp_all
  | succ n ih =>
    intro i c items h hl hi
    have hi1 : i < items.length := by omega
    obtain ⟨e, he⟩ : ∃ e, items[i]? = some e := ⟨items[i], List.getElem?_eq_getElem hi1⟩
    have hs : c.subscript i = some e := by
      simp only [subscript, h]; rw [if_pos (by omega)]; exact he
    have ha : c.assign_subscript i (set_size_t e (i + 1)) =
        some { c with all_items := some (items.set i (set_size_t e (i + 1))) } := by
      simp only [assign_subscript, h]; rw [if_pos ⟨by omega, hi1⟩]
    obtain ⟨items1, h1, h2, h3, h4⟩ := ih (i + 1)
      { c with all_items := some (items.set i (set_size_t e (i + 1))) }
      (items.set i (set_size_t e (i + 1))) rfl (by simp [hl]) (by simp; omega)
    refine ⟨items1, ?_, by simpa using h2, ?_, ?_⟩
    · simp only [link_successors, hs, ha, Option.bind_eq_bind, Option.some_bind]
      exact h1
    · intro j hj
      rw [h3 j (by omega), List.getElem?_set_ne (by omega)]
    · intro j e1 hj1 hj2 hje
      by_cases hji : j = i
      · subst hji
        rw [h3 j (by omega), List.getElem?_set_self hi1]
        simp only [he, Option.some.injEq] at hje
        rw [hje]
      · apply h4 j e1 (by omega) (by omega)
        rw [List.getElem?_set_ne (by omega)]; exact hje

theorem relocate_spec (c : Compact_container_with_index T P) (all_items : List T)
    (hcap : c.capacity_ < size_type_range) (hle : all_items.length ≤ c.capacity_)
    (hused : ∀ j, j < all_items.length → c.free_list.m_used[j]? = some true) (n : Nat) :
    ∀ (index : Nat) (all_items2 : List T), index + n ≤ all_items.length →
      all_items.length ≤ all_items2.length →
      ∃ r, relocate c all_items all_items2 index n = some r ∧
        r.length = all_items2.length ∧
        (∀ j, index ≤ j → j < index + n → r[j]? = all_items[j]?) ∧
        (∀ j, j < index ∨ index + n ≤ j → r[j]? = all_items2[j]?) := by
  induction n with
  | zero =>
    intro index all_items2 _ _
    exact ⟨all_items2, by simp [relocate], rfl, fun j h1 h2 => by omega, fun _ _ => rfl⟩
  | succ n ih =>
    intro index all_items2 h1 h2
    have hi : index < all_items.length := by omega
    have hu : c.is_used index = some true := by
      have hn := null_descriptor_succ
      simp only [Compact_container_with_index.is_used,
        Free_list_management_Tag_false_Tag_true.is_used]
      rw [if_pos ⟨by omega, by omega⟩]
      exact hused index hi
    obtain ⟨r, hr1, hr2, hr3, hr4⟩ := ih (index + 1) (all_items2.set index all_items[index])
      (by omega) (by simpa using h2)
    refine ⟨r, ?_, by simpa using hr2, ?_, ?_⟩
    · simp only [relocate, hu, Option.bind_eq_bind, Option.some_bind,
        List.getElem?_eq_getElem hi, List.getElem?_eq_getElem (show index < all_items2.length by omega)]
      simpa using hr1
    · intro j hj1 hj2
      by_cases hji : j = index
      · subst hji
        rw [hr4 j (by omega), List.getElem?_set_self (by omega), List.getElem?_eq_getElem hi]
      · exact hr3 j (by omega) (by omega)
    · intro j hj
      rw [hr4 j (by omega), List.getElem?_set_ne (by omega)]

omit [Compact_container_with_index_traits T] in
theorem policy_capacity (c : Compact_container_with_index T P) :
    (Increment_policy.increase_size c).capacity_ = c.capacity_ := by
  unfold Increment_policy.increase_size; cases P <;> rfl

omit [Compact_container_with_index_traits T] in
theorem policy_size (c : Compact_container_with_index T P) :
    (Increment_policy.increase_size c).size_ = c.size_ := by
  unfold Increment_policy.increase_size; cases P <;> rfl

omit [Compact_container_with_index_traits T] in
theorem policy_all_items (c : Compact_container_with_index T P) :
    (Increment_policy.increase_size c).all_items = c.all_items := by
  unfold Increment_policy.increase_size; cases P <;> rfl

omit [Compact_container_with_index_traits T] in
theorem policy_free_list (c : Compact_container_with_index T P) :
    (Increment_policy.increase_size c).free_list = c.free_list := by
  unfold Increment_policy.increase_size; cases P <;> rfl

omit [Compact_container_with_index_traits T] in
theorem policy_items (c : Compact_container_with_index T P) :
    (Increment_policy.increase_size c).items = c.items := by
  simp [Compact_container_with_index.items, policy_all_items]

theorem Links_congr {items1 items2 : List T} : ∀ (l : List Nat) (h : Nat),
    (∀ x, x ∈ l → items1[x]? = items2[x]?) → Links items1 h l → Links items2 h l := by
  intro l
  induction l with
  | nil => intro h _ hl; exact hl
  | cons x xs ih =>
    intro h hx hl
    obtain ⟨h1, h2, e, h3, h4⟩ := hl
    refine ⟨h1, h2, e, ?_, ih _ (fun y hy => hx y (List.mem_cons_of_mem _ hy)) h4⟩
    rw [← hx x (List.mem_cons_self _ _)]; exact h3

theorem Links_null {items : List T} {l : List Nat} (h : Links items null_descriptor l) :
    l = [] := by
  cases l with
  | nil => rfl
  | cons x xs => exact absurd h.1.symm h.2.1

theorem Links_ne_null {items : List T} {l : List Nat} {h : Nat}
    (hl : Links items h l) (hh : h ≠ null_descriptor) :
    ∃ e xs, l = h :: xs ∧ items[h]? = some e ∧ Links items (size_t e) xs := by
  cases l with
  | nil => exact absurd hl hh
  | cons x xs =>
    obtain ⟨h1, _, e, h3, h4⟩ := hl
    subst h1
    exact ⟨e, xs, rfl, h3, h4⟩

theorem Links_range (items : List T) (m : Nat) : ∀ (a : Nat),
    (∀ j, a ≤ j → j < a + m → ∃ e, items[j]? = some e ∧ size_t e = j + 1) →
    (∃ e, items[a + m]? = some e ∧ size_t e = null_descriptor) →
    a + m < null_descriptor → Links items a (List.range' a (m + 1)) := by
  induction m with
  | zero =>
    intro a _ h2 h3
    obtain ⟨e, he1, he2⟩ := h2
    exact ⟨rfl, by omega, e, he1, he2⟩
  | succ m ih =>
    intro a h1 h2 h3
    obtain ⟨e, he1, he2⟩ := h1 a (le_refl _) (by omega)
    rw [List.range'_succ]
    refine ⟨rfl, by omega, e, he1, ?_⟩
    rw [he2]
    apply ih (a + 1)
    · intro j hj1 hj2; exact h1 j (by omega) (by omega)
    · rw [show a + 1 + m = a + (m + 1) by omega]; exact h2
    · omega

theorem increase_to_spec (c : Compact_container_with_index T P) (items : List T) (old : Nat)
    (h : c.all_items = some items) (hl : items.length = c.capacity_)
    (hu : c.free_list.m_used.length = old) (hold : old < c.capacity_)
    (hh : c.free_list.m_free_list = null_descriptor) :
    ∃ items1, increase_to c old = some { c with
        all_items := some items1,
        free_list := { m_free_list := old,
                       m_used := c.free_list.m_used ++
                         List.replicate (c.capacity_ - old) false } } ∧
      items1.length = c.capacity_ ∧
      (∀ j, j + 1 < old → items1[j]? = items[j]?) ∧
      (∀ j e, old ≤ j + 1 → j + 1 < c.capacity_ → items[j]? = some e →
        items1[j]? = some (set_size_t e (j + 1))) ∧
      (∀ e, items[c.capacity_ - 1]? = some e →
        items1[c.capacity_ - 1]? = some (set_size_t e null_descriptor)) := by
  obtain ⟨items1, h1, h2, h3, h4⟩ := link_successors_spec
    (c.capacity_ - 1 - (if 0 < old then old - 1 else 0)) (if 0 < old then old - 1 else 0)
    ({ c with free_list := { c.free_list with
        m_used := c.free_list.m_used.take c.capacity_ ++
          List.replicate (c.capacity_ - c.free_list.m_used.length) false } } :
      Compact_container_with_index T P)
    items h hl (by simp only []; split <;> omega)
  have hlast : c.capacity_ - 1 < items1.length := by omega
  refine ⟨items1.set (c.capacity_ - 1) (set_size_t items1[c.capacity_ - 1] null_descriptor),
    ?_, by simp; omega, ?_, ?_, ?_⟩
  · unfold increase_to
    rw [if_neg (not_not.mpr hold), if_neg (not_not.mpr hh)]
    simp only [Option.bind_eq_bind]
    rw [h1]
    simp only [Option.some_bind, subscript, assign_subscript]
    rw [if_pos (by omega), List.getElem?_eq_getElem hlast]
    simp only [Option.some_bind]
    rw [if_pos ⟨by omega, hlast⟩]
    rw [List.take_of_length_le (by omega), hu]
    rfl
  · intro j hj
    rw [List.getElem?_set_ne (by omega), h3 j (by split <;> omega)]
  · intro j e hj1 hj2 hje
    rw [List.getElem?_set_ne (by omega)]
    exact h4 j e (by split <;> omega) (by split <;> omega) hje
  · intro e he
    rw [List.getElem?_set_self hlast]
    have : items1[c.capacity_ - 1]? = some e := by
      rw [h3 _ (by split <;> omega)]; exact he
    rw [List.getElem?_eq_getElem hlast] at this
    simp only [Option.some.injEq] at this
    rw [this]


omit [Compact_container_with_index_traits T] in
theorem lt_null_of_lt_capacity {c : Compact_container_with_index T P} {i : Nat}
    (hc : c.capacity_ < size_type_range) (hi : i < c.capacity_) : i ≠ null_descriptor := by
  have := null_descriptor_succ; omega

theorem Inv.is_used_eq {c : Compact_container_with_index T P} {l : List Nat} (inv : Inv c l)
    {i : Nat} (hi : i < c.capacity_) : c.is_used i = c.free_list.m_used[i]? := by
  simp only [Compact_container_with_index.is_used,
    Free_list_management_Tag_false_Tag_true.is_used]
  rw [if_pos ⟨hi, lt_null_of_lt_capacity inv.cap_lt hi⟩]

theorem Inv.is_used_none {c : Compact_container_with_index T P} {l : List Nat} (_inv : Inv c l)
    {i : Nat} (hi : ¬ i < c.capacity_) : c.is_used i = none := by
  simp only [Compact_container_with_index.is_used,
    Free_list_management_Tag_false_Tag_true.is_used]
  rw [if_neg (fun h => hi h.1)]

theorem Inv.subscript_eq {c : Compact_container_with_index T P} {l : List Nat} (inv : Inv c l)
    {i : Nat} (hi : i < c.capacity_) : c.subscript i = c.items[i]? := by
  simp only [subscript, inv.items_some (by omega)]
  rw [if_pos hi]

theorem Inv.assign_subscript_eq {c : Compact_container_with_index T P} {l : List Nat}
    (inv : Inv c l) {i : Nat} (hi : i < c.capacity_) (t : T) :
    c.assign_subscript i t = some { c with all_items := some (c.items.set i t) } := by
  have h := inv.items_len
  simp only [assign_subscript, inv.items_some (by omega)]
  rw [if_pos ⟨hi, by omega⟩]

theorem Inv.mem_lt {c : Compact_container_with_index T P} {l : List Nat} (inv : Inv c l)
    {i : Nat} (hi : i ∈ l) : i < c.capacity_ := by
  have h := (inv.mem i).1 hi
  have h2 := inv.used_len
  by_contra hn
  rw [List.getElem?_eq_none (by omega)] at h
  exact absurd h (by simp)

theorem Inv.used_or_mem {c : Compact_container_with_index T P} {l : List Nat} (inv : Inv c l)
    {i : Nat} (hi : i < c.capacity_) : c.free_list.m_used[i]? = some true ∨ i ∈ l := by
  have h2 := inv.used_len
  rw [inv.mem i, List.getElem?_eq_getElem (by omega)]
  cases c.free_list.m_used[i] <;> simp

theorem Inv.policy {c : Compact_container_with_index T P} {l : List Nat} (inv : Inv c l) :
    Inv (Increment_policy.increase_size c) l := by
  constructor
  · rw [policy_capacity]; exact inv.cap_lt
  · rw [policy_capacity, policy_free_list]; exact inv.used_len
  · rw [policy_capacity, policy_items]; exact inv.items_len
  · rw [policy_capacity, policy_items, policy_all_items]; exact inv.items_some
  · rw [policy_free_list, policy_items]; exact inv.links
  · exact inv.nodup
  · rw [policy_free_list]; exact inv.mem
  · rw [policy_capacity, policy_size]; exact inv.size_eq

theorem increase_size_spec {c : Compact_container_with_index T P} {l : List Nat}
    (inv : Inv c l) (hh : c.free_list.m_free_list = null_descriptor)
    (hg : c.capacity_ < (c.capacity_ + c.block_size) % size_type_range) :
    ∃ items1 : List T,
      increase_size c = some (Increment_policy.increase_size
        { capacity_ := (c.capacity_ + c.block_size) % size_type_range,
          size_ := c.size_, block_size := c.block_size,
          all_items := some items1,
          free_list := { m_free_list := c.capacity_,
                         m_used := c.free_list.m_used ++ List.replicate
                           ((c.capacity_ + c.block_size) % size_type_range - c.capacity_)
                           false } }) ∧
      items1.length = (c.capacity_ + c.block_size) % size_type_range ∧
      (∀ j, j + 1 < c.capacity_ → items1[j]? = c.items[j]?) ∧
      (∀ e, 0 < c.capacity_ → c.items[c.capacity_ - 1]? = some e →
        items1[c.capacity_ - 1]? = some (set_size_t e c.capacity_)) ∧
      (∀ j, c.capacity_ ≤ j → j + 1 < (c.capacity_ + c.block_size) % size_type_range →
        items1[j]? = some (set_size_t zero_filled (j + 1))) ∧
      items1[(c.capacity_ + c.block_size) % size_type_range - 1]? =
        some (set_size_t zero_filled null_descriptor) := by
  have hl : l = [] := by
    have := inv.links; rw [hh] at this; exact Links_null this
  subst hl
  have hmod : (c.capacity_ + c.block_size) % size_type_range < size_type_range :=
    Nat.mod_lt _ size_type_range_pos
  generalize hn : (c.capacity_ + c.block_size) % size_type_range = n at *
  have hused : ∀ j, j < c.items.length → c.free_list.m_used[j]? = some true := by
    intro j hj
    rcases inv.used_or_mem (by rw [← inv.items_len]; exact hj) with h | h
    · exact h
    · simp at h
  obtain ⟨r, hr1, hr2, hr3, hr4⟩ := relocate_spec
    ({ c with capacity_ := n } : Compact_container_with_index T P) c.items
    hmod (by simp [inv.items_len]; omega) hused c.capacity_ 0
    (List.replicate n zero_filled) (by simp [inv.items_len]) (by simp [inv.items_len]; omega)
  obtain ⟨items1, h1, h2, h3, h4, h5⟩ := increase_to_spec
    ({ c with capacity_ := n, all_items := some r } : Compact_container_with_index T P)
    r c.capacity_ rfl (by simpa using hr2) inv.used_len hg hh
  have hrl : r.length = n := by simpa using hr2
  have hil := inv.items_len
  refine ⟨items1, ?_, h2, ?_, ?_, ?_, ?_⟩
  · unfold increase_size
    simp only [Option.bind_eq_bind, hn]
    have : c.all_items.getD [] = c.items := rfl
    rw [this, hr1]
    simp only [Option.some_bind]
    rw [h1]
    rfl
  · intro j hj
    rw [h3 j hj, hr3 j (by omega) (by omega)]
  · intro e hc he
    have := h4 (c.capacity_ - 1) e (by omega) (by simp; omega)
      (by rw [hr3 _ (by omega) (by omega)]; exact he)
    rw [this, show c.capacity_ - 1 + 1 = c.capacity_ by omega]
  · intro j hj1 hj2
    apply h4 j zero_filled (by omega) (by simpa using hj2)
    rw [hr4 j (by omega), List.getElem?_replicate, if_pos (by omega)]
  · apply h5 zero_filled
    simp only []
    rw [hr4 _ (by omega), List.getElem?_replicate, if_pos (by omega)]


theorem emplace_eq_insert {Args : Type} (c : Compact_container_with_index T P)
    (value_type : Args → T) (args : Args) :
    c.emplace value_type args = c.insert (value_type args) := rfl

theorem insert_spec_nonempty {c : Compact_container_with_index T P} {l : List Nat}
    (inv : Inv c l) (hh : c.free_list.m_free_list ≠ null_descriptor) (t : T) :
    ∃ e xs, l = c.free_list.m_free_list :: xs ∧
      c.items[c.free_list.m_free_list]? = some e ∧
      c.insert t = some (c.free_list.m_free_list,
        { c with size_ := c.size_ + 1,
                 all_items := some (c.items.set c.free_list.m_free_list t),
                 free_list := { m_free_list := size_t e,
                                m_used := c.free_list.m_used.set c.free_list.m_free_list true } }) ∧
      Inv ({ c with
              size_ := c.size_ + 1,
              all_items := some (c.items.set c.free_list.m_free_list t),
              free_list := { m_free_list := size_t e,
                             m_used := c.free_list.m_used.set c.free_list.m_free_list true } } :
          Compact_container_with_index T P) xs := by
  obtain ⟨e, xs, hl, he, hlinks⟩ := Links_ne_null inv.links hh
  have hmem : c.free_list.m_free_list ∈ l := by rw [hl]; exact List.mem_cons_self _ _
  have hlt := inv.mem_lt hmem
  have hfalse := (inv.mem _).1 hmem
  have hnd : c.free_list.m_free_list ∉ xs ∧ xs.Nodup := by
    have := inv.nodup; rw [hl] at this; exact List.nodup_cons.1 this
  have hsz : c.size_ + (xs.length + 1) = c.capacity_ := by
    have := inv.size_eq; rw [hl] at this; simpa using this
  have hcap := inv.cap_lt
  have hul := inv.used_len
  have hil := inv.items_len
  refine ⟨e, xs, hl, he, ?_, ?_⟩
  · have hemp : is_empty c = false := by simp [is_empty, hh]
    have hu : Free_list_management_Tag_false_Tag_true.is_used c c.free_list.m_free_list
        = some false := by
      have := inv.is_used_eq hlt
      rw [hfalse] at this; exact this
    have hpop : pop c = some (c.free_list.m_free_list, { c with free_list :=
        { m_free_list := size_t e,
          m_used := c.free_list.m_used.set c.free_list.m_free_list true } }) := by
      simp [pop, top, hemp, hu, inv.subscript_eq hlt, he]
    unfold Compact_container_with_index.insert
    simp only [hemp, Bool.false_eq_true, if_false, Option.bind_eq_bind, Option.some_bind, hpop,
      subscript, assign_subscript, inv.items_some (by omega)]
    rw [if_pos hlt, he]
    simp only [Option.some_bind]
    rw [if_pos ⟨hlt, by omega⟩]
    simp only [Option.some_bind]
    rw [Nat.mod_eq_of_lt (by omega)]
  · constructor
    · exact hcap
    · simpa using hul
    · simpa [Compact_container_with_index.items] using hil
    · intro _; rfl
    · apply Links_congr xs _ _ hlinks
      intro x hx
      have : c.free_list.m_free_list ≠ x := fun h => hnd.1 (h ▸ hx)
      simp [Compact_container_with_index.items, List.getElem?_set_ne this]
    · exact hnd.2
    · intro i
      by_cases hi : i = c.free_list.m_free_list
      · subst hi
        simp only [List.getElem?_set_self (show c.free_list.m_free_list <
          c.free_list.m_used.length by omega)]
        simp [hnd.1]
      · simp only [List.getElem?_set_ne (Ne.symm hi)]
        rw [← inv.mem i, hl]
        simp [hi]
    · simp; omega

theorem length_le_of_nodup_lt {l : List Nat} {n : Nat} (hnd : l.Nodup)
    (hlt : ∀ i, i ∈ l → i < n) : l.length ≤ n := by
  have h : l ⊆ List.range n := fun i hi => List.mem_range.2 (hlt i hi)
  have := (List.subperm_of_subset hnd h).length_le
  simpa using this

theorem push_spec {c : Compact_container_with_index T P} {items : List T} {i : Nat} {e : T}
    (h : c.all_items = some items) (hi : i < c.capacity_) (hne : i ≠ null_descriptor)
    (he : items[i]? = some e) (hu : c.free_list.m_used[i]? = some true) :
    push c i = some { c with
      all_items := some (items.set i (set_size_t e c.free_list.m_free_list)),
      free_list := { m_free_list := i, m_used := c.free_list.m_used.set i false } } := by
  have hil : i < items.length := by
    by_contra hn
    rw [List.getElem?_eq_none (by omega)] at he
    exact absurd he (by simp)
  have h1 : Free_list_management_Tag_false_Tag_true.is_used c i = some true := by
    unfold Free_list_management_Tag_false_Tag_true.is_used
    rw [if_pos ⟨hi, hne⟩]; exact hu
  unfold push
  rw [if_neg (not_not.mpr ⟨hi, hne⟩), h1]
  simp only [Option.bind_eq_bind, Option.some_bind, not_true_eq_false, if_false, subscript,
    assign_subscript, h]
  rw [if_pos hi, he]
  simp only [Option.some_bind]
  rw [if_pos ⟨hi, hil⟩]
  rfl

theorem erase_spec {c : Compact_container_with_index T P} {l : List Nat}
    (inv : Inv c l) {i : Nat} (hi : i < c.capacity_)
    (hu : c.free_list.m_used[i]? = some true) :
    c.erase i = some
      { c with size_ := c.size_ - 1,
               all_items := some (c.items.set i (set_size_t zero_filled c.free_list.m_free_list)),
               free_list := { m_free_list := i, m_used := c.free_list.m_used.set i false } } ∧
    0 < c.size_ ∧
    Inv ({ c with
            size_ := c.size_ - 1,
            all_items := some (c.items.set i (set_size_t zero_filled c.free_list.m_free_list)),
            free_list := { m_free_list := i, m_used := c.free_list.m_used.set i false } } :
          Compact_container_with_index T P) (i :: l) := by
  have hcap := inv.cap_lt
  have hul := inv.used_len
  have hil := inv.items_len
  have hnotmem : i ∉ l := by
    intro h; have := (inv.mem i).1 h; rw [hu] at this; simp at this
  have hnd : (i :: l).Nodup := List.nodup_cons.2 ⟨hnotmem, inv.nodup⟩
  have hlen : l.length + 1 ≤ c.capacity_ := by
    have := length_le_of_nodup_lt hnd (n := c.capacity_) (by
      intro j hj
      rcases List.mem_cons.1 hj with h | h
      · rw [h]; exact hi
      · exact inv.mem_lt h)
    simpa using this
  have hsz := inv.size_eq
  have hne := lt_null_of_lt_capacity hcap hi
  have hR := size_type_range_pos
  have hmod : (c.size_ + size_type_range - 1) % size_type_range = c.size_ - 1 := by
    rw [show c.size_ + size_type_range - 1 = (c.size_ - 1) + size_type_range by omega,
      Nat.add_mod_right, Nat.mod_eq_of_lt (by omega)]
  refine ⟨?_, by omega, ?_⟩
  · have hused : c.is_used i = some true := by rw [inv.is_used_eq hi, hu]
    have hpush := push_spec
      (c := ({ c with all_items := some (c.items.set i zero_filled) } :
        Compact_container_with_index T P))
      (i := i) (e := zero_filled) rfl hi hne
      (List.getElem?_set_self (by omega)) hu
    unfold Compact_container_with_index.erase
    rw [hused]
    simp only [Option.bind_eq_bind, Option.some_bind, not_true_eq_false, if_false]
    rw [inv.subscript_eq hi, List.getElem?_eq_getElem (show i < c.items.length by omega)]
    simp only [Option.some_bind]
    rw [inv.assign_subscript_eq hi]
    simp only [Option.some_bind]
    rw [hpush]
    simp only [Option.some_bind]
    rw [hmod, List.set_set]
  · constructor
    · exact hcap
    · simpa using hul
    · show (c.items.set i _).length = c.capacity_
      simpa using hil
    · intro _; rfl
    · refine ⟨rfl, hne, set_size_t zero_filled c.free_list.m_free_list, ?_, ?_⟩
      · show (c.items.set i _)[i]? = _
        exact List.getElem?_set_self (by omega)
      · rw [Compact_container_with_index_traits.size_t_set_size_t]
        apply Links_congr l _ _ inv.links
        intro x hx
        have : i ≠ x := fun h => hnotmem (h ▸ hx)
        show c.items[x]? = (c.items.set i _)[x]?
        rw [List.getElem?_set_ne this]
    · exact hnd
    · intro j
      by_cases hj : j = i
      · subst hj
        simp [List.getElem?_set_self (show j < c.free_list.m_used.length by omega)]
      · simp only [List.getElem?_set_ne (Ne.symm hj), List.mem_cons, hj, false_or]
        exact inv.mem j
    · show c.size_ - 1 + (l.length + 1) = c.capacity_
      omega


theorem increase_size_inv {c : Compact_container_with_index T P} {l : List Nat}
    (inv : Inv c l) (hh : c.free_list.m_free_list = null_descriptor)
    (hg : c.capacity_ < (c.capacity_ + c.block_size) % size_type_range) :
    ∃ c1 : Compact_container_with_index T P,
      increase_size c = some c1 ∧
      Inv c1 (List.range' c.capacity_
        ((c.capacity_ + c.block_size) % size_type_range - c.capacity_)) ∧
      c1.capacity_ = (c.capacity_ + c.block_size) % size_type_range ∧
      c1.size_ = c.size_ ∧
      c1.free_list.m_free_list = c.capacity_ ∧
      c1.free_list.m_used = c.free_list.m_used ++ List.replicate
        ((c.capacity_ + c.block_size) % size_type_range - c.capacity_) false ∧
      (∀ j, j + 1 < c.capacity_ → c1.items[j]? = c.items[j]?) ∧
      (∀ e, 0 < c.capacity_ → c.items[c.capacity_ - 1]? = some e →
        c1.items[c.capacity_ - 1]? = some (set_size_t e c.capacity_)) := by
  obtain ⟨items1, h1, h2, h3, h4, h5, h6⟩ := increase_size_spec inv hh hg
  have hl : l = [] := by
    have := inv.links; rw [hh] at this; exact Links_null this
  subst hl
  have hmod : (c.capacity_ + c.block_size) % size_type_range < size_type_range :=
    Nat.mod_lt _ size_type_range_pos
  generalize hn : (c.capacity_ + c.block_size) % size_type_range = n at *
  have hul := inv.used_len
  have hnull := null_descriptor_succ
  refine ⟨_, h1, ?_, ?_, ?_, ?_, ?_, ?_, ?_⟩
  · apply Inv.policy
    constructor
    · exact hmod
    · show (c.free_list.m_used ++ List.replicate (n - c.capacity_) false).length = n
      simp; omega
    · exact h2
    · intro _; rfl
    · show Links items1 c.capacity_ (List.range' c.capacity_ (n - c.capacity_))
      rw [show n - c.capacity_ = (n - c.capacity_ - 1) + 1 by omega]
      apply Links_range
      · intro j hj1 hj2
        refine ⟨_, h5 j hj1 (by omega), ?_⟩
        rw [Compact_container_with_index_traits.size_t_set_size_t]
      · refine ⟨set_size_t zero_filled null_descriptor, ?_,
          Compact_container_with_index_traits.size_t_set_size_t _ _⟩
        rw [show c.capacity_ + (n - c.capacity_ - 1) = n - 1 by omega]
        exact h6
      · omega
    · exact List.nodup_range' _ _
    · intro i
      show i ∈ List.range' c.capacity_ (n - c.capacity_) ↔
        (c.free_list.m_used ++ List.replicate (n - c.capacity_) false)[i]? = some false
      rw [List.mem_range'_1]
      by_cases hi : i < c.capacity_
      · rw [List.getElem?_append_left (by omega)]
        rcases inv.used_or_mem hi with h | h
        · rw [h]; simp; omega
        · simp at h
      · rw [List.getElem?_append_right (by omega), List.getElem?_replicate]
        by_cases hi2 : i < n
        · rw [if_pos (by omega)]; simp; omega
        · rw [if_neg (by omega)]; simp; omega
    · show c.size_ + (List.range' c.capacity_ (n - c.capacity_)).length = n
      have := inv.size_eq
      simp at this ⊢; omega
  · rw [policy_capacity]
  · rw [policy_size]
  · rw [policy_free_list]
  · rw [policy_free_list]
  · intro j hj; rw [policy_items]; exact h3 j hj
  · intro e hc he; rw [policy_items]; exact h4 e hc he

theorem increase_to_none (c : Compact_container_with_index T P) (old : Nat)
    (h : ¬ old < c.capacity_) : increase_to c old = none := by
  unfold increase_to; rw [if_pos h]

theorem increase_size_none {c : Compact_container_with_index T P}
    (hg : ¬ c.capacity_ < (c.capacity_ + c.block_size) % size_type_range) :
    increase_size c = none := by
  unfold increase_size
  simp only [Option.bind_eq_bind]
  cases relocate ({ c with capacity_ := (c.capacity_ + c.block_size) % size_type_range } :
      Compact_container_with_index T P) (c.all_items.getD [])
      (List.replicate (({ c with capacity_ := (c.capacity_ + c.block_size) % size_type_range } :
      Compact_container_with_index T P)).capacity_ zero_filled) 0
      c.capacity_ with
  | none => rfl
  | some r =>
    simp only [Option.some_bind]
    rw [increase_to_none _ _ hg]
    rfl

theorem insert_of_increase_size {c c1 : Compact_container_with_index T P} (t : T)
    (h1 : is_empty c = true) (h2 : increase_size c = some c1) (h3 : is_empty c1 = false) :
    c.insert t = c1.insert t := by
  unfold Compact_container_with_index.insert
  simp [h1, h2, h3]

theorem insert_none_of_no_growth {c : Compact_container_with_index T P} (t : T)
    (h1 : c.free_list.m_free_list = null_descriptor)
    (hg : ¬ c.capacity_ < (c.capacity_ + c.block_size) % size_type_range) :
    c.insert t = none := by
  unfold Compact_container_with_index.insert
  simp [is_empty, h1, increase_size_none hg]

theorem erase_none {c : Compact_container_with_index T P} {l : List Nat} (inv : Inv c l)
    {i : Nat} (h : ¬ (i < c.capacity_ ∧ c.free_list.m_used[i]? = some true)) :
    c.erase i = none := by
  unfold Compact_container_with_index.erase
  by_cases hi : i < c.capacity_
  · rw [inv.is_used_eq hi]
    have hul := inv.used_len
    rw [List.getElem?_eq_getElem (by omega)] at h ⊢
    cases hb : c.free_list.m_used[i] with
    | true => rw [hb] at h; exact absurd ⟨hi, rfl⟩ h
    | false => simp
  · rw [inv.is_used_none hi]; rfl

theorem construct_eq : (construct : Option (Compact_container_with_index T P)) =
    some { capacity_ := 0, size_ := 0, block_size := P.first_block_size, all_items := none,
           free_list := { m_free_list := null_descriptor, m_used := [] } } := by
  simp [construct, Compact_container_with_index.init,
    Free_list_management_Tag_false_Tag_true.init]

theorem construct_inv :
    Inv ({ capacity_ := 0, size_ := 0, block_size := P.first_block_size, all_items := none,
           free_list := { m_free_list := null_descriptor, m_used := [] } } :
      Compact_container_with_index T P) [] := by
  constructor
  · exact size_type_range_pos
  · rfl
  · rfl
  · intro h; exact absurd h (by simp)
  · exact rfl
  · exact List.nodup_nil
  · intro i; simp
  · rfl


theorem insert_spec_grow {c : Compact_container_with_index T P} {l : List Nat}
    (inv : Inv c l) (hh : c.free_list.m_free_list = null_descriptor)
    (hg : c.capacity_ < (c.capacity_ + c.block_size) % size_type_range) (t : T) :
    ∃ c1 : Compact_container_with_index T P,
      increase_size c = some c1 ∧ c.insert t = c1.insert t ∧
      Inv c1 (List.range' c.capacity_
        ((c.capacity_ + c.block_size) % size_type_range - c.capacity_)) ∧
      c1.capacity_ = (c.capacity_ + c.block_size) % size_type_range ∧
      c1.size_ = c.size_ ∧
      c1.free_list.m_free_list = c.capacity_ ∧
      c1.free_list.m_free_list ≠ null_descriptor ∧
      c1.free_list.m_used = c.free_list.m_used ++ List.replicate
        ((c.capacity_ + c.block_size) % size_type_range - c.capacity_) false ∧
      (∀ j, j + 1 < c.capacity_ → c1.items[j]? = c.items[j]?) ∧
      (∀ e, 0 < c.capacity_ → c.items[c.capacity_ - 1]? = some e →
        c1.items[c.capacity_ - 1]? = some (set_size_t e c.capacity_)) := by
  obtain ⟨c1, h1, h2, h3, h4, h5, h6, h7, h8⟩ := increase_size_inv inv hh hg
  have hne : c1.free_list.m_free_list ≠ null_descriptor := by
    rw [h5]
    exact lt_null_of_lt_capacity (c := c1) h2.cap_lt (by rw [h3]; exact hg)
  refine ⟨c1, h1, ?_, h2, h3, h4, h5, hne, h6, h7, h8⟩
  apply insert_of_increase_size t _ h1
  · simp [is_empty, hne]
  · simp [is_empty, hh]

theorem Inv.full_iff {c : Compact_container_with_index T P} {l : List Nat} (inv : Inv c l) :
    c.free_list.m_free_list = null_descriptor ↔ c.size_ = c.capacity_ := by
  have hs := inv.size_eq
  constructor
  · intro h
    have := inv.links; rw [h] at this
    rw [Links_null this] at hs
    simpa using hs
  · intro h
    by_contra hne
    obtain ⟨e, xs, hl, _, _⟩ := Links_ne_null inv.links hne
    rw [hl] at hs
    simp at hs
    omega

theorem apply_operation_inv {c c1 : Compact_container_with_index T P} {l : List Nat}
    (inv : Inv c l) (op : Operation T) (h : apply_operation c op = some c1) :
    ∃ l1, Inv c1 l1 := by
  have hins : ∀ t, (c.insert t).map Prod.snd = some c1 → ∃ l1, Inv c1 l1 := by
    intro t h
    by_cases hh : c.free_list.m_free_list = null_descriptor
    · by_cases hg : c.capacity_ < (c.capacity_ + c.block_size) % size_type_range
      · obtain ⟨c2, _, h2, h3, _, _, _, h7, _⟩ := insert_spec_grow inv hh hg t
        obtain ⟨e, xs, _, _, h10, h11⟩ := insert_spec_nonempty h3 h7 t
        rw [h2, h10] at h
        simp only [Option.map_some', Option.some.injEq] at h
        rw [← h]; exact ⟨xs, h11⟩
      · rw [insert_none_of_no_growth t hh hg] at h
        simp at h
    · obtain ⟨e, xs, _, _, h10, h11⟩ := insert_spec_nonempty inv hh t
      rw [h10] at h
      simp only [Option.map_some', Option.some.injEq] at h
      rw [← h]; exact ⟨xs, h11⟩
  cases op with
  | insert t => exact hins t h
  | emplace t => exact hins t h
  | erase i =>
    simp only [apply_operation] at h
    by_cases hi : i < c.capacity_ ∧ c.free_list.m_used[i]? = some true
    · obtain ⟨h1, _, h3⟩ := erase_spec inv hi.1 hi.2
      rw [h1] at h
      simp only [Option.some.injEq] at h
      rw [← h]; exact ⟨_, h3⟩
    · rw [erase_none inv hi] at h
      simp at h

theorem run_inv (ops : List (Operation T)) : ∀ {c c1 : Compact_container_with_index T P}
    {l : List Nat}, Inv c l → run c ops = some c1 → ∃ l1, Inv c1 l1 := by
  induction ops with
  | nil =>
    intro c c1 l inv h
    simp only [run, Option.some.injEq] at h
    rw [← h]; exact ⟨l, inv⟩
  | cons op ops ih =>
    intro c c1 l inv h
    simp only [run] at h
    cases h2 : apply_operation c op with
    | none => rw [h2] at h; simp at h
    | some c2 =>
      rw [h2] at h
      obtain ⟨l2, inv2⟩ := apply_operation_inv inv op h2
      exact ih inv2 h

theorem Reachable.inv {c : Compact_container_with_index T P} (h : Reachable c) :
    ∃ l, Inv c l := by
  obtain ⟨c0, ops, h1, h2⟩ := h
  rw [construct_eq] at h1
  simp only [Option.some.injEq] at h1
  subst h1
  exact run_inv ops construct_inv h2

theorem run_append (ops1 ops2 : List (Operation T)) :
    ∀ (c : Compact_container_with_index T P),
      run c (ops1 ++ ops2) = (run c ops1).bind (fun c1 => run c1 ops2) := by
  induction ops1 with
  | nil => intro c; simp [run]
  | cons op ops ih =>
    intro c
    simp only [List.cons_append, run]
    cases apply_operation c op with
    | none => rfl
    | some c2 => simp [ih]

theorem Reachable.construct {c : Compact_container_with_index T P}
    (h : Compact_container_with_index.construct = some c) : Reachable c :=
  ⟨c, [], h, rfl⟩

theorem Reachable.step {c c1 : Compact_container_with_index T P} (h : Reachable c)
    (op : Operation T) (h1 : apply_operation c op = some c1) : Reachable c1 := by
  obtain ⟨c0, ops, h2, h3⟩ := h
  refine ⟨c0, ops ++ [op], h2, ?_⟩
  rw [run_append, h3]
  simp [run, h1]

theorem Reachable.run {c c1 : Compact_container_with_index T P} (h : Reachable c)
    (ops : List (Operation T)) (h1 : run c ops = some c1) : Reachable c1 := by
  obtain ⟨c0, ops0, h2, h3⟩ := h
  refine ⟨c0, ops0 ++ ops, h2, ?_⟩
  rw [run_append, h3]
  simpa using h1


theorem insert_result {c : Compact_container_with_index T P} {l : List Nat}
    (inv : Inv c l) (t : T)
    (hg : c.free_list.m_free_list = null_descriptor →
      c.capacity_ < (c.capacity_ + c.block_size) % size_type_range) :
    ∃ (h : Nat) (c1 : Compact_container_with_index T P) (l1 : List Nat),
      c.insert t = some (h, c1) ∧ Inv c1 l1 ∧
      h = (if c.free_list.m_free_list = null_descriptor then c.capacity_
           else c.free_list.m_free_list) ∧
      c1.capacity_ = (if c.free_list.m_free_list = null_descriptor
           then (c.capacity_ + c.block_size) % size_type_range else c.capacity_) ∧
      c.capacity_ ≤ c1.capacity_ ∧ h < c1.capacity_ ∧
      c1.size_ = c.size_ + 1 ∧
      c1.free_list.m_used = (c.free_list.m_used ++
        List.replicate (c1.capacity_ - c.capacity_) false).set h true ∧
      c1.items[h]? = some t ∧
      (∀ j, j ≠ h → (j + 1 < c.capacity_ ∨ c.free_list.m_free_list ≠ null_descriptor) →
        c1.items[j]? = c.items[j]?) ∧
      (c.free_list.m_free_list ≠ null_descriptor → l = h :: l1) ∧
      (c.free_list.m_free_list = null_descriptor →
        h :: l1 = List.range' c.capacity_ (c1.capacity_ - c.capacity_)) := by
  by_cases hh : c.free_list.m_free_list = null_descriptor
  · obtain ⟨c1, _, h2, h3, h4, h5, h6, h7, h8, h9, _⟩ := insert_spec_grow inv hh (hg hh) t
    obtain ⟨e, xs, h11, h12, h13, h14⟩ := insert_spec_nonempty h3 h7 t
    have hlt : c.capacity_ < c1.capacity_ := by rw [h4]; exact hg hh
    have hil := h3.items_len
    refine ⟨c1.free_list.m_free_list, _, xs, by rw [h2]; exact h13, h14, ?_, ?_, ?_, ?_, ?_,
      ?_, ?_, ?_, ?_, ?_⟩
    · rw [if_pos hh, h6]
    · rw [if_pos hh]; exact h4
    · exact le_of_lt hlt
    · rw [h6]; exact hlt
    · show c1.size_ + 1 = c.size_ + 1
      rw [h5]
    · show c1.free_list.m_used.set _ true = _
      rw [h8, h4]
    · show (c1.items.set _ t)[_]? = some t
      exact List.getElem?_set_self (by rw [h6]; omega)
    · intro j hj1 hj2
      show (c1.items.set _ t)[j]? = _
      rw [List.getElem?_set_ne (Ne.symm hj1)]
      rcases hj2 with hj2 | hj2
      · exact h9 j hj2
      · exact absurd hh hj2
    · intro hne; exact absurd hh hne
    · intro _
      rw [← h11, h4]
  · obtain ⟨e, xs, h11, h12, h13, h14⟩ := insert_spec_nonempty inv hh t
    have hmem : c.free_list.m_free_list ∈ l := by rw [h11]; exact List.mem_cons_self _ _
    have hlt := inv.mem_lt hmem
    have hil := inv.items_len
    refine ⟨c.free_list.m_free_list, _, xs, h13, h14, ?_, ?_, ?_, ?_, ?_, ?_, ?_, ?_, ?_, ?_⟩
    · rw [if_neg hh]
    · rw [if_neg hh]
    · exact le_refl _
    · exact hlt
    · rfl
    · show c.free_list.m_used.set _ true = _
      simp
    · show (c.items.set _ t)[_]? = some t
      exact List.getElem?_set_self (by omega)
    · intro j hj1 _
      show (c.items.set _ t)[j]? = _
      rw [List.getElem?_set_ne (Ne.symm hj1)]
    · intro _; exact h11
    · intro h; exact absurd h hh

theorem growth_of_room {c : Compact_container_with_index T P} {l : List Nat} (inv : Inv c l)
    (hg : c.size = c.capacity →
      0 < c.block_size ∧ c.capacity + c.block_size < size_type_range) :
    c.free_list.m_free_list = null_descriptor →
      c.capacity_ < (c.capacity_ + c.block_size) % size_type_range := by
  intro hh
  obtain ⟨h1, h2⟩ := hg (inv.full_iff.1 hh)
  simp only [Compact_container_with_index.capacity] at h2
  rw [Nat.mod_eq_of_lt h2]
  omega

/-- C1 (amended): in every reachable arena state in which a needed growth is possible (when
`size() == capacity()`, `block_size >= 1` and `capacity() + block_size` fits `size_type`)
and for every value `t`, `insert(t)` returns a handle `h` such that slot `h` was not live
before the call and is live after it, `(*this)[h]` equals `t`, `size()` has increased by
exactly 1, and the live/free status of every other index below the old capacity is
unchanged. -/
theorem insert_returns_fresh_slot (c : Compact_container_with_index T P) (t : T)
    (hr : Reachable c)
    (hg : c.size = c.capacity →
      0 < c.block_size ∧ c.capacity + c.block_size < size_type_range) :
    ∃ (h : Nat) (c1 : Compact_container_with_index T P),
      c.insert t = some (h, c1) ∧
      c.is_used h ≠ some true ∧ c1.is_used h = some true ∧
      c1.subscript h = some t ∧ c1.size = c.size + 1 ∧
      ∀ i, i < c.capacity → i ≠ h → c1.is_used i = c.is_used i := by
  obtain ⟨l, inv⟩ := hr.inv
  obtain ⟨h, c1, l1, h1, inv1, h2, h3, h4, h5, h6, h7, h8, _, h10, h11⟩ :=
    insert_result inv t (growth_of_room inv hg)
  have hul := inv.used_len
  refine ⟨h, c1, h1, ?_, ?_, ?_, h6, ?_⟩
  · by_cases hh : c.free_list.m_free_list = null_descriptor
    · rw [if_pos hh] at h2
      rw [inv.is_used_none (by omega)]; simp
    · have hmem : h ∈ l := by rw [h10 hh]; exact List.mem_cons_self _ _
      rw [inv.is_used_eq (inv.mem_lt hmem), (inv.mem h).1 hmem]; simp
  · rw [inv1.is_used_eq h5, h7]
    exact List.getElem?_set_self (by simp; omega)
  · rw [inv1.subscript_eq h5]; exact h8
  · intro i hi hne
    simp only [Compact_container_with_index.capacity] at hi
    rw [inv1.is_used_eq (by omega), inv.is_used_eq hi, h7, List.getElem?_set_ne (Ne.symm hne),
      List.getElem?_append_left (by omega)]


omit [Compact_container_with_index_traits T] in
theorem is_used_some_lt {c : Compact_container_with_index T P} {i : Nat} {b : Bool}
    (h : c.is_used i = some b) : i < c.capacity_ := by
  simp only [Compact_container_with_index.is_used,
    Free_list_management_Tag_false_Tag_true.is_used] at h
  by_contra hn
  rw [if_neg (fun h1 => hn h1.1)] at h
  exact absurd h (by simp)

theorem Inv.used_of_is_used {c : Compact_container_with_index T P} {l : List Nat}
    (inv : Inv c l) {i : Nat} {b : Bool} (h : c.is_used i = some b) :
    i < c.capacity_ ∧ c.free_list.m_used[i]? = some b := by
  have hi := is_used_some_lt h
  exact ⟨hi, by rw [← inv.is_used_eq hi]; exact h⟩

theorem Inv.subscript_none {c : Compact_container_with_index T P} {l : List Nat}
    (_inv : Inv c l) {i : Nat} (hi : ¬ i < c.capacity_) : c.subscript i = none := by
  unfold subscript
  cases c.all_items with
  | none => rfl
  | some items => simp only []; rw [if_neg hi]

/-- C6: in every reachable arena state and for every live handle `h`, `erase(h)` makes slot
`h` free, decreases `size()` by exactly 1, leaves `capacity()` unchanged, and leaves the
live/free status and the stored value of every other slot unchanged. -/
theorem erase_frees_only_its_slot (c : Compact_container_with_index T P) (h : Nat)
    (hr : Reachable c) (hl : c.is_used h = some true) :
    ∃ c1 : Compact_container_with_index T P,
      c.erase h = some c1 ∧ c1.is_used h = some false ∧
      c1.size + 1 = c.size ∧ c1.capacity = c.capacity ∧
      ∀ i, i ≠ h → c1.is_used i = c.is_used i ∧ c1.subscript i = c.subscript i := by
  obtain ⟨l, inv⟩ := hr.inv
  obtain ⟨hi, hu⟩ := inv.used_of_is_used hl
  obtain ⟨h1, h2, inv1⟩ := erase_spec inv hi hu
  have hul := inv.used_len
  refine ⟨_, h1, ?_, ?_, rfl, ?_⟩
  · rw [inv1.is_used_eq hi]
    exact List.getElem?_set_self (by omega)
  · show c.size_ - 1 + 1 = c.size_
    omega
  · intro i hne
    by_cases hic : i < c.capacity_
    · constructor
      · rw [inv1.is_used_eq hic, inv.is_used_eq hic]
        exact List.getElem?_set_ne (Ne.symm hne)
      · rw [inv1.subscript_eq hic, inv.subscript_eq hic]
        exact List.getElem?_set_ne (Ne.symm hne)
    · exact ⟨by rw [inv1.is_used_none hic, inv.is_used_none hic],
        by rw [inv1.subscript_none hic, inv.subscript_none hic]⟩

/-- C7: in every reachable arena state `erase(h)` is a contract violation exactly when `h`
is not a live slot: it fails for every `h >= capacity()`, for every free index, and for a
second erase of the same handle with no insertion in between; it never fails for a live
`h`. -/
theorem erase_fails_iff_not_live (c : Compact_container_with_index T P) (h : Nat)
    (hr : Reachable c) :
    (c.erase h = none ↔ c.is_used h ≠ some true) ∧
    (c.capacity ≤ h → c.erase h = none) ∧
    (c.is_used h = some false → c.erase h = none) ∧
    (∀ c1, c.erase h = some c1 → c1.erase h = none) := by
  obtain ⟨l, inv⟩ := hr.inv
  have hul := inv.used_len
  have key : c.erase h = none ↔ c.is_used h ≠ some true := by
    constructor
    · intro he hu
      obtain ⟨hi, hu1⟩ := inv.used_of_is_used hu
      rw [(erase_spec inv hi hu1).1] at he
      exact absurd he (by simp)
    · intro hu
      apply erase_none inv
      rintro ⟨hi, hu1⟩
      exact hu (by rw [inv.is_used_eq hi]; exact hu1)
  refine ⟨key, ?_, ?_, ?_⟩
  · intro hc
    apply key.2
    rw [inv.is_used_none (by simp only [Compact_container_with_index.capacity] at hc; omega)]
    simp
  · intro hu
    apply key.2
    rw [hu]; simp
  · intro c1 he
    by_cases hu : c.is_used h = some true
    · obtain ⟨hi, hu1⟩ := inv.used_of_is_used hu
      obtain ⟨h1, _, inv1⟩ := erase_spec inv hi hu1
      rw [h1] at he
      simp only [Option.some.injEq] at he
      subst he
      apply erase_none inv1
      rintro ⟨_, hu2⟩
      have : (c.free_list.m_used.set h false)[h]? = some false :=
        List.getElem?_set_self (by omega)
      rw [this] at hu2
      exact absurd hu2 (by simp)
    · rw [key.2 hu] at he
      exact absurd he (by simp)

/-- C5: in every reachable arena state and for every two distinct live handles `a` and `b`,
after `erase(a)` then `erase(b)` the next insertion returns `b` and the one after it
returns `a`, and the capacity does not change in between (no growth). -/
theorem erased_indices_are_reused_lifo (c : Compact_container_with_index T P) (a b : Nat)
    (v w : T) (hr : Reachable c) (ha : c.is_used a = some true)
    (hb : c.is_used b = some true) (hab : a ≠ b) :
    ∃ c1 c2 c3 c4 : Compact_container_with_index T P,
      c.erase a = some c1 ∧ c1.erase b = some c2 ∧
      c2.insert v = some (b, c3) ∧ c3.insert w = some (a, c4) ∧
      c2.capacity = c.capacity ∧ c3.capacity = c.capacity ∧ c4.capacity = c.capacity := by
  obtain ⟨l, inv⟩ := hr.inv
  obtain ⟨hia, hua⟩ := inv.used_of_is_used ha
  obtain ⟨hib, hub⟩ := inv.used_of_is_used hb
  obtain ⟨h1, _, inv1⟩ := erase_spec inv hia hua
  have hub1 : (c.free_list.m_used.set a false)[b]? = some true := by
    rw [List.getElem?_set_ne hab]; exact hub
  obtain ⟨h2, _, inv2⟩ := erase_spec inv1 (i := b) hib hub1
  have hne2 : b ≠ null_descriptor := lt_null_of_lt_capacity inv.cap_lt hib
  obtain ⟨e, xs, h3, h4, h5, inv3⟩ := insert_spec_nonempty inv2 hne2 v
  have hxs : xs = a :: l := by
    have := List.cons.inj h3
    exact this.2.symm
  subst hxs
  have hhead : size_t e = a := inv3.links.1
  rw [hhead] at h5 inv3
  have hne3 : a ≠ null_descriptor := lt_null_of_lt_capacity inv.cap_lt hia
  obtain ⟨e1, xs1, _, _, h8, _⟩ := insert_spec_nonempty inv3 hne3 w
  exact ⟨_, _, _, _, h1, h2, h5, h8, rfl, rfl, rfl⟩


theorem follow_links_of_Links (c : Compact_container_with_index T P)
    (hs : 0 < c.capacity_ → c.all_items = some c.items) (l : List Nat) :
    ∀ (fuel h : Nat), Links c.items h l → (∀ x, x ∈ l → x < c.capacity_) →
      l.length ≤ fuel → follow_links c fuel h = some l := by
  induction l with
  | nil =>
    intro fuel h hl _ _
    have : h = null_descriptor := hl
    unfold follow_links
    rw [if_pos this]
  | cons x xs ih =>
    intro fuel h hl hx hf
    obtain ⟨h1, h2, e, h3, h4⟩ := hl
    subst h1
    have hlt := hx h (List.mem_cons_self _ _)
    cases fuel with
    | zero => simp at hf
    | succ f =>
      unfold follow_links
      rw [if_neg h2]
      have hsub : c.subscript h = some e := by
        simp only [subscript, hs (by omega)]
        rw [if_pos hlt]; exact h3
      simp only [hsub]
      rw [ih f (size_t e) h4 (fun y hy => hx y (List.mem_cons_of_mem _ hy))
        (by simpa using hf)]
      rfl

/-- C4: in every reachable arena state, following the link fields from the free-list head
reaches `null_descriptor` after visiting exactly the indices `i < capacity()` with
`is_used(i) == false`, each exactly once; hence `size() == capacity() - (length of the
free list)` and `size() <= capacity()`. -/
theorem free_list_is_exactly_the_free_slots (c : Compact_container_with_index T P)
    (hr : Reachable c) :
    ∃ l : List Nat, free_list_indices c = some l ∧ l.Nodup ∧
      (∀ i, i ∈ l ↔ i < c.capacity ∧ c.is_used i = some false) ∧
      c.size = c.capacity - l.length ∧ c.size ≤ c.capacity := by
  obtain ⟨l, inv⟩ := hr.inv
  have hsz := inv.size_eq
  refine ⟨l, ?_, inv.nodup, ?_, ?_, ?_⟩
  · exact follow_links_of_Links c inv.items_some l _ _ inv.links (fun x hx => inv.mem_lt hx)
      (by omega)
  · intro i
    constructor
    · intro hi
      have hlt := inv.mem_lt hi
      exact ⟨hlt, by rw [inv.is_used_eq hlt]; exact (inv.mem i).1 hi⟩
    · rintro ⟨hlt, hu⟩
      rw [inv.is_used_eq hlt] at hu
      exact (inv.mem i).2 hu
  · show c.size_ = c.capacity_ - l.length
    omega
  · show c.size_ ≤ c.capacity_
    omega

theorem Inv.count_live {c : Compact_container_with_index T P} {l : List Nat} (inv : Inv c l)
    {hs : List Nat} (hnd : hs.Nodup)
    (hmem : ∀ i, i ∈ hs ↔ c.free_list.m_used[i]? = some true) : hs.length = c.size_ := by
  have hdis : List.Disjoint hs l := by
    intro i h1 h2
    have h3 := (hmem i).1 h1
    rw [(inv.mem i).1 h2] at h3
    exact absurd h3 (by simp)
  have hnd2 : (hs ++ l).Nodup := List.Nodup.append hnd inv.nodup hdis
  have hperm : (hs ++ l).Perm (List.range c.capacity_) := by
    rw [List.perm_ext_iff_of_nodup hnd2 (List.nodup_range _)]
    intro i
    rw [List.mem_append, List.mem_range]
    constructor
    · rintro (h | h)
      · have h3 := (hmem i).1 h
        have hul := inv.used_len
        by_contra hn
        rw [List.getElem?_eq_none (by omega)] at h3
        exact absurd h3 (by simp)
      · exact inv.mem_lt h
    · intro hi
      rcases inv.used_or_mem hi with h | h
      · exact Or.inl ((hmem i).2 h)
      · exact Or.inr h
  have hlen := hperm.length_eq
  have hsz := inv.size_eq
  simp at hlen
  omega

theorem Inv.mem_used_indices {c : Compact_container_with_index T P} {l : List Nat}
    (inv : Inv c l) (i : Nat) :
    i ∈ used_indices c ↔ c.free_list.m_used[i]? = some true := by
  unfold used_indices
  rw [List.mem_filter, List.mem_range]
  constructor
  · rintro ⟨hi, hu⟩
    rw [inv.is_used_eq hi] at hu
    simpa using hu
  · intro hu
    have hul := inv.used_len
    have hi : i < c.capacity_ := by
      by_contra hn
      rw [List.getElem?_eq_none (by omega)] at hu
      exact absurd hu (by simp)
    exact ⟨hi, by rw [inv.is_used_eq hi, hu]; simp⟩

omit [Compact_container_with_index_traits T] in
theorem used_indices_nodup (c : Compact_container_with_index T P) : (used_indices c).Nodup :=
  List.Nodup.filter _ (List.nodup_range _)

theorem Inv.size_eq_used {c : Compact_container_with_index T P} {l : List Nat}
    (inv : Inv c l) : (used_indices c).length = c.size_ :=
  inv.count_live (used_indices_nodup c) inv.mem_used_indices

theorem apply_tracking_inv {c c1 : Compact_container_with_index T P} {l hs hs1 : List Nat}
    (inv : Inv c l) (hnd : hs.Nodup)
    (hmem : ∀ i, i ∈ hs ↔ c.free_list.m_used[i]? = some true) (op : Operation T)
    (h : apply_tracking (c, hs) op = some (c1, hs1)) :
    ∃ l1, Inv c1 l1 ∧ hs1.Nodup ∧ ∀ i, i ∈ hs1 ↔ c1.free_list.m_used[i]? = some true := by
  have hul := inv.used_len
  have hins : ∀ t, (c.insert t).map (fun r => (r.2, r.1 :: hs)) = some (c1, hs1) →
      ∃ l1, Inv c1 l1 ∧ hs1.Nodup ∧
        ∀ i, i ∈ hs1 ↔ c1.free_list.m_used[i]? = some true := by
    intro t h
    by_cases hg : c.free_list.m_free_list = null_descriptor →
        c.capacity_ < (c.capacity_ + c.block_size) % size_type_range
    · obtain ⟨h0, c2, l2, h1, inv2, h2, h3, h4, h5, h6, h7, _, _, h10, _⟩ :=
        insert_result inv t hg
      rw [h1] at h
      simp only [Option.map_some', Option.some.injEq, Prod.mk.injEq] at h
      obtain ⟨hc, hhs⟩ := h
      subst hc hhs
      have hnot : c.free_list.m_used[h0]? ≠ some true := by
        by_cases hh : c.free_list.m_free_list = null_descriptor
        · rw [if_pos hh] at h2
          rw [List.getElem?_eq_none (by omega)]; simp
        · have hm : h0 ∈ l := by rw [h10 hh]; exact List.mem_cons_self _ _
          rw [(inv.mem h0).1 hm]; simp
      refine ⟨l2, inv2, List.nodup_cons.2 ⟨fun hm => hnot ((hmem h0).1 hm), hnd⟩, ?_⟩
      intro i
      rw [h7]
      by_cases hi : i = h0
      · subst hi
        rw [List.getElem?_set_self (by simp; omega)]
        simp
      · rw [List.getElem?_set_ne (Ne.symm hi), List.mem_cons, hmem i]
        simp only [hi, false_or]
        by_cases hic : i < c.capacity_
        · rw [List.getElem?_append_left (by omega)]
        · rw [List.getElem?_append_right (by omega), List.getElem?_replicate,
            List.getElem?_eq_none (by omega)]
          split <;> simp
    · have hh : c.free_list.m_free_list = null_descriptor := by
        by_contra hne; exact hg (fun h => absurd h hne)
      rw [insert_none_of_no_growth t hh (fun hlt => hg (fun _ => hlt))] at h
      simp at h
  cases op with
  | insert t => exact hins t h
  | emplace t => exact hins t h
  | erase i =>
    simp only [apply_tracking] at h
    by_cases hi : i < c.capacity_ ∧ c.free_list.m_used[i]? = some true
    · obtain ⟨h1, _, h3⟩ := erase_spec inv hi.1 hi.2
      rw [h1] at h
      simp only [Option.map_some', Option.some.injEq, Prod.mk.injEq] at h
      obtain ⟨hc, hhs⟩ := h
      subst hc hhs
      refine ⟨_, h3, hnd.erase i, ?_⟩
      intro j
      show j ∈ hs.erase i ↔ (c.free_list.m_used.set i false)[j]? = some true
      rw [hnd.mem_erase_iff]
      by_cases hj : j = i
      · subst hj
        rw [List.getElem?_set_self (by omega)]
        simp
      · rw [List.getElem?_set_ne (Ne.symm hj), hmem j]
        simp [hj]
    · rw [erase_none inv hi] at h
      simp at h

theorem run_tracking_inv (ops : List (Operation T)) :
    ∀ {c c1 : Compact_container_with_index T P} {l hs hs1 : List Nat},
      Inv c l → hs.Nodup → (∀ i, i ∈ hs ↔ c.free_list.m_used[i]? = some true) →
      run_tracking (c, hs) ops = some (c1, hs1) →
      ∃ l1, Inv c1 l1 ∧ hs1.Nodup ∧
        ∀ i, i ∈ hs1 ↔ c1.free_list.m_used[i]? = some true := by
  induction ops with
  | nil =>
    intro c c1 l hs hs1 inv hnd hmem h
    simp only [run_tracking, Option.some.injEq, Prod.mk.injEq] at h
    obtain ⟨hc, hhs⟩ := h
    subst hc hhs
    exact ⟨l, inv, hnd, hmem⟩
  | cons op ops ih =>
    intro c c1 l hs hs1 inv hnd hmem h
    simp only [run_tracking] at h
    cases h2 : apply_tracking (c, hs) op with
    | none => rw [h2] at h; simp at h
    | some s2 =>
      obtain ⟨c2, hs2⟩ := s2
      rw [h2] at h
      obtain ⟨l2, inv2, hnd2, hmem2⟩ := apply_tracking_inv inv hnd hmem op h2
      exact ih inv2 hnd2 hmem2 h

/-- C3: for every sequence of insert/emplace/erase operations applied to a freshly
constructed arena (an erase of a handle that is not live fails), `size()` equals the number
of handles returned by insertions and not yet erased, which is also the number of indices
`i < capacity()` with `is_used(i)`. -/
theorem size_counts_outstanding_handles (ops : List (Operation T))
    (c0 c : Compact_container_with_index T P) (hs : List Nat)
    (h0 : Compact_container_with_index.construct = some c0)
    (h : run_tracking (c0, []) ops = some (c, hs)) :
    c.size = hs.length ∧ c.size = (used_indices c).length := by
  rw [construct_eq] at h0
  simp only [Option.some.injEq] at h0
  subst h0
  obtain ⟨l, inv, hnd, hmem⟩ := run_tracking_inv ops construct_inv List.nodup_nil
    (by intro i; simp) h
  exact ⟨(inv.count_live hnd hmem).symm, inv.size_eq_used.symm⟩


theorem increment_loop_spec {c : Compact_container_with_index T P} {l : List Nat}
    (inv : Inv c l) (fuel : Nat) : ∀ (i : Nat), i ≤ c.capacity_ → c.capacity_ - i ≤ fuel →
    ∃ j, CC_iterator_with_index.increment_loop c fuel i = some j ∧ i ≤ j ∧ j ≤ c.capacity_ ∧
      (j < c.capacity_ → c.free_list.m_used[j]? = some true) ∧
      ∀ k, i ≤ k → k < j → c.free_list.m_used[k]? = some false := by
  have hcap := inv.cap_lt
  have hul := inv.used_len
  induction fuel with
  | zero =>
    intro i hi hf
    have : i = c.capacity_ := by omega
    refine ⟨i, ?_, le_refl _, hi, fun h => by omega, fun k h1 h2 => by omega⟩
    unfold CC_iterator_with_index.increment_loop
    rw [if_neg (by omega)]
  | succ f ih =>
    intro i hi hf
    by_cases hlt : i < c.capacity_
    · rcases inv.used_or_mem hlt with hu | hm
      · refine ⟨i, ?_, le_refl _, hi, fun _ => hu, fun k h1 h2 => by omega⟩
        unfold CC_iterator_with_index.increment_loop
        rw [if_pos hlt, inv.is_used_eq hlt, hu]
      · have hu := (inv.mem i).1 hm
        obtain ⟨j, h1, h2, h3, h4, h5⟩ := ih (i + 1) (by omega) (by omega)
        refine ⟨j, ?_, by omega, h3, h4, ?_⟩
        · unfold CC_iterator_with_index.increment_loop
          rw [if_pos hlt, inv.is_used_eq hlt, hu]
          simp only []
          rw [Nat.mod_eq_of_lt (by omega)]
          exact h1
        · intro k hk1 hk2
          by_cases hki : k = i
          · rw [hki]; exact hu
          · exact h5 k (by omega) hk2
    · refine ⟨i, ?_, le_refl _, hi, fun h => by omega, fun k h1 h2 => by omega⟩
      unfold CC_iterator_with_index.increment_loop
      rw [if_neg hlt]

theorem decrement_loop_spec {c : Compact_container_with_index T P} {l : List Nat}
    (inv : Inv c l) (fuel : Nat) : ∀ (i : Nat), i < c.capacity_ → i ≤ fuel →
    (∃ k, k ≤ i ∧ c.free_list.m_used[k]? = some true) →
    ∃ j, CC_iterator_with_index.decrement_loop c fuel i = some j ∧ j ≤ i ∧
      c.free_list.m_used[j]? = some true ∧
      ∀ k, j < k → k ≤ i → c.free_list.m_used[k]? = some false := by
  have hcap := inv.cap_lt
  have hR := size_type_range_pos
  induction fuel with
  | zero =>
    intro i hi hf ⟨k, hk1, hk2⟩
    have hi0 : i = 0 := by omega
    have hk0 : k = 0 := by omega
    subst hi0 hk0
    refine ⟨0, ?_, le_refl _, hk2, fun k h1 h2 => by omega⟩
    unfold CC_iterator_with_index.decrement_loop
    rw [inv.is_used_eq hi, hk2]
  | succ f ih =>
    intro i hi hf ⟨k, hk1, hk2⟩
    rcases inv.used_or_mem hi with hu | hm
    · refine ⟨i, ?_, le_refl _, hu, fun k h1 h2 => by omega⟩
      unfold CC_iterator_with_index.decrement_loop
      rw [inv.is_used_eq hi, hu]
    · have hu := (inv.mem i).1 hm
      have hki : k ≠ i := by
        intro h; rw [h, hu] at hk2; exact absurd hk2 (by simp)
      obtain ⟨j, h1, h2, h3, h4⟩ := ih (i - 1) (by omega) (by omega) ⟨k, by omega, hk2⟩
      refine ⟨j, ?_, by omega, h3, ?_⟩
      · unfold CC_iterator_with_index.decrement_loop
        rw [inv.is_used_eq hi, hu]
        simp only []
        rw [show i + size_type_range - 1 = (i - 1) + size_type_range by omega,
          Nat.add_mod_right, Nat.mod_eq_of_lt (by omega)]
        exact h1
      · intro k1 hk3 hk4
        by_cases hk5 : k1 = i
        · rw [hk5]; exact hu
        · exact h4 k1 hk3 (by omega)

theorem increment_spec {c : Compact_container_with_index T P} {l : List Nat}
    (inv : Inv c l) {i : Nat} (hi : i < c.capacity_) :
    ∃ j, CC_iterator_with_index.increment c { m_index := i } = some { m_index := j } ∧
      i < j ∧ j ≤ c.capacity_ ∧
      (j < c.capacity_ → c.free_list.m_used[j]? = some true) ∧
      ∀ k, i < k → k < j → c.free_list.m_used[k]? = some false := by
  have hcap := inv.cap_lt
  obtain ⟨j, h1, h2, h3, h4, h5⟩ := increment_loop_spec inv (c.capacity_ - i) (i + 1)
    (by omega) (by omega)
  refine ⟨j, ?_, by omega, h3, h4, fun k hk1 hk2 => h5 k (by omega) hk2⟩
  unfold CC_iterator_with_index.increment
  simp only []
  rw [if_pos hi, Nat.mod_eq_of_lt (by omega), h1]
  rfl

theorem decrement_spec {c : Compact_container_with_index T P} {l : List Nat}
    (inv : Inv c l) {i : Nat} (hi : i ≤ c.capacity_)
    (hk : ∃ k, k < i ∧ c.free_list.m_used[k]? = some true) :
    ∃ j, CC_iterator_with_index.decrement c { m_index := i } = some { m_index := j } ∧
      j < i ∧ c.free_list.m_used[j]? = some true ∧
      ∀ k, j < k → k < i → c.free_list.m_used[k]? = some false := by
  have hcap := inv.cap_lt
  have hR := size_type_range_pos
  obtain ⟨k, hk1, hk2⟩ := hk
  obtain ⟨j, h1, h2, h3, h4⟩ := decrement_loop_spec inv i (i - 1)
    (by omega) (by omega) ⟨k, by omega, hk2⟩
  refine ⟨j, ?_, by omega, h3, fun k1 hk3 hk4 => h4 k1 hk3 (by omega)⟩
  unfold CC_iterator_with_index.decrement
  simp only []
  rw [if_pos (by omega), show i + size_type_range - 1 = (i - 1) + size_type_range by omega,
    Nat.add_mod_right, Nat.mod_eq_of_lt (by omega), h1]
  rfl

theorem begin_spec {c : Compact_container_with_index T P} {l : List Nat} (inv : Inv c l) :
    ∃ b, c.begin = some { m_index := b } ∧ b ≤ c.capacity_ ∧
      (c.size_ = 0 → b = c.capacity_) ∧
      (b < c.capacity_ → c.free_list.m_used[b]? = some true) ∧
      ∀ k, k < b → c.free_list.m_used[k]? = some false := by
  have hsz := inv.size_eq
  have hall : c.size_ = 0 → ∀ k, k < c.capacity_ → c.free_list.m_used[k]? = some false := by
    intro h0 k hk
    rcases inv.used_or_mem hk with hu | hm
    · have hm : k ∈ used_indices c := (inv.mem_used_indices k).2 hu
      have := inv.size_eq_used
      rw [h0] at this
      rw [List.length_eq_zero.1 this] at hm
      exact absurd hm (by simp)
    · exact (inv.mem k).1 hm
  by_cases h0 : c.size_ = 0
  · refine ⟨c.capacity_, ?_, le_refl _, fun _ => rfl, fun h => by omega, hall h0⟩
    unfold Compact_container_with_index.begin
    simp [Compact_container_with_index.empty, h0, Compact_container_with_index.end]
  · have hpos : 0 < c.capacity_ := by
      have := inv.size_eq_used
      by_contra hn
      have hc : c.capacity_ = 0 := by omega
      omega
    rcases inv.used_or_mem hpos with hu | hm
    · refine ⟨0, ?_, by omega, fun h => absurd h h0, fun _ => hu, fun k hk => by omega⟩
      unfold Compact_container_with_index.begin
      simp [Compact_container_with_index.empty, h0, inv.is_used_eq hpos, hu]
    · have hu := (inv.mem 0).1 hm
      obtain ⟨j, h1, h2, h3, h4, h5⟩ := increment_spec inv hpos
      refine ⟨j, ?_, h3, fun h => absurd h h0, h4, ?_⟩
      · unfold Compact_container_with_index.begin
        simp [Compact_container_with_index.empty, h0, inv.is_used_eq hpos, hu, h1]
      · intro k hk
        by_cases hk0 : k = 0
        · rw [hk0]; exact hu
        · exact h5 k (by omega) hk


theorem filter_range_skip (p : Nat → Bool) (a b n : Nat) (hab : a ≤ b) (hbn : b ≤ n)
    (h : ∀ k, a ≤ k → k < b → p k = false) :
    (List.range' a (n - a)).filter p = (List.range' b (n - b)).filter p := by
  have hsplit : List.range' a (n - a) = List.range' a (b - a) ++ List.range' b (n - b) := by
    have := List.range'_append a (b - a) (n - b) 1
    rw [show a + 1 * (b - a) = b by omega, show n - b + (b - a) = n - a by omega] at this
    exact this.symm
  rw [hsplit, List.filter_append]
  have hnil : (List.range' a (b - a)).filter p = [] := by
    rw [List.filter_eq_nil_iff]
    intro k hk
    rw [List.mem_range'_1] at hk
    rw [h k hk.1 (by omega)]
    simp
  rw [hnil, List.nil_append]

theorem traverse_loop_spec {c : Compact_container_with_index T P} {l : List Nat}
    (inv : Inv c l) (fuel : Nat) : ∀ (i : Nat), i ≤ c.capacity_ →
    (i < c.capacity_ → c.free_list.m_used[i]? = some true) → c.capacity_ - i ≤ fuel →
    traverse_loop c fuel { m_index := i } =
      some ((List.range' i (c.capacity_ - i)).filter (fun k => c.is_used k == some true)) := by
  induction fuel with
  | zero =>
    intro i hi _ hf
    have : i = c.capacity_ := by omega
    unfold traverse_loop
    rw [if_pos (by rw [this]; rfl), this]
    simp
  | succ f ih =>
    intro i hi hu hf
    by_cases hlt : i < c.capacity_
    · obtain ⟨j, h1, h2, h3, h4, h5⟩ := increment_spec inv hlt
      unfold traverse_loop
      rw [if_neg (by
        simp only [Compact_container_with_index.end, CC_iterator_with_index.mk.injEq]
        omega)]
      simp only [h1]
      rw [ih j h3 h4 (by omega)]
      simp only [Option.map_some', Option.some.injEq]
      rw [show c.capacity_ - i = (c.capacity_ - i - 1) + 1 by omega, List.range'_succ,
        List.filter_cons]
      rw [if_pos (by rw [inv.is_used_eq hlt, hu hlt]; rfl)]
      congr 1
      rw [show c.capacity_ - i - 1 = c.capacity_ - (i + 1) by omega]
      symm
      apply filter_range_skip _ _ _ _ (by omega) h3
      intro k hk1 hk2
      rw [inv.is_used_eq (by omega), h5 k (by omega) hk2]
      rfl
    · have : i = c.capacity_ := by omega
      unfold traverse_loop
      rw [if_pos (by rw [this]; rfl), this]
      simp

/-- C8: in every reachable arena state, the sequence of indices visited by starting at
`begin()` and applying `++` until `end()` is reached is exactly the strictly increasing
list of all indices `i < capacity()` with `is_used(i)`; its length equals `size()`. -/
theorem iteration_visits_live_slots_in_order (c : Compact_container_with_index T P)
    (hr : Reachable c) :
    ∃ visited : List Nat, traverse c = some visited ∧
      visited.Pairwise (fun i j => i < j) ∧
      (∀ i, i ∈ visited ↔ i < c.capacity ∧ c.is_used i = some true) ∧
      visited.length = c.size := by
  obtain ⟨l, inv⟩ := hr.inv
  obtain ⟨b, h1, h2, _, h4, h5⟩ := begin_spec inv
  refine ⟨used_indices c, ?_, ?_, ?_, inv.size_eq_used⟩
  · unfold traverse
    rw [h1]
    simp only [Option.some_bind]
    rw [traverse_loop_spec inv c.capacity_ b h2 h4 (by omega)]
    unfold used_indices
    rw [List.range_eq_range']
    congr 1
    have := filter_range_skip (fun k => c.is_used k == some true) 0 b c.capacity_
      (by omega) h2 (by
        intro k _ hk2
        simp only []
        rw [inv.is_used_eq (by omega), h5 k hk2]
        rfl)
    simpa using this.symm
  · exact List.Pairwise.filter _ (List.pairwise_lt_range _)
  · intro i
    unfold used_indices
    rw [List.mem_filter, List.mem_range]
    simp [Compact_container_with_index.capacity]

/-- C9: in every reachable arena state, for every iterator at a live index `++` followed by
`--` returns an iterator equal to the original; and for every iterator that is `end()` or
at a live index and is not `begin()`, `--` followed by `++` returns an iterator equal to
the original. -/
theorem increment_decrement_roundtrip (c : Compact_container_with_index T P)
    (hr : Reachable c) :
    (∀ it : CC_iterator_with_index, c.is_used it.m_index = some true →
      ∃ it1, CC_iterator_with_index.increment c it = some it1 ∧
        CC_iterator_with_index.decrement c it1 = some it) ∧
    (∀ it b : CC_iterator_with_index, c.begin = some b → it ≠ b →
      (it = c.end ∨ c.is_used it.m_index = some true) →
      ∃ it1, CC_iterator_with_index.decrement c it = some it1 ∧
        CC_iterator_with_index.increment c it1 = some it) := by
  obtain ⟨l, inv⟩ := hr.inv
  have hfalse : ∀ {k : Nat}, c.free_list.m_used[k]? = some true →
      c.free_list.m_used[k]? = some false → False := by
    intro k h1 h2; rw [h1] at h2; exact absurd h2 (by simp)
  constructor
  · rintro ⟨i⟩ hu
    have hu0 : c.is_used i = some true := hu
    obtain ⟨hi, hu1⟩ := inv.used_of_is_used hu0
    obtain ⟨j, h1, h2, h3, _, h5⟩ := increment_spec inv hi
    obtain ⟨j1, h6, h7, h8, h9⟩ := decrement_spec inv h3 ⟨i, h2, hu1⟩
    refine ⟨_, h1, ?_⟩
    rw [h6]
    have : j1 = i := by
      rcases Nat.lt_trichotomy j1 i with h | h | h
      · exact (hfalse hu1 (h9 i h h2)).elim
      · exact h
      · exact (hfalse h8 (h5 j1 h h7)).elim
    rw [this]
  · rintro ⟨i⟩ ⟨b⟩ hb hne hv
    obtain ⟨b1, h1, h2, h3, h4, h5⟩ := begin_spec inv
    rw [h1] at hb
    simp only [Option.some.injEq, CC_iterator_with_index.mk.injEq] at hb
    subst hb
    have hne1 : i ≠ b1 := fun h => hne (by rw [h])
    have hvalid : i ≤ c.capacity_ ∧ (i < c.capacity_ → c.free_list.m_used[i]? = some true) := by
      rcases hv with hv | hv
      · simp only [Compact_container_with_index.end, CC_iterator_with_index.mk.injEq] at hv
        exact ⟨by omega, fun h => by omega⟩
      · have hv1 : c.is_used i = some true := hv
        obtain ⟨hi, hu1⟩ := inv.used_of_is_used hv1
        exact ⟨by omega, fun _ => hu1⟩
    have hlt : b1 < i := by
      rcases Nat.lt_trichotomy b1 i with h | h | h
      · exact h
      · exact absurd h.symm hne1
      · exact (hfalse (hvalid.2 (by omega)) (h5 i h)).elim
    obtain ⟨j, h6, h7, h8, h9⟩ := decrement_spec inv hvalid.1 ⟨b1, hlt, h4 (by omega)⟩
    obtain ⟨j1, h10, h11, h12, h13, h14⟩ := increment_spec inv (show j < c.capacity_ by omega)
    refine ⟨_, h6, ?_⟩
    rw [h10]
    have : j1 = i := by
      rcases Nat.lt_trichotomy j1 i with h | h | h
      · exact (hfalse (h13 (by omega)) (h9 j1 h11 h)).elim
      · exact h
      · exact (hfalse (hvalid.2 (by omega)) (h14 i h7 h)).elim
    rw [this]


theorem arena_fresh_reachable (P : Increment_policy) : Reachable (arena_fresh P) :=
  Reachable.construct construct_eq

theorem arena_AB_reachable : Reachable arena_AB :=
  (arena_fresh_reachable doubling_2).run
    [.insert { m_idx := 10 }, .insert { m_idx := 20 }] (by decide)

theorem arena_ABC_reachable : Reachable arena_ABC :=
  arena_AB_reachable.run [.insert { m_idx := 30 }] (by decide)

theorem arena_AC_reachable : Reachable arena_AC :=
  arena_ABC_reachable.run [.erase 1] (by decide)

/-- C1 (counterexample): the freshly constructed arena of the policy
`Multiply_by_two_policy_for_cc_with_size<0>` is a reachable state in which `insert` returns
no handle: the assertion `capacity()>old_size` of `increase_to` fails. -/
theorem insert_fails_with_zero_block_size :
    (Compact_container_with_index.construct :
      Option (Compact_container_with_index Index_for_cc_with_index doubling_0)) =
      some (arena_fresh doubling_0) ∧
    (arena_fresh doubling_0).insert { m_idx := 7 } = none := by
  decide

/-- C1 (witness): the amended statement at the full arena `arena_AB`, where the insertion
grows the capacity from 2 to 4. -/
theorem insert_returns_fresh_slot_witness :
    Reachable arena_AB ∧
    (arena_AB.size = arena_AB.capacity →
      0 < arena_AB.block_size ∧ arena_AB.capacity + arena_AB.block_size < size_type_range) ∧
    ∃ (h : Nat) (c1 : Compact_container_with_index Index_for_cc_with_index doubling_2),
      arena_AB.insert { m_idx := 30 } = some (h, c1) ∧
      arena_AB.is_used h ≠ some true ∧ c1.is_used h = some true ∧
      c1.subscript h = some { m_idx := 30 } ∧ c1.size = arena_AB.size + 1 ∧
      ∀ i, i < arena_AB.capacity → i ≠ h → c1.is_used i = arena_AB.is_used i :=
  ⟨arena_AB_reachable, by decide,
    insert_returns_fresh_slot arena_AB { m_idx := 30 } arena_AB_reachable (by decide)⟩

/-- C2 (failing input): in the full arena `arena_AB` the live handle 1 reads back the
element 20; after `insert(30)`, which grows the arena, the same handle reads back the
element 2: `increase_to(2)` has written the link `old_size` into the live slot
`old_size - 1`. -/
theorem growth_overwrites_last_live_element :
    run (arena_fresh doubling_2) [.insert { m_idx := 10 }, .insert { m_idx := 20 }] =
      some arena_AB ∧
    arena_AB.is_used 1 = some true ∧
    arena_AB.subscript 1 = some { m_idx := 20 } ∧
    arena_AB.insert { m_idx := 30 } = some (2, arena_ABC) ∧
    arena_ABC.is_used 1 = some true ∧
    arena_ABC.subscript 1 = some { m_idx := 2 } := by
  decide

/-- C10 (failing input): with the policy `Multiply_by_two_policy_for_cc_with_size<1>`, after
the insertion of 10, 20, 30 into a fresh arena, `erase(1)` and the insertion of 40, the
element 40 receives handle 1 and `size()` is 3, but the iteration yields 1, 40, 30 and not
10, 40, 30: the growth at the second insertion has overwritten the element of slot 0. -/
theorem scenario_iteration_loses_first_element :
    ∃ c c1 : Compact_container_with_index Index_for_cc_with_index doubling_1,
      run (arena_fresh doubling_1)
        [.insert { m_idx := 10 }, .insert { m_idx := 20 }, .insert { m_idx := 30 },
         .erase 1] = some c ∧
      c.insert { m_idx := 40 } = some (1, c1) ∧ c1.size = 3 ∧
      traverse c1 = some [0, 1, 2] ∧
      traverse_values c1 = some [{ m_idx := 1 }, { m_idx := 40 }, { m_idx := 30 }] :=
  ⟨{ capacity_ := 4, size_ := 2, block_size := 4,
     all_items := some [{ m_idx := 1 }, { m_idx := 3 }, { m_idx := 30 },
       { m_idx := null_descriptor }],
     free_list := { m_free_list := 1, m_used := [true, false, true, false] } },
   { capacity_ := 4, size_ := 3, block_size := 4,
     all_items := some [{ m_idx := 1 }, { m_idx := 40 }, { m_idx := 30 },
       { m_idx := null_descriptor }],
     free_list := { m_free_list := 3, m_used := [true, true, true, false] } },
   by decide, by decide, by decide, by decide, by decide⟩


/-- C3 (witness): the sequence insert 10, 20, 30, erase 1, insert 40 on a fresh arena of the
policy `doubling_2` leaves the handles 1, 2, 0 outstanding. -/
theorem size_counts_outstanding_handles_witness :
    (Compact_container_with_index.construct :
      Option (Compact_container_with_index Index_for_cc_with_index doubling_2)) =
      some (arena_fresh doubling_2) ∧
    run_tracking (arena_fresh doubling_2, [])
      [.insert { m_idx := 10 }, .insert { m_idx := 20 }, .insert { m_idx := 30 },
       .erase 1, .insert { m_idx := 40 }] = some (arena_ADC, [1, 2, 0]) ∧
    (arena_ADC.size = [1, 2, 0].length ∧ arena_ADC.size = (used_indices arena_ADC).length) :=
  ⟨by decide, by decide,
    size_counts_outstanding_handles
      [.insert { m_idx := 10 }, .insert { m_idx := 20 }, .insert { m_idx := 30 },
       .erase 1, .insert { m_idx := 40 }]
      (arena_fresh doubling_2) arena_ADC [1, 2, 0] (by decide) (by decide)⟩

/-- C4 (witness): the free list of `arena_AC`. -/
theorem free_list_is_exactly_the_free_slots_witness :
    Reachable arena_AC ∧
    ∃ l : List Nat, free_list_indices arena_AC = some l ∧ l.Nodup ∧
      (∀ i, i ∈ l ↔ i < arena_AC.capacity ∧ arena_AC.is_used i = some false) ∧
      arena_AC.size = arena_AC.capacity - l.length ∧ arena_AC.size ≤ arena_AC.capacity :=
  ⟨arena_AC_reachable, free_list_is_exactly_the_free_slots arena_AC arena_AC_reachable⟩

/-- C5 (witness): in `arena_ABC`, after `erase(0)` and `erase(2)` the next two insertions
return 2 and then 0. -/
theorem erased_indices_are_reused_lifo_witness :
    Reachable arena_ABC ∧ arena_ABC.is_used 0 = some true ∧
    arena_ABC.is_used 2 = some true ∧ (0 : Nat) ≠ 2 ∧
    ∃ c1 c2 c3 c4 : Compact_container_with_index Index_for_cc_with_index doubling_2,
      arena_ABC.erase 0 = some c1 ∧ c1.erase 2 = some c2 ∧
      c2.insert { m_idx := 40 } = some (2, c3) ∧ c3.insert { m_idx := 50 } = some (0, c4) ∧
      c2.capacity = arena_ABC.capacity ∧ c3.capacity = arena_ABC.capacity ∧
      c4.capacity = arena_ABC.capacity :=
  ⟨arena_ABC_reachable, by decide, by decide, by decide,
    erased_indices_are_reused_lifo arena_ABC 0 2 { m_idx := 40 } { m_idx := 50 }
      arena_ABC_reachable (by decide) (by decide) (by decide)⟩

/-- C6 (witness): `erase(1)` in `arena_ABC`. -/
theorem erase_frees_only_its_slot_witness :
    Reachable arena_ABC ∧ arena_ABC.is_used 1 = some true ∧
    ∃ c1 : Compact_container_with_index Index_for_cc_with_index doubling_2,
      arena_ABC.erase 1 = some c1 ∧ c1.is_used 1 = some false ∧
      c1.size + 1 = arena_ABC.size ∧ c1.capacity = arena_ABC.capacity ∧
      ∀ i, i ≠ 1 → c1.is_used i = arena_ABC.is_used i ∧
        c1.subscript i = arena_ABC.subscript i :=
  ⟨arena_ABC_reachable, by decide,
    erase_frees_only_its_slot arena_ABC 1 arena_ABC_reachable (by decide)⟩

/-- C7 (witness): `erase(1)` in `arena_AC`, where slot 1 is free. -/
theorem erase_fails_iff_not_live_witness :
    Reachable arena_AC ∧
    ((arena_AC.erase 1 = none ↔ arena_AC.is_used 1 ≠ some true) ∧
     (arena_AC.capacity ≤ 1 → arena_AC.erase 1 = none) ∧
     (arena_AC.is_used 1 = some false → arena_AC.erase 1 = none) ∧
     (∀ c1, arena_AC.erase 1 = some c1 → c1.erase 1 = none)) :=
  ⟨arena_AC_reachable, erase_fails_iff_not_live arena_AC 1 arena_AC_reachable⟩

/-- C8 (witness): the iteration over `arena_AC` (live slots 0 and 2). -/
theorem iteration_visits_live_slots_in_order_witness :
    Reachable arena_AC ∧
    ∃ visited : List Nat, traverse arena_AC = some visited ∧
      visited.Pairwise (fun i j => i < j) ∧
      (∀ i, i ∈ visited ↔ i < arena_AC.capacity ∧ arena_AC.is_used i = some true) ∧
      visited.length = arena_AC.size :=
  ⟨arena_AC_reachable, iteration_visits_live_slots_in_order arena_AC arena_AC_reachable⟩

/-- C9 (witness): the round trips of the iterators of `arena_AC`. -/
theorem increment_decrement_roundtrip_witness :
    Reachable arena_AC ∧
    ((∀ it : CC_iterator_with_index, arena_AC.is_used it.m_index = some true →
      ∃ it1, CC_iterator_with_index.increment arena_AC it = some it1 ∧
        CC_iterator_with_index.decrement arena_AC it1 = some it) ∧
    (∀ it b : CC_iterator_with_index, arena_AC.begin = some b → it ≠ b →
      (it = arena_AC.end ∨ arena_AC.is_used it.m_index = some true) →
      ∃ it1, CC_iterator_with_index.decrement arena_AC it = some it1 ∧
        CC_iterator_with_index.increment arena_AC it1 = some it)) :=
  ⟨arena_AC_reachable, increment_decrement_roundtrip arena_AC arena_AC_reachable⟩


/-- What a growing insertion does to the last slot of the old block: in a full reachable
arena of capacity at least 1 whose growth is possible, after `insert(t)` the slot
`capacity() - 1`, which is live and held `e`, holds `e` with its `size_type` member
overwritten by the old capacity. -/
theorem insert_growth_overwrites_last_slot (c : Compact_container_with_index T P) (t e : T)
    (hr : Reachable c) (hfull : c.size = c.capacity) (hpos : 0 < c.capacity)
    (hg : 0 < c.block_size ∧ c.capacity + c.block_size < size_type_range)
    (he : c.subscript (c.capacity - 1) = some e) :
    c.is_used (c.capacity - 1) = some true ∧
    ∃ c1 : Compact_container_with_index T P,
      c.insert t = some (c.capacity, c1) ∧
      c1.is_used (c.capacity - 1) = some true ∧
      c1.subscript (c.capacity - 1) = some (set_size_t e c.capacity) := by
  obtain ⟨l, inv⟩ := hr.inv
  simp only [Compact_container_with_index.capacity, Compact_container_with_index.size]
    at hfull hpos hg he ⊢
  have hh := inv.full_iff.2 hfull
  have hl : l = [] := by
    have := inv.links; rw [hh] at this; exact Links_null this
  subst hl
  have hul := inv.used_len
  have hgrow : c.capacity_ < (c.capacity_ + c.block_size) % size_type_range := by
    rw [Nat.mod_eq_of_lt hg.2]; omega
  have hused : c.free_list.m_used[c.capacity_ - 1]? = some true := by
    rcases inv.used_or_mem (show c.capacity_ - 1 < c.capacity_ by omega) with h | h
    · exact h
    · simp at h
  rw [inv.subscript_eq (by omega)] at he
  obtain ⟨c1, _, h2, h3, h4, _, h6, h7, h8, _, h10⟩ := insert_spec_grow inv hh hgrow t
  obtain ⟨e1, xs, _, _, h13, h14⟩ := insert_spec_nonempty h3 h7 t
  have hlt : c.capacity_ - 1 < c1.capacity_ := by rw [h4]; omega
  refine ⟨by rw [inv.is_used_eq (by omega)]; exact hused, ?_⟩
  rw [h2, h13]
  refine ⟨_, congrArg (fun h => some (h, _)) h6, ?_, ?_⟩
  · rw [h14.is_used_eq hlt]
    show (c1.free_list.m_used.set _ true)[c.capacity_ - 1]? = some true
    rw [List.getElem?_set_ne (by rw [h6]; omega), h8,
      List.getElem?_append_left (by omega)]
    exact hused
  · rw [h14.subscript_eq hlt]
    show (c1.items.set _ t)[c.capacity_ - 1]? = _
    rw [List.getElem?_set_ne (by rw [h6]; omega)]
    exact h10 e hpos he


omit [Compact_container_with_index_traits T] in
theorem policy_block_size (c : Compact_container_with_index T P) :
    (Increment_policy.increase_size c).block_size =
      P.block_size_after_growth c.capacity_ c.block_size := by
  unfold Increment_policy.increase_size Increment_policy.block_size_after_growth
  cases P <;> rfl

theorem no_wrap_of_growth {a b : Nat} (ha : a < size_type_range) (hb : b < size_type_range)
    (h : a < (a + b) % size_type_range) : (a + b) % size_type_range = a + b ∧ 0 < b := by
  unfold size_type_range at *
  omega

theorem insert_effect {c c1 : Compact_container_with_index T P} {l : List Nat} {h : Nat}
    {t : T} (inv : Inv c l) (hi : c.insert t = some (h, c1)) :
    (c.size_ = c.capacity_ →
      c.capacity_ < (c.capacity_ + c.block_size) % size_type_range ∧
      c1.capacity_ = (c.capacity_ + c.block_size) % size_type_range ∧
      c1.block_size = P.block_size_after_growth c1.capacity_ c.block_size) ∧
    (c.size_ ≠ c.capacity_ → c1.capacity_ = c.capacity_ ∧ c1.block_size = c.block_size) ∧
    c1.size_ = c.size_ + 1 := by
  by_cases hh : c.free_list.m_free_list = null_descriptor
  · have hfull := inv.full_iff.1 hh
    by_cases hg : c.capacity_ < (c.capacity_ + c.block_size) % size_type_range
    · obtain ⟨items1, hs1, _⟩ := increase_size_spec inv hh hg
      obtain ⟨c2, h1, h2, h3, h4, h5, _, h7, _⟩ := insert_spec_grow inv hh hg t
      obtain ⟨e, xs, _, _, h13, _⟩ := insert_spec_nonempty h3 h7 t
      have hbs : c2.block_size = P.block_size_after_growth c2.capacity_ c.block_size := by
        rw [hs1] at h1
        simp only [Option.some.injEq] at h1
        rw [← h1, policy_block_size, policy_capacity]
      rw [h2, h13] at hi
      simp only [Option.some.injEq, Prod.mk.injEq] at hi
      obtain ⟨_, hc⟩ := hi
      subst hc
      refine ⟨fun _ => ⟨hg, h4, hbs⟩, fun hne => absurd hfull hne, ?_⟩
      show c2.size_ + 1 = c.size_ + 1
      rw [h5]
    · rw [insert_none_of_no_growth t hh hg] at hi
      exact absurd hi (by simp)
  · have hnf : c.size_ ≠ c.capacity_ := fun h => hh (inv.full_iff.2 h)
    obtain ⟨e, xs, _, _, h13, _⟩ := insert_spec_nonempty inv hh t
    rw [h13] at hi
    simp only [Option.some.injEq, Prod.mk.injEq] at hi
    obtain ⟨_, hc⟩ := hi
    subst hc
    exact ⟨fun h => absurd h hnf, fun _ => ⟨rfl, rfl⟩, rfl⟩

theorem erase_effect {c c1 : Compact_container_with_index T P} {l : List Nat} {i : Nat}
    (inv : Inv c l) (he : c.erase i = some c1) :
    c1.capacity_ = c.capacity_ ∧ c1.block_size = c.block_size ∧ c1.size_ + 1 = c.size_ ∧
    i < c.capacity_ ∧ c.free_list.m_used[i]? = some true ∧ Inv c1 (i :: l) := by
  by_cases hi : i < c.capacity_ ∧ c.free_list.m_used[i]? = some true
  · obtain ⟨h1, h2, h3⟩ := erase_spec inv hi.1 hi.2
    rw [h1] at he
    simp only [Option.some.injEq] at he
    subst he
    refine ⟨rfl, rfl, ?_, hi.1, hi.2, h3⟩
    show c.size_ - 1 + 1 = c.size_
    omega
  · rw [erase_none inv hi] at he
    exact absurd he (by simp)

theorem Block_size_inv.lt {c : Compact_container_with_index T P} {l : List Nat}
    (inv : Inv c l) (hb : Block_size_inv c) : c.block_size < size_type_range := by
  have hc := inv.cap_lt
  unfold Block_size_inv at hb
  cases P with
  | Multiply_by_two_policy_for_cc_with_size k =>
    simp only [] at hb
    unfold size_type_range at *
    omega
  | Constant_size_policy_for_cc_with_size k =>
    simp only [] at hb
    unfold size_type_range at *
    omega

theorem Block_size_inv.insert {c c1 : Compact_container_with_index T P} {l : List Nat}
    {h : Nat} {t : T} (inv : Inv c l) (hb : Block_size_inv c)
    (hi : c.insert t = some (h, c1)) : Block_size_inv c1 := by
  obtain ⟨h1, h2, _⟩ := insert_effect inv hi
  have hlt := hb.lt inv
  have hc := inv.cap_lt
  unfold Block_size_inv at hb ⊢
  unfold Increment_policy.block_size_after_growth at h1
  by_cases hfull : c.size_ = c.capacity_
  · obtain ⟨h3, h4, h5⟩ := h1 hfull
    obtain ⟨h6, h7⟩ := no_wrap_of_growth hc hlt h3
    cases P with
    | Multiply_by_two_policy_for_cc_with_size k =>
      simp only [] at hb h5 ⊢
      right
      omega
    | Constant_size_policy_for_cc_with_size k =>
      simp only [] at hb h5 ⊢
      omega
  · obtain ⟨h3, h4⟩ := h2 hfull
    cases P with
    | Multiply_by_two_policy_for_cc_with_size k =>
      simp only [] at hb ⊢
      omega
    | Constant_size_policy_for_cc_with_size k =>
      simp only [] at hb ⊢
      omega

theorem Block_size_inv.erase {c c1 : Compact_container_with_index T P} {l : List Nat}
    {i : Nat} (inv : Inv c l) (hb : Block_size_inv c)
    (he : c.erase i = some c1) : Block_size_inv c1 := by
  obtain ⟨h1, h2, _⟩ := erase_effect inv he
  unfold Block_size_inv at hb ⊢
  cases P with
  | Multiply_by_two_policy_for_cc_with_size k =>
    simp only [] at hb ⊢
    omega
  | Constant_size_policy_for_cc_with_size k =>
    simp only [] at hb ⊢
    omega

theorem Block_size_inv.apply {c c1 : Compact_container_with_index T P} {l : List Nat}
    (inv : Inv c l) (hb : Block_size_inv c) (op : Operation T)
    (h : apply_operation c op = some c1) : Block_size_inv c1 := by
  have hins : ∀ t, (c.insert t).map Prod.snd = some c1 → Block_size_inv c1 := by
    intro t h
    cases hi : c.insert t with
    | none => rw [hi] at h; exact absurd h (by simp)
    | some r =>
      obtain ⟨h0, c2⟩ := r
      rw [hi] at h
      simp only [Option.map_some', Option.some.injEq] at h
      subst h
      exact hb.insert inv hi
  cases op with
  | insert t => exact hins t h
  | emplace t => exact hins t h
  | erase i => exact hb.erase inv h

theorem run_block_size_inv (ops : List (Operation T)) :
    ∀ {c c1 : Compact_container_with_index T P} {l : List Nat}, Inv c l →
      Block_size_inv c → run c ops = some c1 → Block_size_inv c1 := by
  induction ops with
  | nil =>
    intro c c1 l _ hb h
    simp only [run, Option.some.injEq] at h
    rw [← h]; exact hb
  | cons op ops ih =>
    intro c c1 l inv hb h
    simp only [run] at h
    cases h2 : apply_operation c op with
    | none => rw [h2] at h; simp at h
    | some c2 =>
      rw [h2] at h
      obtain ⟨l2, inv2⟩ := apply_operation_inv inv op h2
      exact ih inv2 (hb.apply inv op h2) h

omit [Compact_container_with_index_traits T] in
theorem construct_block_size_inv :
    Block_size_inv ({ capacity_ := 0, size_ := 0, block_size := P.first_block_size,
                      all_items := none,
                      free_list := { m_free_list := null_descriptor, m_used := [] } } :
      Compact_container_with_index T P) := by
  unfold Block_size_inv Increment_policy.first_block_size
  cases P with
  | Multiply_by_two_policy_for_cc_with_size k => exact Or.inl ⟨rfl, rfl⟩
  | Constant_size_policy_for_cc_with_size k => rfl

theorem Reachable.block_size_inv {c : Compact_container_with_index T P} (h : Reachable c) :
    Block_size_inv c := by
  obtain ⟨c0, ops, h1, h2⟩ := h
  rw [construct_eq] at h1
  simp only [Option.some.injEq] at h1
  subst h1
  exact run_block_size_inv ops construct_inv construct_block_size_inv h2


/-- C12 (counterexample): the freshly constructed arena of the policy
`Constant_size_policy_for_cc_with_size<0>` has `size() == capacity()` and an empty free
list, but neither `insert` nor `emplace` changes its capacity: `increase_size()` adds a
`block_size` of 0 and fails the assertion `capacity()>old_size` of `increase_to`, so that
the calls do not return. -/
theorem full_arena_with_zero_block_size_does_not_grow :
    (Compact_container_with_index.construct :
      Option (Compact_container_with_index Index_for_cc_with_index constant_0)) =
      some (arena_fresh constant_0) ∧
    (arena_fresh constant_0).size = (arena_fresh constant_0).capacity ∧
    Free_list_management_Tag_false_Tag_true.is_empty (arena_fresh constant_0) = true ∧
    (arena_fresh constant_0).capacity + (arena_fresh constant_0).block_size =
      (arena_fresh constant_0).capacity ∧
    (arena_fresh constant_0).increase_size = none ∧
    (arena_fresh constant_0).insert { m_idx := 7 } = none ∧
    (arena_fresh constant_0).emplace Index_for_cc_with_index.mk 7 = none := by
  decide

/-- C12 (amended): in every reachable arena state in which a needed growth is possible
(whenever `size() == capacity()`: `block_size >= 1` and `capacity() + block_size` does not
wrap `size_type`), the free list is empty exactly when `size() == capacity()`, and every
`insert` and `emplace` call returns and changes `capacity()` if and only if
`size() == capacity()` held before the call; in that case the new capacity is the old
capacity plus the current `block_size`, otherwise `capacity()` is unchanged. -/
theorem insert_grows_iff_full (c : Compact_container_with_index T P) (hr : Reachable c)
    (hg : c.size = c.capacity →
      0 < c.block_size ∧ c.capacity + c.block_size < size_type_range) :
    (c.size = c.capacity ↔ Free_list_management_Tag_false_Tag_true.is_empty c = true) ∧
    (∀ t : T, ∃ (h : Nat) (c1 : Compact_container_with_index T P),
      c.insert t = some (h, c1) ∧
      (c1.capacity ≠ c.capacity ↔ c.size = c.capacity) ∧
      (c.size = c.capacity → c1.capacity = c.capacity + c.block_size) ∧
      (c.size ≠ c.capacity → c1.capacity = c.capacity)) ∧
    (∀ (Args : Type) (value_type : Args → T) (args : Args),
      ∃ (h : Nat) (c1 : Compact_container_with_index T P),
      c.emplace value_type args = some (h, c1) ∧
      (c1.capacity ≠ c.capacity ↔ c.size = c.capacity) ∧
      (c.size = c.capacity → c1.capacity = c.capacity + c.block_size) ∧
      (c.size ≠ c.capacity → c1.capacity = c.capacity)) := by
  obtain ⟨l, inv⟩ := hr.inv
  have hb := hr.block_size_inv
  have hlt := hb.lt inv
  have hc := inv.cap_lt
  have key : ∀ t : T, ∃ (h : Nat) (c1 : Compact_container_with_index T P),
      c.insert t = some (h, c1) ∧
      (c1.capacity ≠ c.capacity ↔ c.size = c.capacity) ∧
      (c.size = c.capacity → c1.capacity = c.capacity + c.block_size) ∧
      (c.size ≠ c.capacity → c1.capacity = c.capacity) := by
    intro t
    obtain ⟨h, c1, _, hi, _⟩ := insert_result inv t (growth_of_room inv hg)
    refine ⟨h, c1, hi, ?_⟩
    obtain ⟨h1, h2, _⟩ := insert_effect inv hi
    simp only [Compact_container_with_index.capacity, Compact_container_with_index.size]
    by_cases hfull : c.size_ = c.capacity_
    · obtain ⟨h3, h4, _⟩ := h1 hfull
      obtain ⟨h6, h7⟩ := no_wrap_of_growth hc hlt h3
      refine ⟨⟨fun _ => hfull, fun _ => by omega⟩, fun _ => by omega, fun h => absurd hfull h⟩
    · obtain ⟨h3, _⟩ := h2 hfull
      exact ⟨⟨fun h => absurd h3 h, fun h => absurd h hfull⟩, fun h => absurd h hfull,
        fun _ => h3⟩
  refine ⟨?_, key, ?_⟩
  · simp only [Compact_container_with_index.capacity, Compact_container_with_index.size,
      is_empty, beq_iff_eq]
    exact inv.full_iff.symm
  · intro Args value_type args
    rw [emplace_eq_insert]
    exact key (value_type args)

/-- C12 (witness): the full arena `arena_AB`, whose growth from capacity 2 by the
`block_size` 2 is possible; `insert` and `emplace` return there with capacity 4. -/
theorem insert_grows_iff_full_witness :
    Reachable arena_AB ∧
    (arena_AB.size = arena_AB.capacity →
      0 < arena_AB.block_size ∧ arena_AB.capacity + arena_AB.block_size < size_type_range) ∧
    arena_AB.size = arena_AB.capacity ∧
    ((arena_AB.size = arena_AB.capacity ↔
      Free_list_management_Tag_false_Tag_true.is_empty arena_AB = true) ∧
    (∀ t : Index_for_cc_with_index,
      ∃ (h : Nat) (c1 : Compact_container_with_index Index_for_cc_with_index doubling_2),
      arena_AB.insert t = some (h, c1) ∧
      (c1.capacity ≠ arena_AB.capacity ↔ arena_AB.size = arena_AB.capacity) ∧
      (arena_AB.size = arena_AB.capacity →
        c1.capacity = arena_AB.capacity + arena_AB.block_size) ∧
      (arena_AB.size ≠ arena_AB.capacity → c1.capacity = arena_AB.capacity)) ∧
    (∀ (Args : Type) (value_type : Args → Index_for_cc_with_index) (args : Args),
      ∃ (h : Nat) (c1 : Compact_container_with_index Index_for_cc_with_index doubling_2),
      arena_AB.emplace value_type args = some (h, c1) ∧
      (c1.capacity ≠ arena_AB.capacity ↔ arena_AB.size = arena_AB.capacity) ∧
      (arena_AB.size = arena_AB.capacity →
        c1.capacity = arena_AB.capacity + arena_AB.block_size) ∧
      (arena_AB.size ≠ arena_AB.capacity → c1.capacity = arena_AB.capacity))) :=
  ⟨arena_AB_reachable, fun _ => ⟨by decide, by decide⟩, by decide,
    insert_grows_iff_full arena_AB arena_AB_reachable (fun _ => ⟨by decide, by decide⟩)⟩

theorem run_counting_invariant (Q : Compact_container_with_index T P → Nat → Prop)
    (hins : ∀ (c c1 : Compact_container_with_index T P) (l : List Nat) (t : T) (h g : Nat),
      Inv c l → Block_size_inv c → Q c g → c.insert t = some (h, c1) →
      Q c1 (if Free_list_management_Tag_false_Tag_true.is_empty c then g + 1 else g))
    (hers : ∀ (c c1 : Compact_container_with_index T P) (l : List Nat) (i g : Nat),
      Inv c l → Q c g → c.erase i = some c1 → Q c1 g)
    (ops : List (Operation T)) :
    ∀ (c c1 : Compact_container_with_index T P) (g g1 : Nat) (l : List Nat),
      Inv c l → Block_size_inv c → Q c g → run_counting (c, g) ops = some (c1, g1) →
      Q c1 g1 := by
  induction ops with
  | nil =>
    intro c c1 g g1 l _ _ hq h
    simp only [run_counting, Option.some.injEq, Prod.mk.injEq] at h
    rw [← h.1, ← h.2]; exact hq
  | cons op ops ih =>
    intro c c1 g g1 l inv hb hq h
    simp only [run_counting] at h
    cases h2 : apply_counting (c, g) op with
    | none => rw [h2] at h; simp at h
    | some s2 =>
      obtain ⟨c2, g2⟩ := s2
      rw [h2] at h
      simp only [Option.some_bind] at h
      have hins2 : ∀ t, (c.insert t).map (fun r => (r.2,
          if Free_list_management_Tag_false_Tag_true.is_empty c then g + 1 else g)) =
          some (c2, g2) → Q c1 g1 := by
        intro t h3
        cases hi : c.insert t with
        | none => rw [hi] at h3; exact absurd h3 (by simp)
        | some r =>
          obtain ⟨h0, c3⟩ := r
          rw [hi] at h3
          simp only [Option.map_some', Option.some.injEq, Prod.mk.injEq] at h3
          obtain ⟨hc, hg⟩ := h3
          subst hc hg
          have hap : apply_operation c (.insert t) = some c3 := by
            simp [apply_operation, hi]
          obtain ⟨l3, inv3⟩ := apply_operation_inv inv _ hap
          exact ih _ _ _ _ l3 inv3 (hb.insert inv hi) (hins c c3 l t h0 g inv hb hq hi) h
      cases op with
      | insert t => exact hins2 t h2
      | emplace t => exact hins2 t h2
      | erase i =>
        simp only [apply_counting] at h2
        cases he : c.erase i with
        | none => rw [he] at h2; exact absurd h2 (by simp)
        | some c3 =>
          rw [he] at h2
          simp only [Option.map_some', Option.some.injEq, Prod.mk.injEq] at h2
          obtain ⟨hc, hg⟩ := h2
          subst hc hg
          obtain ⟨_, _, _, _, _, inv3⟩ := erase_effect inv he
          exact ih _ _ _ _ _ inv3 (hb.erase inv he) (hers c c3 l i g inv hq he) h

/-- C13: under the policy `Multiply_by_two_policy_for_cc_with_size<k>`, after any sequence
of insert/emplace/erase calls on a freshly constructed arena during which `g` growths took
place (none of them wrapping `size_type`, since no call failed): if `g = 0` the capacity is
0 and `block_size` is `k`; otherwise the capacity is `k * 2^(g-1)` (the first growth brings
it to `k`, every later one doubles it) and `block_size` equals the capacity just reached. -/
theorem doubling_capacity_after_growths (k : Nat) (hk : k < 2 ^ 32)
    (ops : List (Operation T))
    (c0 c : Compact_container_with_index T (.Multiply_by_two_policy_for_cc_with_size k))
    (g : Nat) (h0 : Compact_container_with_index.construct = some c0)
    (h : run_counting (c0, 0) ops = some (c, g)) :
    (g = 0 → c.capacity = 0 ∧ c.block_size = k) ∧
    (1 ≤ g → c.capacity = k * 2 ^ (g - 1) ∧ c.block_size = c.capacity) := by
  rw [construct_eq] at h0
  simp only [Option.some.injEq] at h0
  subst h0
  have hfirst : (Increment_policy.Multiply_by_two_policy_for_cc_with_size k).first_block_size
      = k := by
    simp only [Increment_policy.first_block_size]
    exact Nat.mod_eq_of_lt hk
  have key := run_counting_invariant
    (fun (c : Compact_container_with_index T (.Multiply_by_two_policy_for_cc_with_size k)) g =>
      (g = 0 ∧ c.capacity_ = 0 ∧ c.block_size = k) ∨
      (1 ≤ g ∧ c.capacity_ = k * 2 ^ (g - 1) ∧ c.block_size = c.capacity_))
    (by
      intro c c1 l t h g inv hb hq hi
      obtain ⟨h1, h2, _⟩ := insert_effect inv hi
      have hlt := hb.lt inv
      have hc := inv.cap_lt
      simp only [Increment_policy.block_size_after_growth] at h1
      by_cases hfull : c.size_ = c.capacity_
      · have hemp : Free_list_management_Tag_false_Tag_true.is_empty c = true := by
          simp only [is_empty, beq_iff_eq]; exact inv.full_iff.2 hfull
        obtain ⟨h3, h4, h5⟩ := h1 hfull
        obtain ⟨h6, h7⟩ := no_wrap_of_growth hc hlt h3
        rw [hemp]
        simp only [if_true]
        right
        refine ⟨by omega, ?_, h5⟩
        rw [h4, h6]
        rcases hq with ⟨hg0, hcap, hbs⟩ | ⟨hg1, hcap, hbs⟩
        · rw [hg0, hcap, hbs]; simp
        · rw [hbs, hcap, show g + 1 - 1 = (g - 1) + 1 by omega, pow_succ]
          ring
      · have hemp : Free_list_management_Tag_false_Tag_true.is_empty c = false := by
          simp only [is_empty, beq_eq_false_iff_ne]
          exact fun h => hfull (inv.full_iff.1 h)
        obtain ⟨h3, h4⟩ := h2 hfull
        rw [hemp]
        simp only [Bool.false_eq_true, if_false]
        rw [h3, h4]; exact hq)
    (by
      intro c c1 l i g inv hq he
      obtain ⟨h1, h2, _⟩ := erase_effect inv he
      rw [h1, h2]; exact hq)
    ops _ c 0 g [] construct_inv construct_block_size_inv
    (Or.inl ⟨rfl, rfl, hfirst⟩) h
  simp only [Compact_container_with_index.capacity]
  rcases key with ⟨hg0, hcap, hbs⟩ | ⟨hg1, hcap, hbs⟩
  · exact ⟨fun _ => ⟨hcap, hbs⟩, fun h => by omega⟩
  · exact ⟨fun h => by omega, fun _ => ⟨hcap, hbs⟩⟩

/-- C15: under the policy `Constant_size_policy_for_cc_with_size<k>`, after any sequence of
insert/emplace/erase calls on a freshly constructed arena during which `g` growths took
place (none of them wrapping `size_type`, since no call failed), the capacity is `g * k`
and `block_size` is still `k`: every growth adds exactly `k` slots. -/
theorem constant_capacity_after_growths (k : Nat) (hk : k < 2 ^ 32)
    (ops : List (Operation T))
    (c0 c : Compact_container_with_index T (.Constant_size_policy_for_cc_with_size k))
    (g : Nat) (h0 : Compact_container_with_index.construct = some c0)
    (h : run_counting (c0, 0) ops = some (c, g)) :
    c.capacity = g * k ∧ c.block_size = k := by
  rw [construct_eq] at h0
  simp only [Option.some.injEq] at h0
  subst h0
  have hfirst : (Increment_policy.Constant_size_policy_for_cc_with_size k).first_block_size
      = k := by
    simp only [Increment_policy.first_block_size]
    exact Nat.mod_eq_of_lt hk
  exact run_counting_invariant
    (fun (c : Compact_container_with_index T (.Constant_size_policy_for_cc_with_size k)) g =>
      c.capacity_ = g * k ∧ c.block_size = k)
    (by
      intro c c1 l t h g inv hb hq hi
      obtain ⟨h1, h2, _⟩ := insert_effect inv hi
      have hlt := hb.lt inv
      have hc := inv.cap_lt
      simp only [Increment_policy.block_size_after_growth] at h1
      by_cases hfull : c.size_ = c.capacity_
      · have hemp : Free_list_management_Tag_false_Tag_true.is_empty c = true := by
          simp only [is_empty, beq_iff_eq]; exact inv.full_iff.2 hfull
        obtain ⟨h3, h4, h5⟩ := h1 hfull
        obtain ⟨h6, h7⟩ := no_wrap_of_growth hc hlt h3
        rw [hemp]
        simp only [if_true]
        refine ⟨?_, by rw [h5]; exact hq.2⟩
        rw [h4, h6, hq.1, hq.2]
        ring
      · have hemp : Free_list_management_Tag_false_Tag_true.is_empty c = false := by
          simp only [is_empty, beq_eq_false_iff_ne]
          exact fun h => hfull (inv.full_iff.1 h)
        obtain ⟨h3, h4⟩ := h2 hfull
        rw [hemp]
        simp only [Bool.false_eq_true, if_false]
        rw [h3, h4]; exact hq)
    (by
      intro c c1 l i g inv hq he
      obtain ⟨h1, h2, _⟩ := erase_effect inv he
      rw [h1, h2]; exact hq)
    ops _ c 0 g [] construct_inv construct_block_size_inv
    ⟨by simp, hfirst⟩ h


theorem traverse_eq_used_indices {c : Compact_container_with_index T P} {l : List Nat}
    (inv : Inv c l) : traverse c = some (used_indices c) := by
  obtain ⟨b, h1, h2, _, h4, h5⟩ := begin_spec inv
  unfold traverse
  rw [h1]
  simp only [Option.some_bind]
  rw [traverse_loop_spec inv c.capacity_ b h2 h4 (by omega)]
  unfold used_indices
  rw [List.range_eq_range']
  congr 1
  have := filter_range_skip (fun k => c.is_used k == some true) 0 b c.capacity_
    (by omega) h2 (by
      intro k _ hk2
      simp only []
      rw [inv.is_used_eq (by omega), h5 k hk2]
      rfl)
  simpa using this.symm

theorem used_indices_packed {c : Compact_container_with_index T P}
    (inv : Inv c (List.range' c.size_ (c.capacity_ - c.size_))) :
    used_indices c = List.range c.size_ := by
  have hsz := inv.size_eq
  have hle : c.size_ ≤ c.capacity_ := by omega
  unfold used_indices
  have hsplit : List.range c.capacity_ =
      List.range' 0 c.size_ ++ List.range' c.size_ (c.capacity_ - c.size_) := by
    rw [List.range_eq_range']
    have := List.range'_append 0 c.size_ (c.capacity_ - c.size_) 1
    rw [show 0 + 1 * c.size_ = c.size_ by omega,
      show c.capacity_ - c.size_ + c.size_ = c.capacity_ by omega] at this
    exact this.symm
  rw [hsplit, List.filter_append]
  have h1 : (List.range' 0 c.size_).filter (fun i => c.is_used i == some true) =
      List.range' 0 c.size_ := by
    rw [List.filter_eq_self]
    intro i hi
    rw [List.mem_range'_1] at hi
    have hic : i < c.capacity_ := by omega
    rcases inv.used_or_mem hic with hu | hm
    · rw [inv.is_used_eq hic, hu]; rfl
    · rw [List.mem_range'_1] at hm; omega
  have h2 : (List.range' c.size_ (c.capacity_ - c.size_)).filter
      (fun i => c.is_used i == some true) = [] := by
    rw [List.filter_eq_nil_iff]
    intro i hi
    have hf := (inv.mem i).1 hi
    rw [List.mem_range'_1] at hi
    rw [inv.is_used_eq (by omega), hf]
    simp
  rw [h1, h2, List.append_nil, List.range_eq_range']

theorem growth_possible_of_small {c : Compact_container_with_index T P} {l : List Nat}
    (inv : Inv c l) (hb : Block_size_inv c) (hk : 1 ≤ P.first_block_size)
    (hs : c.size_ < 2 ^ 63) :
    c.free_list.m_free_list = null_descriptor →
      c.capacity_ < (c.capacity_ + c.block_size) % size_type_range := by
  intro hh
  have hfull := inv.full_iff.1 hh
  unfold Block_size_inv at hb
  unfold Increment_policy.first_block_size at hk
  unfold size_type_range
  cases P with
  | Multiply_by_two_policy_for_cc_with_size k =>
    simp only [] at hb hk
    omega
  | Constant_size_policy_for_cc_with_size k =>
    simp only [] at hb hk
    omega

theorem insert_packed {c : Compact_container_with_index T P}
    (inv : Inv c (List.range' c.size_ (c.capacity_ - c.size_))) (t : T)
    (hg : c.free_list.m_free_list = null_descriptor →
      c.capacity_ < (c.capacity_ + c.block_size) % size_type_range) :
    ∃ c1 : Compact_container_with_index T P,
      c.insert t = some (c.size_, c1) ∧ c1.size_ = c.size_ + 1 ∧
      Inv c1 (List.range' c1.size_ (c1.capacity_ - c1.size_)) := by
  obtain ⟨h, c1, l1, h1, inv1, h2, h3, h4, h5, h6, _, _, _, h10, h11⟩ :=
    insert_result inv t hg
  have hsz := inv.size_eq
  simp only [List.length_range'] at hsz
  by_cases hh : c.free_list.m_free_list = null_descriptor
  · have hfull := inv.full_iff.1 hh
    rw [if_pos hh] at h2
    have hl := h11 hh
    rw [show c1.capacity_ - c.capacity_ = (c1.capacity_ - c.capacity_ - 1) + 1 by omega,
      List.range'_succ] at hl
    obtain ⟨_, hl1⟩ := List.cons.inj hl
    refine ⟨c1, ?_, h6, ?_⟩
    · rw [h1, h2, hfull]
    · rw [hl1] at inv1
      rw [h6, hfull, show c1.capacity_ - (c.capacity_ + 1) = c1.capacity_ - c.capacity_ - 1
        by omega]
      exact inv1
  · rw [if_neg hh] at h3
    have hl := h10 hh
    have hpos : 0 < c.capacity_ - c.size_ := by
      by_contra hn
      rw [show c.capacity_ - c.size_ = 0 by omega] at hl
      simp at hl
    rw [show c.capacity_ - c.size_ = (c.capacity_ - c.size_ - 1) + 1 by omega,
      List.range'_succ] at hl
    obtain ⟨hl0, hl1⟩ := List.cons.inj hl
    refine ⟨c1, ?_, h6, ?_⟩
    · rw [h1, hl0]
    · rw [← hl1] at inv1
      rw [h6, h3, show c.capacity_ - (c.size_ + 1) = c.capacity_ - c.size_ - 1 by omega]
      exact inv1

theorem insert_packed_of_some {c c1 : Compact_container_with_index T P} {h : Nat} {t : T}
    (inv : Inv c (List.range' c.size_ (c.capacity_ - c.size_)))
    (hi : c.insert t = some (h, c1)) :
    h = c.size_ ∧ c1.size_ = c.size_ + 1 ∧
    Inv c1 (List.range' c1.size_ (c1.capacity_ - c1.size_)) := by
  have hg : c.free_list.m_free_list = null_descriptor →
      c.capacity_ < (c.capacity_ + c.block_size) % size_type_range := by
    intro hh
    by_contra hn
    rw [insert_none_of_no_growth t hh hn] at hi
    exact absurd hi (by simp)
  obtain ⟨c2, h1, h2, h3⟩ := insert_packed inv t hg
  rw [h1] at hi
  simp only [Option.some.injEq, Prod.mk.injEq] at hi
  obtain ⟨hh, hc⟩ := hi
  subst hc
  exact ⟨hh.symm, h2, h3⟩

theorem insert_handles_of_some (vs : List T) :
    ∀ {c c1 : Compact_container_with_index T P} {hs : List Nat},
      Inv c (List.range' c.size_ (c.capacity_ - c.size_)) →
      insert_handles c vs = some (hs, c1) →
      hs = List.range' c.size_ vs.length ∧ c1.size_ = c.size_ + vs.length ∧
      Inv c1 (List.range' c1.size_ (c1.capacity_ - c1.size_)) := by
  induction vs with
  | nil =>
    intro c c1 hs inv h
    simp only [insert_handles, Option.some.injEq, Prod.mk.injEq] at h
    obtain ⟨h1, h2⟩ := h
    subst h1 h2
    exact ⟨rfl, rfl, inv⟩
  | cons t ts ih =>
    intro c c1 hs inv h
    simp only [insert_handles, Option.bind_eq_bind] at h
    cases hi : c.insert t with
    | none => rw [hi] at h; exact absurd h (by simp)
    | some r =>
      obtain ⟨h0, c2⟩ := r
      rw [hi] at h
      simp only [Option.some_bind] at h
      cases hr : insert_handles c2 ts with
      | none => rw [hr] at h; exact absurd h (by simp)
      | some r2 =>
        obtain ⟨hs2, c3⟩ := r2
        rw [hr] at h
        simp only [Option.some_bind, Option.some.injEq, Prod.mk.injEq] at h
        obtain ⟨h1, h2⟩ := h
        subst h1 h2
        obtain ⟨h3, h4, inv2⟩ := insert_packed_of_some inv hi
        obtain ⟨h5, h6, inv3⟩ := ih inv2 hr
        refine ⟨?_, by rw [h6, h4, List.length_cons]; omega, inv3⟩
        rw [List.length_cons, List.range'_succ, h3, h5, h4]

theorem insert_handles_succeeds (vs : List T) (hk : 1 ≤ P.first_block_size) :
    ∀ {c : Compact_container_with_index T P},
      Inv c (List.range' c.size_ (c.capacity_ - c.size_)) → Block_size_inv c →
      c.size_ + vs.length ≤ 2 ^ 63 →
      ∃ c1, insert_handles c vs = some (List.range' c.size_ vs.length, c1) := by
  induction vs with
  | nil => intro c _ _ _; exact ⟨c, rfl⟩
  | cons t ts ih =>
    intro c inv hb hlen
    rw [List.length_cons] at hlen
    obtain ⟨c2, h1, h2, inv2⟩ := insert_packed inv t
      (growth_possible_of_small inv hb hk (by omega))
    obtain ⟨c3, h3⟩ := ih inv2 (hb.insert inv h1) (by rw [h2]; omega)
    refine ⟨c3, ?_⟩
    simp only [insert_handles, Option.bind_eq_bind, h1, Option.some_bind, h3]
    rw [List.length_cons, List.range'_succ, h2]

/-- C11: in a freshly constructed arena, for either growth policy with first block size at
least 1 and with no erase in between, the `i`-th insertion (counting from 0) returns handle
`i`, across any number of growths, and the iteration from `begin()` to `end()` visits the
handles in the order in which they were returned.  Every insertion that returns does so
with these handles, and the insertions of up to `2^63` values all return. -/
theorem insertions_return_consecutive_handles (vs : List T)
    (c0 : Compact_container_with_index T P) (hk : 1 ≤ P.first_block_size)
    (h0 : Compact_container_with_index.construct = some c0) :
    (∀ (hs : List Nat) (c : Compact_container_with_index T P),
      insert_handles c0 vs = some (hs, c) →
      hs = List.range vs.length ∧ traverse c = some hs) ∧
    (vs.length ≤ 2 ^ 63 →
      ∃ c, insert_handles c0 vs = some (List.range vs.length, c)) := by
  rw [construct_eq] at h0
  simp only [Option.some.injEq] at h0
  subst h0
  have inv0 := construct_inv (T := T) (P := P)
  constructor
  · intro hs c h
    obtain ⟨h1, h2, inv⟩ := insert_handles_of_some vs inv0 h
    have h3 : hs = List.range vs.length := by
      rw [h1, List.range_eq_range']
    refine ⟨h3, ?_⟩
    rw [traverse_eq_used_indices inv, used_indices_packed inv, h3, h2]
    simp
  · intro hlen
    obtain ⟨c1, h1⟩ := insert_handles_succeeds vs hk inv0 construct_block_size_inv
      (by simpa using hlen)
    refine ⟨c1, ?_⟩
    rw [h1, List.range_eq_range']

/-- C11 (witness): three insertions into a fresh arena of the policy `doubling_2`. -/
theorem insertions_return_consecutive_handles_witness :
    1 ≤ doubling_2.first_block_size ∧
    (Compact_container_with_index.construct :
      Option (Compact_container_with_index Index_for_cc_with_index doubling_2)) =
      some (arena_fresh doubling_2) ∧
    ((∀ (hs : List Nat) (c : Compact_container_with_index Index_for_cc_with_index doubling_2),
      insert_handles (arena_fresh doubling_2)
        [{ m_idx := 10 }, { m_idx := 20 }, { m_idx := 30 }] = some (hs, c) →
      hs = List.range [({ m_idx := 10 } : Index_for_cc_with_index), { m_idx := 20 },
        { m_idx := 30 }].length ∧ traverse c = some hs) ∧
    ([({ m_idx := 10 } : Index_for_cc_with_index), { m_idx := 20 },
        { m_idx := 30 }].length ≤ 2 ^ 63 →
      ∃ c, insert_handles (arena_fresh doubling_2)
        [{ m_idx := 10 }, { m_idx := 20 }, { m_idx := 30 }] =
        some (List.range [({ m_idx := 10 } : Index_for_cc_with_index), { m_idx := 20 },
          { m_idx := 30 }].length, c))) :=
  ⟨by decide, by decide,
    insertions_return_consecutive_handles
      [({ m_idx := 10 } : Index_for_cc_with_index), { m_idx := 20 }, { m_idx := 30 }]
      (arena_fresh doubling_2) (by decide) (by decide)⟩

/-- C13 (witness): three insertions into a fresh arena of the policy
`Multiply_by_two_policy_for_cc_with_size<2>` make two growths and reach capacity 4. -/
theorem doubling_capacity_after_growths_witness :
    (2 : Nat) < 2 ^ 32 ∧
    (Compact_container_with_index.construct :
      Option (Compact_container_with_index Index_for_cc_with_index doubling_2)) =
      some (arena_fresh doubling_2) ∧
    run_counting (arena_fresh doubling_2, 0)
      [.insert { m_idx := 10 }, .insert { m_idx := 20 }, .insert { m_idx := 30 }] =
      some (arena_ABC, 2) ∧
    ((2 = 0 → arena_ABC.capacity = 0 ∧ arena_ABC.block_size = 2) ∧
     (1 ≤ 2 → arena_ABC.capacity = 2 * 2 ^ (2 - 1) ∧
       arena_ABC.block_size = arena_ABC.capacity)) :=
  ⟨by decide, by decide, by decide,
    doubling_capacity_after_growths 2 (by decide)
      [.insert { m_idx := 10 }, .insert { m_idx := 20 }, .insert { m_idx := 30 }]
      (arena_fresh doubling_2) arena_ABC 2 (by decide) (by decide)⟩

/-- C15 (witness): three insertions into a fresh arena of the policy
`Constant_size_policy_for_cc_with_size<2>` make two growths and reach capacity 4. -/
theorem constant_capacity_after_growths_witness :
    (2 : Nat) < 2 ^ 32 ∧
    (Compact_container_with_index.construct :
      Option (Compact_container_with_index Index_for_cc_with_index constant_2)) =
      some (arena_fresh constant_2) ∧
    run_counting (arena_fresh constant_2, 0)
      [.insert { m_idx := 10 }, .insert { m_idx := 20 }, .insert { m_idx := 30 }] =
      some (arena_constant_ABC, 2) ∧
    (arena_constant_ABC.capacity = 2 * 2 ∧ arena_constant_ABC.block_size = 2) :=
  ⟨by decide, by decide, by decide,
    constant_capacity_after_growths 2 (by decide)
      [.insert { m_idx := 10 }, .insert { m_idx := 20 }, .insert { m_idx := 30 }]
      (arena_fresh constant_2) arena_constant_ABC 2 (by decide) (by decide)⟩

/-- C14 (counterexample): with the doubling policy starting at block size 2, the insertion
of 3 elements into a freshly constructed arena calls `increase_size()` twice, not once. -/
theorem three_insertions_grow_twice :
    run_counting (arena_fresh doubling_2, 0)
      [.insert { m_idx := 10 }, .insert { m_idx := 20 }, .insert { m_idx := 30 }] =
      some (arena_ABC, 2) ∧ (2 : Nat) ≠ 1 := by
  decide

/-- C14 (amended): with the doubling policy starting at block size 2, the insertion of 3
elements into a freshly constructed arena (capacity 0) triggers exactly two growths: the
first insertion takes `capacity()` from 0 to 2, the second insertion triggers none, and the
third insertion takes `capacity()` from 2 to 4. -/
theorem three_insertions_growth_trace :
    (Compact_container_with_index.construct :
      Option (Compact_container_with_index Index_for_cc_with_index doubling_2)) =
      some (arena_fresh doubling_2) ∧
    (arena_fresh doubling_2).capacity = 0 ∧
    (∃ c1 : Compact_container_with_index Index_for_cc_with_index doubling_2,
      run_counting (arena_fresh doubling_2, 0) [.insert { m_idx := 10 }] = some (c1, 1) ∧
      c1.capacity = 2 ∧
      run_counting (c1, 1) [.insert { m_idx := 20 }] = some (arena_AB, 1) ∧
      arena_AB.capacity = 2 ∧
      run_counting (arena_AB, 1) [.insert { m_idx := 30 }] = some (arena_ABC, 2) ∧
      arena_ABC.capacity = 4) :=
  ⟨by decide, by decide,
   { capacity_ := 2, size_ := 1, block_size := 2,
     all_items := some [{ m_idx := 10 }, { m_idx := null_descriptor }],
     free_list := { m_free_list := 1, m_used := [true, false] } },
   by decide, by decide, by decide, by decide, by decide, by decide⟩

omit [Compact_container_with_index_traits T] in
theorem reserve_eq (c : Compact_container_with_index T P) (n : Nat) : c.reserve n = c := by
  unfold Compact_container_with_index.reserve
  split <;> rfl

/-- C16 (failing input): on a freshly constructed arena (capacity 0) `reserve(1)` changes
nothing, so the capacity is still 0 afterwards and not at least 1. -/
theorem reserve_does_not_grow :
    (arena_fresh doubling_2).reserve 1 = arena_fresh doubling_2 ∧
    ((arena_fresh doubling_2).reserve 1).capacity = 0 ∧
    ¬ (1 ≤ ((arena_fresh doubling_2).reserve 1).capacity) := by
  decide

theorem erase_loop_capacity (fuel : Nat) :
    ∀ {c c1 : Compact_container_with_index T P} {l : List Nat}
      (first last : CC_iterator_with_index), Inv c l →
      erase_loop fuel c first last = some c1 →
      c1.capacity_ = c.capacity_ ∧ c1.block_size = c.block_size ∧ ∃ l1, Inv c1 l1 := by
  induction fuel with
  | zero =>
    intro c c1 l first last inv h
    unfold erase_loop at h
    by_cases hfl : first = last
    · rw [if_pos hfl] at h
      simp only [Option.some.injEq] at h
      subst h
      exact ⟨rfl, rfl, l, inv⟩
    · rw [if_neg hfl] at h
      exact absurd h (by simp)
  | succ f ih =>
    intro c c1 l first last inv h
    unfold erase_loop at h
    by_cases hfl : first = last
    · rw [if_pos hfl] at h
      simp only [Option.some.injEq] at h
      subst h
      exact ⟨rfl, rfl, l, inv⟩
    · rw [if_neg hfl] at h
      simp only [Option.bind_eq_bind] at h
      cases hn : CC_iterator_with_index.increment c first with
      | none => rw [hn] at h; exact absurd h (by simp)
      | some next =>
        rw [hn] at h
        simp only [Option.some_bind] at h
        cases he : c.erase first.m_index with
        | none => rw [he] at h; exact absurd h (by simp)
        | some c2 =>
          rw [he] at h
          simp only [Option.some_bind] at h
          obtain ⟨h1, h2, _, _, _, inv2⟩ := erase_effect inv he
          obtain ⟨h3, h4, h5⟩ := ih next last inv2 h
          exact ⟨by rw [h3, h1], by rw [h4, h2], h5⟩

/-- C17: in every reachable arena state, for every operation among insert, emplace, erase of
a handle, erase of an iterator range and reserve, `capacity()` after the operation is at
least `capacity()` before it; and `reserve` leaves `size()`, the live/free status of every
index and the stored values unchanged. -/
theorem capacity_never_decreases (c : Compact_container_with_index T P) (hr : Reachable c) :
    (∀ (t : T) (h : Nat) (c1 : Compact_container_with_index T P),
      c.insert t = some (h, c1) → c.capacity ≤ c1.capacity) ∧
    (∀ (Args : Type) (value_type : Args → T) (args : Args) (h : Nat)
      (c1 : Compact_container_with_index T P),
      c.emplace value_type args = some (h, c1) → c.capacity ≤ c1.capacity) ∧
    (∀ (i : Nat) (c1 : Compact_container_with_index T P),
      c.erase i = some c1 → c.capacity ≤ c1.capacity) ∧
    (∀ (first last : CC_iterator_with_index) (c1 : Compact_container_with_index T P),
      c.erase_range first last = some c1 → c.capacity ≤ c1.capacity) ∧
    (∀ n : Nat, c.capacity ≤ (c.reserve n).capacity ∧ (c.reserve n).size = c.size ∧
      ∀ i, (c.reserve n).is_used i = c.is_used i ∧
        (c.reserve n).subscript i = c.subscript i) := by
  obtain ⟨l, inv⟩ := hr.inv
  have hlt := hr.block_size_inv.lt inv
  have hc := inv.cap_lt
  have key : ∀ (t : T) (h : Nat) (c1 : Compact_container_with_index T P),
      c.insert t = some (h, c1) → c.capacity ≤ c1.capacity := by
    intro t h c1 hi
    obtain ⟨h1, h2, _⟩ := insert_effect inv hi
    simp only [Compact_container_with_index.capacity]
    by_cases hfull : c.size_ = c.capacity_
    · obtain ⟨h3, h4, _⟩ := h1 hfull
      omega
    · obtain ⟨h3, _⟩ := h2 hfull
      omega
  refine ⟨key, ?_, ?_, ?_, ?_⟩
  · intro Args value_type args h c1 hi
    rw [emplace_eq_insert] at hi
    exact key _ h c1 hi
  · intro i c1 he
    obtain ⟨h1, _⟩ := erase_effect inv he
    simp only [Compact_container_with_index.capacity]
    omega
  · intro first last c1 he
    obtain ⟨h1, _⟩ := erase_loop_capacity c.capacity_ first last inv he
    simp only [Compact_container_with_index.capacity]
    omega
  · intro n
    rw [reserve_eq]
    exact ⟨le_refl _, rfl, fun i => ⟨rfl, rfl⟩⟩

/-- C17 (witness): the operations on `arena_ABC`. -/
theorem capacity_never_decreases_witness :
    Reachable arena_ABC ∧
    ((∀ (t : Index_for_cc_with_index) (h : Nat)
      (c1 : Compact_container_with_index Index_for_cc_with_index doubling_2),
      arena_ABC.insert t = some (h, c1) → arena_ABC.capacity ≤ c1.capacity) ∧
    (∀ (Args : Type) (value_type : Args → Index_for_cc_with_index) (args : Args) (h : Nat)
      (c1 : Compact_container_with_index Index_for_cc_with_index doubling_2),
      arena_ABC.emplace value_type args = some (h, c1) → arena_ABC.capacity ≤ c1.capacity) ∧
    (∀ (i : Nat) (c1 : Compact_container_with_index Index_for_cc_with_index doubling_2),
      arena_ABC.erase i = some c1 → arena_ABC.capacity ≤ c1.capacity) ∧
    (∀ (first last : CC_iterator_with_index)
      (c1 : Compact_container_with_index Index_for_cc_with_index doubling_2),
      arena_ABC.erase_range first last = some c1 → arena_ABC.capacity ≤ c1.capacity) ∧
    (∀ n : Nat, arena_ABC.capacity ≤ (arena_ABC.reserve n).capacity ∧
      (arena_ABC.reserve n).size = arena_ABC.size ∧
      ∀ i, (arena_ABC.reserve n).is_used i = arena_ABC.is_used i ∧
        (arena_ABC.reserve n).subscript i = arena_ABC.subscript i)) :=
  ⟨arena_ABC_reachable, capacity_never_decreases arena_ABC arena_ABC_reachable⟩


omit [Compact_container_with_index_traits T] in
/-- C19: for every two arenas `a` and `b`, `a.swap(b)` leaves `a` with exactly `b`'s former
size, capacity, block_size, slot contents, used flags and free-list head (hence free-list
order) and `b` with `a`'s former ones; applying swap twice restores both arenas. -/
theorem swap_exchanges_the_arenas (a b : Compact_container_with_index T P) :
    a.swap b = (b, a) ∧
    ((a.swap b).1.size = b.size ∧ (a.swap b).1.capacity = b.capacity ∧
     (a.swap b).1.block_size = b.block_size ∧ (a.swap b).1.all_items = b.all_items ∧
     (a.swap b).1.free_list.m_used = b.free_list.m_used ∧
     (a.swap b).1.free_list.m_free_list = b.free_list.m_free_list) ∧
    ((a.swap b).2.size = a.size ∧ (a.swap b).2.capacity = a.capacity ∧
     (a.swap b).2.block_size = a.block_size ∧ (a.swap b).2.all_items = a.all_items ∧
     (a.swap b).2.free_list.m_used = a.free_list.m_used ∧
     (a.swap b).2.free_list.m_free_list = a.free_list.m_free_list) ∧
    (a.swap b).1.swap (a.swap b).2 = (a, b) := by
  have h : ∀ x y : Compact_container_with_index T P, x.swap y = (y, x) := by
    intro x y
    cases x; cases y
    rfl
  rw [h a b]
  exact ⟨rfl, ⟨rfl, rfl, rfl, rfl, rfl, rfl⟩, ⟨rfl, rfl, rfl, rfl, rfl, rfl⟩, h b a⟩


theorem destroy_used_spec {c : Compact_container_with_index T P} {l : List Nat}
    (inv : Inv c l) (n : Nat) : ∀ (i : Nat), i + n ≤ c.capacity_ →
    destroy_used c i n = some () := by
  have hul := inv.used_len
  have hil := inv.items_len
  induction n with
  | zero => intro i _; rfl
  | succ n ih =>
    intro i hi
    have hlt : i < c.capacity_ := by omega
    unfold destroy_used
    rw [inv.is_used_eq hlt, List.getElem?_eq_getElem (by omega), inv.subscript_eq hlt,
      List.getElem?_eq_getElem (by omega)]
    simp only [Option.bind_eq_bind, Option.some_bind]
    rw [ih (i + 1) (by omega)]
    split <;> rfl

theorem clear_spec {c : Compact_container_with_index T P} {l : List Nat} (inv : Inv c l) :
    c.clear = some { capacity_ := 0, size_ := 0, block_size := P.first_block_size,
                     all_items := none,
                     free_list := { m_free_list := null_descriptor, m_used := [] } } := by
  unfold Compact_container_with_index.clear
  rw [destroy_used_spec inv c.capacity_ 0 (by omega)]
  simp [Compact_container_with_index.init, Free_list_management_Tag_false_Tag_true.init]

/-- C18 (amended): in every reachable arena state, after `clear()` the arena is in the same
state as a freshly constructed one: `capacity() == 0`, `size() == 0`, `empty()` is true,
`begin() == end()`, `block_size` is reset to the policy's `first_block_size` and the free
list is empty; so, when `first_block_size >= 1`, the next insertion returns handle 0 and
brings the capacity to `first_block_size`. -/
theorem clear_resets_to_fresh_state (c : Compact_container_with_index T P)
    (hr : Reachable c) :
    c.clear = Compact_container_with_index.construct ∧
    ∃ c1 : Compact_container_with_index T P, c.clear = some c1 ∧
      c1.capacity = 0 ∧ c1.size = 0 ∧ c1.empty = true ∧ c1.begin = some c1.end ∧
      c1.block_size = P.first_block_size ∧
      Free_list_management_Tag_false_Tag_true.is_empty c1 = true ∧
      (1 ≤ P.first_block_size → ∀ t : T, ∃ c2 : Compact_container_with_index T P,
        c1.insert t = some (0, c2) ∧ c2.capacity = P.first_block_size) := by
  obtain ⟨l, inv⟩ := hr.inv
  have hclear := clear_spec inv
  refine ⟨by rw [hclear, construct_eq], _, hclear, rfl, rfl, rfl, ?_, rfl, ?_, ?_⟩
  · simp [Compact_container_with_index.begin, Compact_container_with_index.empty]
  · simp [is_empty]
  · intro hk t
    have inv0 := construct_inv (T := T) (P := P)
    obtain ⟨c2, h1, _, _⟩ := insert_packed inv0 t
      (growth_possible_of_small inv0 construct_block_size_inv hk (by
        show 0 < 2 ^ 63
        positivity))
    refine ⟨c2, h1, ?_⟩
    obtain ⟨h3, _, _⟩ := insert_effect inv0 h1
    obtain ⟨_, h4, _⟩ := h3 rfl
    show c2.capacity_ = P.first_block_size
    rw [h4]
    show (0 + P.first_block_size) % size_type_range = P.first_block_size
    unfold Increment_policy.first_block_size size_type_range
    cases P <;> simp only [] <;> omega

/-- C18 (witness): `clear()` on `arena_ABC`. -/
theorem clear_resets_to_fresh_state_witness :
    Reachable arena_ABC ∧
    (arena_ABC.clear = Compact_container_with_index.construct ∧
    ∃ c1 : Compact_container_with_index Index_for_cc_with_index doubling_2,
      arena_ABC.clear = some c1 ∧
      c1.capacity = 0 ∧ c1.size = 0 ∧ c1.empty = true ∧ c1.begin = some c1.end ∧
      c1.block_size = doubling_2.first_block_size ∧
      Free_list_management_Tag_false_Tag_true.is_empty c1 = true ∧
      (1 ≤ doubling_2.first_block_size → ∀ t : Index_for_cc_with_index,
        ∃ c2 : Compact_container_with_index Index_for_cc_with_index doubling_2,
        c1.insert t = some (0, c2) ∧ c2.capacity = doubling_2.first_block_size)) :=
  ⟨arena_ABC_reachable, clear_resets_to_fresh_state arena_ABC arena_ABC_reachable⟩

/-- C18 (counterexample): for the policy `Multiply_by_two_policy_for_cc_with_size<0>`, after
`clear()` the arena is the freshly constructed one and the next insertion returns no
handle: the assertion `capacity()>old_size` of `increase_to` fails. -/
theorem insert_after_clear_fails_with_zero_block_size :
    Reachable (arena_fresh doubling_0) ∧
    (arena_fresh doubling_0).clear = some (arena_fresh doubling_0) ∧
    (arena_fresh doubling_0).insert { m_idx := 7 } = none :=
  ⟨arena_fresh_reachable doubling_0, by decide, by decide⟩


theorem copy_construct_arena_CB : arena_CB.copy_construct = some arena_CB_copy := by
  have hb : arena_CB.begin = some { m_index := 0 } := by decide
  have h1 : Compact_container_with_index.copy_loop arena_CB 1 { m_index := 1 } arena_C =
      some arena_CB_copy := by decide
  have h2 : arena_CB.subscript 0 = some { m_idx := 30 } := by decide
  have h3 : Compact_container_with_index.inserter_assign (arena_fresh constant_1)
      { m_idx := 30 } = some arena_C := by decide
  have h4 : CC_iterator_with_index.increment arena_CB { m_index := 0 } =
      some { m_index := 1 } := by decide
  have h0 : Compact_container_with_index.copy_loop arena_CB 2 { m_index := 0 }
      (arena_fresh constant_1) = some arena_CB_copy := by
    rw [Compact_container_with_index.copy_loop, if_neg (by decide)]
    simp only [Option.bind_eq_bind, h2, Option.some_bind, h3, h4]
    exact h1
  have hi : (Compact_container_with_index.init
      ({ capacity_ := 0, size_ := 0, block_size := 0, all_items := none,
         free_list := { m_free_list := 0, m_used := [] } } :
        Compact_container_with_index Index_for_cc_with_index constant_1)) =
      some (arena_fresh constant_1) := by decide
  unfold Compact_container_with_index.copy_construct
  rw [hi, hb]
  simp only [Option.bind_eq_bind, Option.some_bind]
  exact h0

/-- C20 (failing input): the arena `arena_CB` (policy
`Constant_size_policy_for_cc_with_size<1>`, reached by insert 10, insert 20, erase 0,
insert 30) iterates as 30, 20; its copy has the same size but iterates as 1, 20: the growth
of the copy at its second insertion has overwritten the element of its slot 0. -/
theorem copy_changes_an_element :
    run (arena_fresh constant_1)
      [.insert { m_idx := 10 }, .insert { m_idx := 20 }, .erase 0, .insert { m_idx := 30 }] =
      some arena_CB ∧
    traverse_values arena_CB = some [{ m_idx := 30 }, { m_idx := 20 }] ∧
    arena_CB.copy_construct = some arena_CB_copy ∧
    Compact_container_with_index.copy_assign (arena_fresh constant_1) arena_CB =
      some arena_CB_copy ∧
    arena_CB_copy.size = arena_CB.size ∧
    traverse_values arena_CB_copy = some [{ m_idx := 1 }, { m_idx := 20 }] := by
  refine ⟨by decide, by decide, copy_construct_arena_CB, ?_, by decide, by decide⟩
  unfold Compact_container_with_index.copy_assign
  rw [copy_construct_arena_CB]
  rfl


/-- C22: for every arena state and all constructor arguments `args`, `emplace(args)` and
`insert(T(args))` have the same outcome: the same handle is returned and the arenas left
behind are equal (size, capacity, block_size, used flags, free list and stored values), and
one fails exactly when the other does. -/
theorem emplace_refines_insert {Args : Type} (c : Compact_container_with_index T P)
    (value_type : Args → T) (args : Args) :
    c.emplace value_type args = c.insert (value_type args) := by
  unfold Compact_container_with_index.emplace Compact_container_with_index.insert
  rfl

/-- C26: a default-constructed handle holds `2^64 - 1`, the maximum of `size_type`, which
is the `null_descriptor` of the arena and of the strategies with a vector of Booleans (stack
or in-place free list); the `null_descriptor` of the bit-squatting strategy on a `size_type`
of `w + 1` bits is half of the maximum, `2^w - 1`. -/
theorem default_handle_is_null_descriptor :
    Index_for_cc_with_index.default_constructed.to_size_t = 2 ^ 64 - 1 ∧
    Index_for_cc_with_index.default_constructed.to_size_t =
      Compact_container_with_index.null_descriptor ∧
    Index_for_cc_with_index.default_constructed.to_size_t =
      Free_list_management_Tag_true_Tag_true.null_descriptor ∧
    Index_for_cc_with_index.default_constructed.to_size_t =
      Free_list_management_Tag_false_Tag_true.null_descriptor ∧
    (∀ w : Nat, Free_list_management_Tag_false_Tag_false.null_descriptor (w + 1) =
      (2 ^ (w + 1) - 1) / 2 ∧
      Free_list_management_Tag_false_Tag_false.null_descriptor (w + 1) = 2 ^ w - 1) ∧
    Free_list_management_Tag_false_Tag_false.null_descriptor 64 = 2 ^ 63 - 1 := by
  refine ⟨rfl, rfl, rfl, rfl, fun w => ⟨rfl, ?_⟩, by decide⟩
  unfold Free_list_management_Tag_false_Tag_false.null_descriptor
  have : 0 < 2 ^ w := by positivity
  rw [pow_succ]
  omega

/-- C27: for every `size_type` value `n`, the handle built from `n` converts back to `n`;
`for_compact_container(v)` followed by `for_compact_container()` gives `v`; two handles
compare equal iff their raw integers are equal; `++` followed by `--`, and `--` followed by
`++`, give back the handle, the increment of the maximum being 0 and the decrement of 0
being the maximum; the postfix operators return the previous value and leave what the
prefix operators leave. -/
theorem handle_wraps_its_integer (n : Nat) (hn : n < size_type_range) :
    (Index_for_cc_with_index.mk n).to_size_t = n ∧
    (∀ (i : Index_for_cc_with_index) (v : Nat),
      (i.set_for_compact_container v).for_compact_container = v) ∧
    (∀ m : Nat, (Index_for_cc_with_index.mk n).equals (Index_for_cc_with_index.mk m) = true ↔
      n = m) ∧
    (∀ m : Nat, (Index_for_cc_with_index.mk n).equals_size_type m = true ↔ n = m) ∧
    (Index_for_cc_with_index.mk n).pre_increment.pre_decrement = Index_for_cc_with_index.mk n ∧
    (Index_for_cc_with_index.mk n).pre_decrement.pre_increment = Index_for_cc_with_index.mk n ∧
    (Index_for_cc_with_index.mk (size_type_range - 1)).pre_increment =
      Index_for_cc_with_index.mk 0 ∧
    (Index_for_cc_with_index.mk 0).pre_decrement =
      Index_for_cc_with_index.mk (size_type_range - 1) ∧
    (Index_for_cc_with_index.mk n).post_increment =
      (Index_for_cc_with_index.mk n, (Index_for_cc_with_index.mk n).pre_increment) ∧
    (Index_for_cc_with_index.mk n).post_decrement =
      (Index_for_cc_with_index.mk n, (Index_for_cc_with_index.mk n).pre_decrement) := by
  refine ⟨rfl, fun _ _ => rfl, fun m => ?_, fun m => ?_, ?_, ?_, by decide, by decide,
    rfl, rfl⟩
  · simp [Index_for_cc_with_index.equals]
  · simp [Index_for_cc_with_index.equals_size_type]
  · simp only [Index_for_cc_with_index.pre_increment, Index_for_cc_with_index.pre_decrement,
      Index_for_cc_with_index.mk.injEq]
    unfold size_type_range at hn ⊢
    omega
  · simp only [Index_for_cc_with_index.pre_increment, Index_for_cc_with_index.pre_decrement,
      Index_for_cc_with_index.mk.injEq]
    unfold size_type_range at hn ⊢
    omega

theorem handle_wraps_its_integer_witness :
    (Index_for_cc_with_index.mk (2 ^ 64 - 1)).to_size_t = 2 ^ 64 - 1 ∧
    (Index_for_cc_with_index.mk (2 ^ 64 - 1)).pre_increment.pre_decrement =
      Index_for_cc_with_index.mk (2 ^ 64 - 1) ∧
    (Index_for_cc_with_index.mk (2 ^ 64 - 1)).pre_decrement.pre_increment =
      Index_for_cc_with_index.mk (2 ^ 64 - 1) :=
  have h := handle_wraps_its_integer (2 ^ 64 - 1) (by decide)
  ⟨h.1, h.2.2.2.2.1, h.2.2.2.2.2.1⟩

theorem Inv.subscript_some {c : Compact_container_with_index T P} {l : List Nat}
    (inv : Inv c l) {i : Nat} (hi : i < c.capacity_) : ∃ e, c.subscript i = some e := by
  have hlen := inv.items_len
  rw [inv.subscript_eq hi, List.getElem?_eq_getElem (by omega)]
  exact ⟨_, rfl⟩

theorem Inv.used_some {c : Compact_container_with_index T P} {l : List Nat}
    (inv : Inv c l) {i : Nat} (hi : i < c.capacity_) :
    ∃ b, c.is_used i = some b ∧ c.free_list.m_used[i]? = some b := by
  have hlen := inv.used_len
  rw [inv.is_used_eq hi, List.getElem?_eq_getElem (by omega)]
  exact ⟨_, rfl, rfl⟩

theorem Inv.begin_lt {c : Compact_container_with_index T P} {l : List Nat}
    (inv : Inv c l) (hs : c.size_ ≠ 0) :
    ∃ b, c.begin = some { m_index := b } ∧ b < c.capacity_ ∧ c.is_used b = some true ∧
      ∀ k, k < b → c.is_used k = some false := by
  obtain ⟨b, h1, h2, _, h4, h5⟩ := begin_spec inv
  have hb : b < c.capacity_ := by
    by_contra hn
    have hbc : b = c.capacity_ := by omega
    have hlen := inv.used_len
    have h0 : ([] : List Nat).length = c.size_ := by
      apply inv.count_live List.nodup_nil
      intro i
      constructor
      · intro h; exact absurd h (List.not_mem_nil i)
      · intro h
        exfalso
        by_cases hi : i < b
        · rw [h5 i hi] at h; exact absurd h (by simp)
        · rw [List.getElem?_eq_none (by omega)] at h; exact absurd h (by simp)
    exact hs h0.symm
  refine ⟨b, h1, hb, ?_, fun k hk => ?_⟩
  · rw [inv.is_used_eq hb]; exact h4 hb
  · rw [inv.is_used_eq (by omega)]; exact h5 k hk

/-- C23: `operator[](i)` fails for every `i >= capacity()` on every arena, an arena of
capacity 0 included, so that dereferencing `end()` always fails; in a reachable arena it
returns an element for every `i < capacity()`, whether the slot is used or free. -/
theorem subscript_succeeds_iff_below_capacity (c : Compact_container_with_index T P) :
    (∀ i, c.capacity ≤ i → c.subscript i = none) ∧
    CC_iterator_with_index.dereference c c.end = none ∧
    (Reachable c →
      (∀ i, i < c.capacity → ∃ e, c.subscript i = some e) ∧
      (∀ i, i < c.capacity → c.is_used i = some false → ∃ e, c.subscript i = some e)) := by
  have hnone : ∀ i, c.capacity ≤ i → c.subscript i = none := by
    intro i hi
    unfold Compact_container_with_index.capacity at hi
    unfold subscript
    cases c.all_items with
    | none => rfl
    | some items => simp only []; rw [if_neg (by omega)]
  refine ⟨hnone, hnone _ (Nat.le_refl _), fun hc => ?_⟩
  obtain ⟨l, inv⟩ := hc.inv
  exact ⟨fun i hi => inv.subscript_some hi, fun i hi _ => inv.subscript_some hi⟩

theorem subscript_succeeds_iff_below_capacity_witness :
    Reachable arena_AC ∧
    (∃ e, arena_AC.subscript 1 = some e) ∧ arena_AC.is_used 1 = some false ∧
    arena_AC.subscript 4 = none :=
  have h := subscript_succeeds_iff_below_capacity arena_AC
  ⟨arena_AC_reachable, (h.2.2 arena_AC_reachable).1 1 (by decide), by decide,
    h.1 4 (by decide)⟩

/-- C24: in every reachable arena state, `begin()` is `end()` when `size() == 0`, whatever
the capacity; otherwise `begin()` stands at the smallest index `i < capacity()` with
`is_used(i)`; `end()` stands at index `capacity()`. -/
theorem begin_is_first_live_slot (c : Compact_container_with_index T P) (hc : Reachable c) :
    (c.size = 0 → c.begin = some c.end) ∧
    (c.size ≠ 0 → ∃ i, c.begin = some { m_index := i } ∧ i < c.capacity ∧
      c.is_used i = some true ∧ ∀ k, k < i → c.is_used k = some false) ∧
    c.end.m_index = c.capacity := by
  obtain ⟨l, inv⟩ := hc.inv
  refine ⟨fun h0 => ?_, fun hs => inv.begin_lt hs, rfl⟩
  obtain ⟨b, h1, _, h3, _⟩ := begin_spec inv
  rw [h1, h3 h0]
  rfl

theorem begin_is_first_live_slot_witness :
    Reachable arena_AC ∧
    (arena_AC.size ≠ 0 → ∃ i, arena_AC.begin = some { m_index := i } ∧ i < arena_AC.capacity ∧
      arena_AC.is_used i = some true ∧ ∀ k, k < i → arena_AC.is_used k = some false) ∧
    ((arena_fresh doubling_2).size = 0 →
      (arena_fresh doubling_2).begin = some (arena_fresh doubling_2).end) :=
  ⟨arena_AC_reachable, (begin_is_first_live_slot arena_AC arena_AC_reachable).2.1,
    (begin_is_first_live_slot (arena_fresh doubling_2) (arena_fresh_reachable doubling_2)).1⟩

/-- C25: in every reachable arena state and for every iterator `cit` of the arena with
index `i <= capacity()`, `owns(cit)` returns true iff `i == capacity()` or slot `i` is
used, that is iff `cit` is `end()` or one of the positions visited from `begin()` to
`end()`; `owns_dereferencable(cit)` returns true iff `i < capacity()` and slot `i` is
used. -/
theorem owns_iff_end_or_live (c : Compact_container_with_index T P) (hc : Reachable c)
    (cit : CC_iterator_with_index) (hi : cit.m_index ≤ c.capacity) :
    ∃ b d, c.owns cit = some b ∧ c.owns_dereferencable cit = some d ∧
      (b = true ↔ (cit.m_index = c.capacity ∨ c.is_used cit.m_index = some true)) ∧
      (b = true ↔ (cit = c.end ∨ ∃ l, traverse c = some l ∧ cit.m_index ∈ l)) ∧
      (d = true ↔ (cit.m_index < c.capacity ∧ c.is_used cit.m_index = some true)) := by
  obtain ⟨l, inv⟩ := hc.inv
  obtain ⟨i⟩ := cit
  unfold Compact_container_with_index.capacity at hi ⊢
  simp only at hi ⊢
  have hend : ∀ j : Nat, (({ m_index := j } : CC_iterator_with_index) = c.end) ↔
      j = c.capacity_ := by
    intro j
    unfold Compact_container_with_index.end
    simp
  have hnone : c.is_used c.capacity_ = none := inv.is_used_none (by omega)
  by_cases hcap : i = c.capacity_
  · subst hcap
    refine ⟨true, false, ?_, ?_, ?_, ?_, ?_⟩
    · unfold owns; rw [if_pos ((hend _).2 rfl)]
    · unfold owns_dereferencable; rw [if_neg (fun h => h ((hend _).2 rfl))]
    · simp
    · simp [(hend _).2 rfl]
    · simp
  · have hlt : i < c.capacity_ := by omega
    obtain ⟨e, he⟩ := inv.subscript_some hlt
    obtain ⟨b, hb, hb2⟩ := inv.used_some hlt
    have hne : ¬ (({ m_index := i } : CC_iterator_with_index) = c.end) :=
      fun h => hcap ((hend i).1 h)
    have howns : c.owns { m_index := i } = some b := by
      unfold owns
      rw [if_neg hne]
      simp only [CC_iterator_with_index.dereference, he, Option.bind_eq_bind, Option.some_bind]
      rw [if_pos hlt, hb]
    refine ⟨b, b, howns, ?_, ?_, ?_, ?_⟩
    · unfold owns_dereferencable; rw [if_pos hne, howns]
    · rw [hb]; simp [hcap]
    · rw [traverse_eq_used_indices inv]
      simp only [hne, false_or, Option.some.injEq, exists_eq_left']
      rw [inv.mem_used_indices, hb2]
      simp
    · rw [hb]; simp [hlt]

theorem owns_iff_end_or_live_witness :
    Reachable arena_AC ∧
    ∃ b d, arena_AC.owns { m_index := 1 } = some b ∧
      arena_AC.owns_dereferencable { m_index := 1 } = some d ∧
      (b = true ↔ ((1 : Nat) = arena_AC.capacity ∨ arena_AC.is_used 1 = some true)) ∧
      (b = true ↔ ((({ m_index := 1 } : CC_iterator_with_index) = arena_AC.end) ∨
        ∃ l, traverse arena_AC = some l ∧ 1 ∈ l)) ∧
      (d = true ↔ ((1 : Nat) < arena_AC.capacity ∧ arena_AC.is_used 1 = some true)) :=
  ⟨arena_AC_reachable,
    owns_iff_end_or_live arena_AC arena_AC_reachable { m_index := 1 } (by decide)⟩

theorem mask_type_eq (w : Nat) (hw : 1 ≤ w) :
    Free_list_management_Tag_false_Tag_false.mask_type w = 2 ^ (w - 1) := by
  obtain ⟨m, rfl⟩ : ∃ m, w = m + 1 := ⟨w - 1, by omega⟩
  unfold Free_list_management_Tag_false_Tag_false.mask_type
  have : 0 < 2 ^ m := by positivity
  rw [Nat.add_sub_cancel, pow_succ]
  omega

theorem static_get_val_eq (w : Nat) (hw : 1 ≤ w) (e : T) :
    Free_list_management_Tag_false_Tag_false.static_get_val w e = size_t e % 2 ^ (w - 1) := by
  unfold Free_list_management_Tag_false_Tag_false.static_get_val
  rw [mask_type_eq w hw]
  obtain ⟨m, rfl⟩ : ∃ m, w = m + 1 := ⟨w - 1, by omega⟩
  have h : 2 ^ (m + 1) - 1 - 2 ^ (m + 1 - 1) = 2 ^ m - 1 := by
    have : 0 < 2 ^ m := by positivity
    rw [Nat.add_sub_cancel, pow_succ]
    omega
  rw [h, Nat.and_pow_two_sub_one_eq_mod, Nat.add_sub_cancel]

theorem static_type_eq (w : Nat) (hw : 1 ≤ w) (e : T) :
    Free_list_management_Tag_false_Tag_false.static_type w e =
      some (if (size_t e).testBit (w - 1) then
        Free_list_management_Tag_false_Tag_false.«Type».FREE
      else Free_list_management_Tag_false_Tag_false.«Type».USED) := by
  unfold Free_list_management_Tag_false_Tag_false.static_type
    Free_list_management_Tag_false_Tag_false.nbbits_size_type_m1
  rw [mask_type_eq w hw, Nat.and_two_pow, Nat.shiftRight_eq_div_pow,
    Nat.mul_div_cancel _ (by positivity)]
  cases (size_t e).testBit (w - 1) <;> rfl

theorem or_tag_mod (v t m : Nat) : (v ||| (t <<< m)) % 2 ^ m = v % 2 ^ m := by
  apply Nat.eq_of_testBit_eq
  intro i
  simp only [Nat.testBit_mod_two_pow, Nat.testBit_or, Nat.testBit_shiftLeft]
  by_cases h : i < m
  · simp [h]
  · simp [h]

theorem or_tag_bit (v m : Nat) (hv : v < 2 ^ m)
    (t : Free_list_management_Tag_false_Tag_false.«Type») :
    (v ||| (t.to_size_type <<< m)).testBit m =
      decide (t = Free_list_management_Tag_false_Tag_false.«Type».FREE) := by
  simp only [Nat.testBit_or, Nat.testBit_shiftLeft, Nat.testBit_lt_two_pow hv]
  cases t <;> simp [Free_list_management_Tag_false_Tag_false.«Type».to_size_type]

theorem static_set_val_spec (w : Nat) (hw : 1 ≤ w) (e : T) (v : Nat)
    (t : Free_list_management_Tag_false_Tag_false.«Type») :
    Free_list_management_Tag_false_Tag_false.static_get_val w
      (Free_list_management_Tag_false_Tag_false.static_set_val w e v t) = v % 2 ^ (w - 1) ∧
    (v < 2 ^ (w - 1) →
      Free_list_management_Tag_false_Tag_false.static_type w
        (Free_list_management_Tag_false_Tag_false.static_set_val w e v t) = some t) := by
  constructor
  · rw [static_get_val_eq w hw]
    unfold Free_list_management_Tag_false_Tag_false.static_set_val
      Free_list_management_Tag_false_Tag_false.nbbits_size_type_m1
    rw [Compact_container_with_index_traits.size_t_set_size_t, or_tag_mod]
  · intro hv
    rw [static_type_eq w hw]
    unfold Free_list_management_Tag_false_Tag_false.static_set_val
      Free_list_management_Tag_false_Tag_false.nbbits_size_type_m1
    rw [Compact_container_with_index_traits.size_t_set_size_t, or_tag_bit v (w - 1) hv]
    cases t <;> rfl

theorem static_set_type_spec (w : Nat) (hw : 1 ≤ w) (e : T)
    (t : Free_list_management_Tag_false_Tag_false.«Type») :
    Free_list_management_Tag_false_Tag_false.static_type w
      (Free_list_management_Tag_false_Tag_false.static_set_type w e t) = some t ∧
    Free_list_management_Tag_false_Tag_false.static_get_val w
      (Free_list_management_Tag_false_Tag_false.static_set_type w e t) =
      Free_list_management_Tag_false_Tag_false.static_get_val w e := by
  have hlt : size_t e % 2 ^ (w - 1) < 2 ^ (w - 1) := Nat.mod_lt _ (by positivity)
  constructor
  · rw [static_type_eq w hw]
    unfold Free_list_management_Tag_false_Tag_false.static_set_type
      Free_list_management_Tag_false_Tag_false.nbbits_size_type_m1
    rw [Compact_container_with_index_traits.size_t_set_size_t, static_get_val_eq w hw,
      or_tag_bit _ (w - 1) hlt]
    cases t <;> rfl
  · rw [static_get_val_eq w hw, static_get_val_eq w hw]
    unfold Free_list_management_Tag_false_Tag_false.static_set_type
      Free_list_management_Tag_false_Tag_false.nbbits_size_type_m1
    rw [Compact_container_with_index_traits.size_t_set_size_t, static_get_val_eq w hw,
      or_tag_mod, Nat.mod_mod]

/-- C28: in the bit-squatting strategy on a `size_type` of `w` bits, `mask_type` is
`2^(w-1)`; for every value `v < 2^(w-1)` and every tag `t`, the element written by
`static_set_val(e, v, t)` has `static_get_val` equal to `v` and `static_type` equal to `t`;
and `static_set_type(e, t)` sets the tag to `t` and leaves `static_get_val(e)` as it was,
whatever the element held before. -/
theorem bit_squatting_encoding_roundtrip (w : Nat) (hw : 1 ≤ w) :
    Free_list_management_Tag_false_Tag_false.mask_type w = 2 ^ (w - 1) ∧
    (∀ (e : T) (v : Nat) (t : Free_list_management_Tag_false_Tag_false.«Type»),
      v < 2 ^ (w - 1) →
      Free_list_management_Tag_false_Tag_false.static_get_val w
        (Free_list_management_Tag_false_Tag_false.static_set_val w e v t) = v ∧
      Free_list_management_Tag_false_Tag_false.static_type w
        (Free_list_management_Tag_false_Tag_false.static_set_val w e v t) = some t) ∧
    (∀ (e : T) (t : Free_list_management_Tag_false_Tag_false.«Type»),
      Free_list_management_Tag_false_Tag_false.static_type w
        (Free_list_management_Tag_false_Tag_false.static_set_type w e t) = some t ∧
      Free_list_management_Tag_false_Tag_false.static_get_val w
        (Free_list_management_Tag_false_Tag_false.static_set_type w e t) =
        Free_list_management_Tag_false_Tag_false.static_get_val w e) := by
  refine ⟨mask_type_eq w hw, fun e v t hv => ⟨?_, (static_set_val_spec w hw e v t).2 hv⟩,
    fun e t => static_set_type_spec w hw e t⟩
  rw [(static_set_val_spec w hw e v t).1, Nat.mod_eq_of_lt hv]

theorem bit_squatting_encoding_roundtrip_witness :
    (1 ≤ 64 ∧ 2 ^ 63 - 1 < 2 ^ (64 - 1)) ∧
    Free_list_management_Tag_false_Tag_false.mask_type 64 = 2 ^ (64 - 1) ∧
    Free_list_management_Tag_false_Tag_false.static_get_val 64
      (Free_list_management_Tag_false_Tag_false.static_set_val 64
        ({ m_idx := 5 } : Index_for_cc_with_index) (2 ^ 63 - 1) .FREE) = 2 ^ 63 - 1 ∧
    Free_list_management_Tag_false_Tag_false.static_type 64
      (Free_list_management_Tag_false_Tag_false.static_set_val 64
        ({ m_idx := 5 } : Index_for_cc_with_index) (2 ^ 63 - 1) .FREE) = some .FREE :=
  have h := bit_squatting_encoding_roundtrip (T := Index_for_cc_with_index) 64 (by decide)
  ⟨⟨by decide, by decide⟩, h.1, h.2.1 { m_idx := 5 } (2 ^ 63 - 1) .FREE (by decide)⟩

theorem link_free_successors_some (w n : Nat) :
    ∀ (c : Compact_container_with_index T P) (items : List T) (i : Nat),
      c.all_items = some items → items.length = c.capacity_ → i + n ≤ c.capacity_ →
      ∃ c1 items1, Free_list_management_Tag_false_Tag_false.link_free_successors w c i n =
          some c1 ∧
        c1.all_items = some items1 ∧ items1.length = c1.capacity_ ∧
        c1.capacity_ = c.capacity_ := by
  induction n with
  | zero =>
    intro c items i h1 h2 _
    exact ⟨c, items, rfl, h1, h2, rfl⟩
  | succ n ih =>
    intro c items i h1 h2 h3
    have hi : i < c.capacity_ := by omega
    have hsub : c.subscript i = some items[i] := by
      unfold subscript
      rw [h1]
      simp only []
      rw [if_pos hi, List.getElem?_eq_getElem]
    have hassign : ∀ t : T, c.assign_subscript i t =
        some { c with all_items := some (items.set i t) } := by
      intro t
      unfold assign_subscript
      rw [h1]
      simp only []
      rw [if_pos ⟨hi, by omega⟩]
    obtain ⟨c1, items1, h4, h5, h6, h7⟩ :=
      ih { c with all_items := some (items.set i
        (Free_list_management_Tag_false_Tag_false.static_set_val w items[i]
          ((i + 1) % 2 ^ w) .FREE)) } _ (i + 1) rfl
        (by simp only [List.length_set]; exact h2) (by simp only []; omega)
    refine ⟨c1, items1, ?_, h5, h6, h7⟩
    rw [Free_list_management_Tag_false_Tag_false.link_free_successors]
    simp only [hsub, hassign, Option.bind_eq_bind, Option.some_bind]
    exact h4

set_option maxRecDepth 10000 in
/-- C29 (counterexample): with a `size_type` of 8 bits, `increase_to(129)` on a container
whose capacity has been raised to 130, beyond `2^7 = 128`, fails no assertion; it writes
the successor `130` of slot 129 with the tag `FREE`, which reads back as the value 2. -/
theorem bit_squatting_growth_beyond_half_range_returns :
    2 ^ (8 - 1) < arena_130.capacity ∧
    (Free_list_management_Tag_false_Tag_false.increase_to 8 arena_130
      { m_free_list := 129 } 129).isSome = true ∧
    (Free_list_management_Tag_false_Tag_false.increase_to 8 arena_130
      { m_free_list := 129 } 129).bind
      (fun r => (r.1.subscript 129).map
        (Free_list_management_Tag_false_Tag_false.static_get_val 8)) = some 2 := by
  refine ⟨by decide, by decide, by decide⟩

/-- C29 (amended): in the bit-squatting strategy on a `size_type` of `w` bits, a value
`v` of `size_type` written by `static_set_val` is read back by `static_get_val` iff
`v <= null_descriptor = 2^(w-1) - 1`, so that the largest index the encoding can hold is
`2^(w-1) - 1`; `increase_to(old_size)` asserts only `capacity() > old_size` and
`m_free_list == old_size`: on a container with an allocated block it fails iff one of the
two is violated, whatever the capacity is against `2^(w-1)`. -/
theorem bit_squatting_increase_to_fails_iff (w : Nat) (hw : 1 ≤ w) :
    Free_list_management_Tag_false_Tag_false.null_descriptor w = 2 ^ (w - 1) - 1 ∧
    (∀ (e : T) (v : Nat) (t : Free_list_management_Tag_false_Tag_false.«Type»),
      (Free_list_management_Tag_false_Tag_false.static_get_val w
        (Free_list_management_Tag_false_Tag_false.static_set_val w e v t) = v ↔
        v ≤ Free_list_management_Tag_false_Tag_false.null_descriptor w)) ∧
    (∀ (c : Compact_container_with_index T P) (s : Free_list_management_Tag_false_Tag_false)
      (old_size : Nat) (items : List T),
      c.all_items = some items → items.length = c.capacity →
      (Free_list_management_Tag_false_Tag_false.increase_to w c s old_size = none ↔
        (¬ (old_size < c.capacity) ∨ s.m_free_list ≠ old_size))) := by
  have hnull : Free_list_management_Tag_false_Tag_false.null_descriptor w = 2 ^ (w - 1) - 1 := by
    obtain ⟨m, rfl⟩ : ∃ m, w = m + 1 := ⟨w - 1, by omega⟩
    unfold Free_list_management_Tag_false_Tag_false.null_descriptor
    have : 0 < 2 ^ m := by positivity
    rw [Nat.add_sub_cancel, pow_succ]
    omega
  refine ⟨hnull, fun e v t => ?_, fun c s old_size items h1 h2 => ?_⟩
  · rw [(static_set_val_spec w hw e v t).1, hnull]
    have hpos : 0 < 2 ^ (w - 1) := by positivity
    constructor
    · intro h
      have := Nat.mod_lt v hpos
      omega
    · intro h
      exact Nat.mod_eq_of_lt (by omega)
  · unfold Compact_container_with_index.capacity at h2 ⊢
    unfold Free_list_management_Tag_false_Tag_false.increase_to
    by_cases ha : old_size < c.capacity_
    · by_cases hb : s.m_free_list = old_size
      · obtain ⟨c1, items1, h3, _⟩ :=
          link_free_successors_some w (c.capacity_ - old_size) c items old_size h1 h2
            (by omega)
        rw [if_neg (not_not.2 ha), if_neg (not_not.2 hb)]
        simp [h3, ha, hb]
      · rw [if_neg (not_not.2 ha), if_pos hb]
        simp [hb]
    · rw [if_pos ha]
      simp [ha]

set_option maxRecDepth 10000 in
theorem bit_squatting_increase_to_fails_iff_witness :
    (1 ≤ 8 ∧ arena_130.all_items = some (List.replicate 130 { m_idx := 0 }) ∧
      (List.replicate 130 ({ m_idx := 0 } : Index_for_cc_with_index)).length =
        arena_130.capacity) ∧
    (Free_list_management_Tag_false_Tag_false.increase_to 8 arena_130
        { m_free_list := 129 } 129 = none ↔
      (¬ (129 < arena_130.capacity) ∨
        ({ m_free_list := 129 } : Free_list_management_Tag_false_Tag_false).m_free_list ≠
          129)) ∧
    ¬ (Free_list_management_Tag_false_Tag_false.static_get_val 8
        (Free_list_management_Tag_false_Tag_false.static_set_val 8
          ({ m_idx := 0 } : Index_for_cc_with_index) 130 .FREE) = 130) :=
  have h := bit_squatting_increase_to_fails_iff (T := Index_for_cc_with_index)
    (P := constant_1) 8 (by decide)
  ⟨⟨by decide, rfl, by decide⟩,
    h.2.2 arena_130 { m_free_list := 129 } 129 _ rfl (by decide),
    fun h1 => absurd ((h.2.1 { m_idx := 0 } 130 .FREE).1 h1) (by decide)⟩

theorem Stack_strategy_inv.stack_is_used_eq {s : Stack_strategy_state} (inv : Stack_strategy_inv s)
    {i : Nat} (hi : i < s.capacity) :
    Free_list_management_Tag_true_Tag_true.is_used s.capacity s.free_list i =
      s.free_list.m_used[i]? := by
  have hc := inv.cap_lt
  unfold Free_list_management_Tag_true_Tag_true.is_used
    Free_list_management_Tag_true_Tag_true.null_descriptor
  rw [if_pos ⟨hi, by omega⟩]

theorem Stack_strategy_inv.stack_init (capacity uninitialized : Nat)
    (hc : capacity < size_type_range) :
    Stack_strategy_inv
      { capacity := capacity,
        free_list := Free_list_management_Tag_true_Tag_true.init capacity
          (Free_list_management_Tag_true_Tag_true.construct uninitialized) } := by
  unfold Free_list_management_Tag_true_Tag_true.init
    Free_list_management_Tag_true_Tag_true.construct
  constructor
  · exact hc
  · simp only []
    split
    · simp
    · simp; omega
  · simp
  · intro i hi
    have hi1 : i < capacity := hi
    simp only []
    rw [if_pos (by omega), List.getElem?_replicate, if_pos hi1]
    simp
  · simp
  · simp

theorem Stack_strategy_inv.stack_pop_spec {s : Stack_strategy_state} (inv : Stack_strategy_inv s)
    (hne : Free_list_management_Tag_true_Tag_true.is_empty s.capacity s.free_list = false) :
    ∃ res f1, Free_list_management_Tag_true_Tag_true.top s.capacity s.free_list = some res ∧
      Free_list_management_Tag_true_Tag_true.pop s.capacity s.free_list = some (res, f1) ∧
      (s.free_list.m_first_free_index ≠ s.capacity → res = s.free_list.m_first_free_index) ∧
      (s.free_list.m_first_free_index = s.capacity →
        s.free_list.m_free_list.head? = some res) ∧
      res < s.capacity ∧ s.free_list.m_used[res]? = some false ∧
      f1.m_used = s.free_list.m_used.set res true ∧
      Stack_strategy_inv { capacity := s.capacity, free_list := f1 } := by
  have hc := inv.cap_lt
  have hlen := inv.used_len
  have hfl := inv.first_le
  by_cases hf : s.free_list.m_first_free_index = s.capacity
  · -- the index comes from the stack
    have hst : s.free_list.m_free_list ≠ [] := by
      intro h
      unfold Free_list_management_Tag_true_Tag_true.is_empty at hne
      rw [h, hf] at hne
      simp at hne
    obtain ⟨x, xs, hx⟩ := List.exists_cons_of_ne_nil hst
    have hxlt : x < s.capacity := by
      have := inv.mem_lt x (by rw [hx]; exact List.mem_cons_self _ _)
      omega
    have hxfree : s.free_list.m_used[x]? = some false :=
      (inv.free_iff x hxlt).2 (Or.inr (by rw [hx]; exact List.mem_cons_self _ _))
    have hnd : x ∉ xs ∧ xs.Nodup := by
      have := inv.nodup
      rw [hx] at this
      exact List.nodup_cons.1 this
    have htop : Free_list_management_Tag_true_Tag_true.top s.capacity s.free_list = some x := by
      unfold Free_list_management_Tag_true_Tag_true.top
      rw [hne]
      simp [hf, hx]
    refine ⟨x, { s.free_list with m_free_list := s.free_list.m_free_list.tail,
                                  m_used := s.free_list.m_used.set x true },
      htop, ?_, fun h => absurd hf h, fun _ => by rw [hx]; rfl, hxlt, hxfree, rfl, ?_⟩
    · unfold Free_list_management_Tag_true_Tag_true.pop
      rw [hne]
      simp only [Bool.false_eq_true, if_false, htop, Option.bind_eq_bind, Option.some_bind,
        inv.stack_is_used_eq hxlt, hxfree]
      simp [hf, hx]
      omega
    · constructor
      · exact hc
      · simp only [List.length_set]; exact hlen
      · exact hfl
      · intro j hj
        simp only [hx, List.tail_cons]
        by_cases hjx : j = x
        · subst hjx
          rw [List.getElem?_set_self (by omega)]
          have h1 : ¬ s.free_list.m_first_free_index ≤ j := by
            have : j < s.capacity := hj
            omega
          simp [h1, hnd.1]
        · rw [List.getElem?_set_ne (Ne.symm hjx), inv.free_iff j hj, hx]
          simp [hjx]
      · simp only [hx, List.tail_cons]; exact hnd.2
      · intro j hj
        simp only [hx, List.tail_cons] at hj
        exact inv.mem_lt j (by rw [hx]; exact List.mem_cons_of_mem _ hj)
  · -- the index comes from the counter
    have hflt : s.free_list.m_first_free_index < s.capacity := by omega
    have hfree : s.free_list.m_used[s.free_list.m_first_free_index]? = some false :=
      (inv.free_iff _ hflt).2 (Or.inl (Nat.le_refl _))
    have htop : Free_list_management_Tag_true_Tag_true.top s.capacity s.free_list =
        some s.free_list.m_first_free_index := by
      unfold Free_list_management_Tag_true_Tag_true.top
      rw [hne]
      simp [hf]
    have hmod : (s.free_list.m_first_free_index + 1) % size_type_range =
        s.free_list.m_first_free_index + 1 := Nat.mod_eq_of_lt (by omega)
    refine ⟨s.free_list.m_first_free_index,
      { s.free_list with
        m_first_free_index := (s.free_list.m_first_free_index + 1) % size_type_range,
        m_used := s.free_list.m_used.set s.free_list.m_first_free_index true },
      htop, ?_, fun _ => rfl, fun h => absurd h hf, hflt, hfree, rfl, ?_⟩
    · unfold Free_list_management_Tag_true_Tag_true.pop
      rw [hne]
      simp only [Bool.false_eq_true, if_false, htop, Option.bind_eq_bind, Option.some_bind,
        inv.stack_is_used_eq hflt, hfree]
      simp [hf]
      omega
    · constructor
      · exact hc
      · simp only [List.length_set]; exact hlen
      · simp only [hmod]; omega
      · intro j hj
        simp only [hmod]
        by_cases hjx : j = s.free_list.m_first_free_index
        · rw [hjx, List.getElem?_set_self (by omega)]
          have h1 : s.free_list.m_first_free_index ∉ s.free_list.m_free_list :=
            fun h => Nat.lt_irrefl _ (inv.mem_lt _ h)
          simp [h1]
        · rw [List.getElem?_set_ne (Ne.symm hjx), inv.free_iff j hj]
          constructor
          · rintro (h | h)
            · exact Or.inl (by omega)
            · exact Or.inr h
          · rintro (h | h)
            · exact Or.inl (by omega)
            · exact Or.inr h
      · exact inv.nodup
      · intro j hj
        simp only [hmod]
        have := inv.mem_lt j hj
        omega

theorem arena_BC_reachable : Reachable arena_BC :=
  arena_ABC_reachable.run [.erase 0] (by decide)

theorem decrement_loop_underflow {c : Compact_container_with_index T P} {l : List Nat}
    (inv : Inv c l) (n : Nat) :
    ∀ (fuel : Nat), n ≤ fuel → n < c.capacity_ →
      (∀ k, k ≤ n → c.free_list.m_used[k]? = some false) →
      CC_iterator_with_index.decrement_loop c (fuel + 1) n = none := by
  have hcap := inv.cap_lt
  have hnull : c.is_used (size_type_range - 1) = none :=
    inv.is_used_none (by omega)
  induction n with
  | zero =>
    intro fuel _ h0 hfree
    unfold CC_iterator_with_index.decrement_loop
    rw [inv.is_used_eq h0, hfree 0 (Nat.le_refl _)]
    simp only []
    have hidx : (0 + size_type_range - 1) % size_type_range = size_type_range - 1 := by
      unfold size_type_range; decide
    rw [hidx]
    unfold CC_iterator_with_index.decrement_loop
    rw [hnull]
  | succ n ih =>
    intro fuel hf hn hfree
    obtain ⟨fuel1, rfl⟩ : ∃ f, fuel = f + 1 := ⟨fuel - 1, by omega⟩
    unfold CC_iterator_with_index.decrement_loop
    rw [inv.is_used_eq hn, hfree (n + 1) (Nat.le_refl _)]
    simp only []
    have hidx : (n + 1 + size_type_range - 1) % size_type_range = n := by
      rw [show n + 1 + size_type_range - 1 = n + size_type_range by omega,
        Nat.add_mod_right, Nat.mod_eq_of_lt (by omega)]
    rw [hidx]
    exact ih fuel1 (by omega) (by omega) (fun k hk => hfree k (by omega))

/-- C36: incrementing `end()` fails the assertion `m_index < capacity_` in every arena; in
every reachable arena that is not empty, decrementing `begin()` fails an assertion: the
assertion `m_index>0` of `decrement()` when `begin()` is at index 0, and the assertion
`i<capacity() && i!=null_descriptor` of `is_used`, reached with the index `2^64 - 1` after
the scan has gone below index 0, when `begin()` is at a later index preceded only by free
slots (the loop fails there however long it is allowed to run). -/
theorem decrementing_begin_and_incrementing_end_fail
    (c : Compact_container_with_index T P) :
    CC_iterator_with_index.increment c c.end = none ∧
    (Reachable c → c.size ≠ 0 →
      ∃ b, c.begin = some { m_index := b } ∧ b < c.capacity ∧
        CC_iterator_with_index.decrement c { m_index := b } = none ∧
        (0 < b →
          (∀ k, k < b → c.is_used k = some false) ∧
          c.is_used (size_type_range - 1) = none ∧
          ∀ fuel, b ≤ fuel → CC_iterator_with_index.decrement_loop c fuel (b - 1) = none)) := by
  constructor
  · unfold CC_iterator_with_index.increment Compact_container_with_index.end
    rw [if_neg (Nat.lt_irrefl _)]
  · intro hc hs
    obtain ⟨l, inv⟩ := hc.inv
    have hcap := inv.cap_lt
    obtain ⟨b, h1, h2, h3, h4⟩ := inv.begin_lt hs
    have hfree : ∀ k, k ≤ b - 1 → 0 < b → c.free_list.m_used[k]? = some false := by
      intro k hk hb
      have := h4 k (by omega)
      rw [inv.is_used_eq (by omega)] at this
      exact this
    have hloop : 0 < b → ∀ fuel, b ≤ fuel →
        CC_iterator_with_index.decrement_loop c fuel (b - 1) = none := by
      intro hb fuel hf
      obtain ⟨fuel1, rfl⟩ : ∃ f, fuel = f + 1 := ⟨fuel - 1, by omega⟩
      exact decrement_loop_underflow inv (b - 1) fuel1 (by omega) (by omega)
        (fun k hk => hfree k hk hb)
    refine ⟨b, h1, h2, ?_, fun hb => ⟨h4, inv.is_used_none (by omega), hloop hb⟩⟩
    unfold CC_iterator_with_index.decrement
    by_cases hb : 0 < b
    · rw [if_pos hb]
      simp only []
      have hidx : (b + size_type_range - 1) % size_type_range = b - 1 := by
        rw [show b + size_type_range - 1 = (b - 1) + size_type_range by omega,
          Nat.add_mod_right, Nat.mod_eq_of_lt (by omega)]
      rw [hidx, hloop hb b (Nat.le_refl _)]
      rfl
    · rw [if_neg hb]

theorem decrementing_begin_and_incrementing_end_fail_witness :
    Reachable arena_BC ∧ arena_BC.size ≠ 0 ∧
    ∃ b, arena_BC.begin = some { m_index := b } ∧ b < arena_BC.capacity ∧
      CC_iterator_with_index.decrement arena_BC { m_index := b } = none ∧
      (0 < b →
        (∀ k, k < b → arena_BC.is_used k = some false) ∧
        arena_BC.is_used (size_type_range - 1) = none ∧
        ∀ fuel, b ≤ fuel →
          CC_iterator_with_index.decrement_loop arena_BC fuel (b - 1) = none) :=
  ⟨arena_BC_reachable, by decide,
    (decrementing_begin_and_incrementing_end_fail arena_BC).2 arena_BC_reachable
      (by decide)⟩

theorem Inv.free_list_indices_eq {c : Compact_container_with_index T P} {l : List Nat}
    (inv : Inv c l) : free_list_indices c = some l := by
  have hsz := inv.size_eq
  exact follow_links_of_Links c inv.items_some l _ _ inv.links (fun x hx => inv.mem_lt hx)
    (by omega)

/-- C37: in every reachable arena state with `size() < capacity()` and for every value `v`,
`insert(v)` returns a handle `h` and `erase(h)` then returns, and the arena is as before
the insertion: same `size()`, `capacity()` and `block_size`, same used flags and free-list
head (the strategy is unchanged), same order of the free list (with `h` first), and the
same element in every slot other than the free slot `h`, hence in every used slot. -/
theorem erase_of_insert_restores (c : Compact_container_with_index T P) (hc : Reachable c)
    (hs : c.size < c.capacity) (v : T) :
    ∃ (h : Nat) (c1 c2 : Compact_container_with_index T P),
      c.insert v = some (h, c1) ∧ c1.erase h = some c2 ∧
      c2.size = c.size ∧ c2.capacity = c.capacity ∧ c2.block_size = c.block_size ∧
      c2.free_list = c.free_list ∧
      (∀ i, c2.is_used i = c.is_used i) ∧
      (∃ l, free_list_indices c = some (h :: l) ∧ free_list_indices c2 = some (h :: l)) ∧
      c.is_used h = some false ∧
      (∀ i, i ≠ h → c2.subscript i = c.subscript i) ∧
      (∀ i, c.is_used i = some true → c2.subscript i = c.subscript i) := by
  obtain ⟨l, inv⟩ := hc.inv
  unfold Compact_container_with_index.size Compact_container_with_index.capacity at hs
  have hne : c.free_list.m_free_list ≠ null_descriptor :=
    fun h => by have := inv.full_iff.1 h; omega
  obtain ⟨e, xs, hl, he, hins, inv1⟩ := insert_spec_nonempty inv hne v
  have hmem : c.free_list.m_free_list ∈ l := by rw [hl]; exact List.mem_cons_self _ _
  have hlt : c.free_list.m_free_list < c.capacity_ := inv.mem_lt hmem
  have hfree : c.free_list.m_used[c.free_list.m_free_list]? = some false :=
    (inv.mem _).1 hmem
  have hlen := inv.used_len
  have hilen := inv.items_len
  obtain ⟨hers, _, inv2⟩ := erase_spec inv1 (i := c.free_list.m_free_list) hlt
    (List.getElem?_set_self (by omega))
  have hused : (c.free_list.m_used.set c.free_list.m_free_list true).set
      c.free_list.m_free_list false = c.free_list.m_used := by
    apply List.ext_getElem?
    intro j
    by_cases hj : j = c.free_list.m_free_list
    · rw [hj, List.getElem?_set_self (by simp; omega), hfree]
    · rw [List.getElem?_set_ne (Ne.symm hj), List.getElem?_set_ne (Ne.symm hj)]
  have hfl : ({ m_free_list := c.free_list.m_free_list,
                m_used := (c.free_list.m_used.set c.free_list.m_free_list true).set
                  c.free_list.m_free_list false } :
      Free_list_management_Tag_false_Tag_true) = c.free_list := by
    rw [hused]
  have hsub : ∀ i, i ≠ c.free_list.m_free_list →
      Compact_container_with_index.subscript (P := P)
        { capacity_ := c.capacity_, size_ := c.size_ + 1 - 1, block_size := c.block_size,
          all_items := some (((c.items.set c.free_list.m_free_list v)).set
            c.free_list.m_free_list (set_size_t zero_filled (size_t e))),
          free_list := { m_free_list := c.free_list.m_free_list,
                         m_used := (c.free_list.m_used.set c.free_list.m_free_list true).set
                           c.free_list.m_free_list false } } i = c.subscript i := by
    intro i hi
    by_cases hic : i < c.capacity_
    · rw [inv.subscript_eq hic]
      simp only [subscript]
      rw [if_pos hic, List.getElem?_set_ne (Ne.symm hi), List.getElem?_set_ne (Ne.symm hi)]
    · rw [inv.subscript_none hic]
      simp only [subscript]
      rw [if_neg hic]
  refine ⟨c.free_list.m_free_list, _, _, hins, hers, ?_, rfl, rfl, ?_, ?_, ⟨xs, ?_, ?_⟩,
    ?_, ?_, ?_⟩
  · simp [Compact_container_with_index.size]
  · simp only [Compact_container_with_index.items, Option.getD_some]
    exact hfl
  · intro i
    simp only [Compact_container_with_index.is_used,
      Free_list_management_Tag_false_Tag_true.is_used, hused]
  · rw [inv.free_list_indices_eq, hl]
  · exact inv2.free_list_indices_eq
  · rw [inv.is_used_eq hlt]; exact hfree
  · intro i hi
    simp only [Compact_container_with_index.items, Option.getD_some]
    exact hsub i hi
  · intro i hi
    have hne2 : i ≠ c.free_list.m_free_list := by
      intro h
      rw [h, inv.is_used_eq hlt, hfree] at hi
      exact absurd hi (by simp)
    simp only [Compact_container_with_index.items, Option.getD_some]
    exact hsub i hne2

theorem erase_of_insert_restores_witness :
    Reachable arena_AC ∧ arena_AC.size < arena_AC.capacity ∧
    ∃ (h : Nat) (c1 c2 : Compact_container_with_index Index_for_cc_with_index doubling_2),
      arena_AC.insert { m_idx := 40 } = some (h, c1) ∧ c1.erase h = some c2 ∧
      c2.size = arena_AC.size ∧ c2.capacity = arena_AC.capacity ∧
      c2.block_size = arena_AC.block_size ∧
      c2.free_list = arena_AC.free_list ∧
      (∀ i, c2.is_used i = arena_AC.is_used i) ∧
      (∃ l, free_list_indices arena_AC = some (h :: l) ∧
        free_list_indices c2 = some (h :: l)) ∧
      arena_AC.is_used h = some false ∧
      (∀ i, i ≠ h → c2.subscript i = arena_AC.subscript i) ∧
      (∀ i, arena_AC.is_used i = some true → c2.subscript i = arena_AC.subscript i) :=
  ⟨arena_AC_reachable, by decide,
    erase_of_insert_restores arena_AC arena_AC_reachable (by decide) { m_idx := 40 }⟩

/-- C33 (failing input): in the full arena `arena_AB` (capacity 2), growth to capacity 4
copies the elements 10 and 20 into the new block and calls `increase_to(2)`; the call
leaves the used flag of slot 1 as it was but writes the link 2 into that slot, which is
below the old capacity: the element 20 reads back as 2. -/
theorem increase_to_writes_into_last_old_slot :
    Compact_container_with_index.relocate
      ({ arena_AB with capacity_ := 4 } :
        Compact_container_with_index Index_for_cc_with_index doubling_2)
      [{ m_idx := 10 }, { m_idx := 20 }] (List.replicate 4 zero_filled) 0 2 =
      arena_AB_relocated.all_items ∧
    Free_list_management_Tag_false_Tag_true.increase_to arena_AB_relocated 2 =
      some arena_AB_threaded ∧
    arena_AB_relocated.is_used 1 = some true ∧
    arena_AB_threaded.is_used 1 = some true ∧
    arena_AB_relocated.subscript 1 = some { m_idx := 20 } ∧
    arena_AB_threaded.subscript 1 = some { m_idx := 2 } ∧
    arena_AB.increase_size = some (Increment_policy.increase_size arena_AB_threaded) := by
  refine ⟨by decide, by decide, by decide, by decide, by decide, by decide, by decide⟩

theorem pops_chain (items : List T) (n : Nat) :
    ∀ (a : Nat) (c : Compact_container_with_index T P),
      c.all_items = some items → a + n = c.capacity_ → c.capacity_ < size_type_range →
      items.length = c.capacity_ →
      (∀ j, a ≤ j → j + 1 < c.capacity_ → ∃ e, items[j]? = some e ∧ size_t e = j + 1) →
      (0 < n → ∃ e, items[c.capacity_ - 1]? = some e ∧ size_t e = null_descriptor) →
      (∀ j, a ≤ j → j < c.capacity_ → c.free_list.m_used[j]? = some false) →
      c.free_list.m_free_list = (if n = 0 then null_descriptor else a) →
      ∃ c2, pops n c = some (List.range' a n, c2) ∧
        c2.free_list.m_free_list = null_descriptor ∧
        c2.all_items = c.all_items ∧ c2.capacity_ = c.capacity_ ∧
        (∀ j, j < a → c2.free_list.m_used[j]? = c.free_list.m_used[j]?) ∧
        (∀ j, a ≤ j → j < c.capacity_ → c2.free_list.m_used[j]? = some true) := by
  induction n with
  | zero =>
    intro a c _ h2 _ _ _ _ _ hh
    refine ⟨c, rfl, by simpa using hh, rfl, rfl, fun _ _ => rfl, fun j h3 h4 => by omega⟩
  | succ n ih =>
    intro a c h1 h2 hc hl hlink hlast hfree hh
    have hnull := null_descriptor_succ
    rw [if_neg (by omega)] at hh
    have ha : a < c.capacity_ := by omega
    have hane : a ≠ null_descriptor := by omega
    have hempty : is_empty c = false := by
      simp only [is_empty, hh, beq_eq_false_iff_ne]; exact hane
    have hused : Free_list_management_Tag_false_Tag_true.is_used c a = some false := by
      unfold Free_list_management_Tag_false_Tag_true.is_used
      rw [if_pos ⟨ha, hane⟩]
      exact hfree a (Nat.le_refl _) ha
    obtain ⟨e, he, hse⟩ : ∃ e, items[a]? = some e ∧
        size_t e = (if n = 0 then null_descriptor else a + 1) := by
      by_cases hn : n = 0
      · obtain ⟨e, he1, he2⟩ := hlast (by omega)
        rw [show c.capacity_ - 1 = a by omega] at he1
        exact ⟨e, he1, by rw [if_pos hn]; exact he2⟩
      · obtain ⟨e, he1, he2⟩ := hlink a (Nat.le_refl _) (by omega)
        exact ⟨e, he1, by rw [if_neg hn]; exact he2⟩
    have hsub : c.subscript a = some e := by
      unfold subscript
      rw [h1]
      simp only []
      rw [if_pos ha]
      exact he
    have hpop : pop c = some (a, { c with free_list :=
        { m_free_list := size_t e, m_used := c.free_list.m_used.set a true } }) := by
      unfold pop
      rw [hempty]
      simp only [Bool.false_eq_true, if_false, top, hempty, hh, Option.bind_eq_bind,
        Option.some_bind, hused, hsub]
    obtain ⟨c2, h3, h4, h5, h6, h7, h8⟩ := ih (a + 1)
      { c with free_list :=
        { m_free_list := size_t e, m_used := c.free_list.m_used.set a true } }
      h1 (by simp only []; omega) hc hl
      (fun j hj1 hj2 => hlink j (by omega) hj2)
      (fun hn => hlast (by omega))
      (fun j hj1 hj2 => by
        simp only []
        rw [List.getElem?_set_ne (by omega)]
        exact hfree j (by omega) hj2)
      hse
    refine ⟨c2, ?_, h4, h5, h6, fun j hj => ?_, fun j hj1 hj2 => ?_⟩
    · rw [pops]
      simp only [hpop, Option.bind_eq_bind, Option.some_bind, h3]
      rw [List.range'_succ]
    · rw [h7 j (by omega)]
      simp only []
      rw [List.getElem?_set_ne (by omega)]
    · by_cases hja : j = a
      · rw [hja, h7 a (by omega)]
        simp only []
        have := hfree a (Nat.le_refl _) ha
        have hlt : a < c.free_list.m_used.length := by
          by_contra hn
          rw [List.getElem?_eq_none (by omega)] at this
          exact absurd this (by simp)
        exact List.getElem?_set_self hlt
      · exact h8 j (by omega) hj2

/-- C32: in the strategy with an in-place free list and a vector of Booleans, for every old
capacity `o` and new capacity `c > o`, on a container whose block of `c` elements is
allocated and whose vector of Booleans has the old size `o`, `increase_to(o)` called with
an empty free list returns; afterwards the head of the free list is `o`, `c - o`
successive calls of `pop()` return `o, o+1, ..., c-1` in that order, and then `is_empty()`
holds. -/
theorem increase_to_threads_new_range (c : Compact_container_with_index T P)
    (items : List T) (o : Nat)
    (h : c.all_items = some items) (hl : items.length = c.capacity)
    (hu : c.free_list.m_used.length = o) (ho : o < c.capacity)
    (hc : c.capacity < size_type_range)
    (he : Free_list_management_Tag_false_Tag_true.is_empty c = true) :
    ∃ c1 c2 : Compact_container_with_index T P,
      Free_list_management_Tag_false_Tag_true.increase_to c o = some c1 ∧
      c1.capacity = c.capacity ∧
      c1.free_list.m_free_list = o ∧
      Free_list_management_Tag_false_Tag_true.top c1 = some o ∧
      Free_list_management_Tag_false_Tag_true.pops (c.capacity - o) c1 =
        some (List.range' o (c.capacity - o), c2) ∧
      Free_list_management_Tag_false_Tag_true.is_empty c2 = true := by
  unfold Compact_container_with_index.capacity at hl ho hc ⊢
  have hnull := null_descriptor_succ
  have hh : c.free_list.m_free_list = null_descriptor := by
    simpa [is_empty] using he
  obtain ⟨items1, h1, h2, _, h4, h5⟩ := increase_to_spec c items o h hl hu ho hh
  have hget : ∀ j, j < c.capacity_ → ∃ e, items[j]? = some e := fun j hj =>
    ⟨_, List.getElem?_eq_getElem (by omega)⟩
  obtain ⟨c2, h6, h7, _⟩ := pops_chain items1 (c.capacity_ - o) o
    ({ c with all_items := some items1,
              free_list := { m_free_list := o,
                             m_used := c.free_list.m_used ++
                               List.replicate (c.capacity_ - o) false } })
    rfl (by simp only []; omega) hc h2
    (fun j hj1 hj2 => by
      have hj3 : j + 1 < c.capacity_ := hj2
      obtain ⟨e, he⟩ := hget j (by omega)
      exact ⟨_, h4 j e (by omega) hj3 he,
        Compact_container_with_index_traits.size_t_set_size_t _ _⟩)
    (fun _ => by
      obtain ⟨e, he⟩ := hget (c.capacity_ - 1) (by omega)
      exact ⟨_, h5 e he, Compact_container_with_index_traits.size_t_set_size_t _ _⟩)
    (fun j hj1 hj2 => by
      have hj3 : j < c.capacity_ := hj2
      simp only []
      rw [List.getElem?_append_right (by omega), List.getElem?_replicate,
        if_pos (by omega)])
    (by simp only []; rw [if_neg (by omega)])
  refine ⟨_, c2, h1, rfl, rfl, ?_, h6, ?_⟩
  · simp only [top, is_empty]
    rw [if_neg]
    simp only [beq_iff_eq]
    omega
  · simp only [is_empty, h7, beq_self_eq_true]

theorem increase_to_threads_new_range_witness :
    (arena_AB_relocated.all_items =
        some [{ m_idx := 10 }, { m_idx := 20 }, { m_idx := 0 }, { m_idx := 0 }] ∧
      arena_AB_relocated.free_list.m_used.length = 2 ∧
      2 < arena_AB_relocated.capacity ∧
      Free_list_management_Tag_false_Tag_true.is_empty arena_AB_relocated = true) ∧
    ∃ c1 c2 : Compact_container_with_index Index_for_cc_with_index doubling_2,
      Free_list_management_Tag_false_Tag_true.increase_to arena_AB_relocated 2 = some c1 ∧
      c1.capacity = arena_AB_relocated.capacity ∧
      c1.free_list.m_free_list = 2 ∧
      Free_list_management_Tag_false_Tag_true.top c1 = some 2 ∧
      Free_list_management_Tag_false_Tag_true.pops (arena_AB_relocated.capacity - 2) c1 =
        some (List.range' 2 (arena_AB_relocated.capacity - 2), c2) ∧
      Free_list_management_Tag_false_Tag_true.is_empty c2 = true :=
  ⟨⟨rfl, by decide, by decide, by decide⟩,
    increase_to_threads_new_range arena_AB_relocated _ 2 rfl (by decide) (by decide)
      (by decide) (by decide) (by decide)⟩

theorem erase_loop_all (fuel : Nat) :
    ∀ (c : Compact_container_with_index T P) (l : List Nat) (b : Nat), Inv c l →
      b ≤ c.capacity_ → (b < c.capacity_ → c.free_list.m_used[b]? = some true) →
      c.capacity_ - b ≤ fuel →
      ∃ c1, erase_loop fuel c { m_index := b } { m_index := c.capacity_ } = some c1 ∧
        Inv c1 (((List.range' b (c.capacity_ - b)).filter
          (fun k => c.free_list.m_used[k]? == some true)).reverse ++ l) ∧
        c1.capacity_ = c.capacity_ ∧ c1.block_size = c.block_size ∧
        (∀ j, j < b → c1.free_list.m_used[j]? = c.free_list.m_used[j]?) ∧
        (∀ j, b ≤ j → j < c.capacity_ → c1.free_list.m_used[j]? = some false) := by
  induction fuel with
  | zero =>
    intro c l b inv hb _ hf
    have hbc : b = c.capacity_ := by omega
    refine ⟨c, ?_, ?_, rfl, rfl, fun _ _ => rfl, fun j h1 h2 => by omega⟩
    · unfold erase_loop
      rw [if_pos (by rw [hbc])]
    · rw [hbc, Nat.sub_self]
      simpa using inv
  | succ f ih =>
    intro c l b inv hb hu hf
    by_cases hlt : b < c.capacity_
    · obtain ⟨j, h1, h2, h3, h4, h5⟩ := increment_spec inv hlt
      obtain ⟨h6, _, inv1⟩ := erase_spec inv hlt (hu hlt)
      have hlen := inv.used_len
      obtain ⟨c2, h7, h8, h9, h10, h11, h12⟩ := ih _ (b :: l) j inv1 h3
        (fun hj => by
          simp only []
          rw [List.getElem?_set_ne (by omega)]
          exact h4 hj)
        (by simp only []; omega)
      simp only [] at h7 h8 h9 h10 h11 h12
      refine ⟨c2, ?_, ?_, h9, h10, fun k hk => ?_, fun k hk1 hk2 => ?_⟩
      · unfold erase_loop
        rw [if_neg (by simp only [CC_iterator_with_index.mk.injEq]; omega)]
        simp only [h1, h6, Option.bind_eq_bind, Option.some_bind]
        exact h7
      · have hX : (List.range' b (c.capacity_ - b)).filter
            (fun k => c.free_list.m_used[k]? == some true) =
            b :: (List.range' j (c.capacity_ - j)).filter
              (fun k => (c.free_list.m_used.set b false)[k]? == some true) := by
          rw [show c.capacity_ - b = (c.capacity_ - b - 1) + 1 by omega, List.range'_succ,
            List.filter_cons, if_pos (by rw [hu hlt]; rfl)]
          congr 1
          rw [show c.capacity_ - b - 1 = c.capacity_ - (b + 1) by omega,
            filter_range_skip _ (b + 1) j c.capacity_ (by omega) h3
              (fun k hk1 hk2 => by rw [h5 k (by omega) hk2]; rfl)]
          apply List.filter_congr
          intro k hk
          rw [List.mem_range'_1] at hk
          rw [List.getElem?_set_ne (by omega)]
        rw [hX, List.reverse_cons, List.append_assoc]
        exact h8
      · rw [h11 k (by omega), List.getElem?_set_ne (by omega)]
      · by_cases hkj : k < j
        · rw [h11 k hkj]
          by_cases hkb : k = b
          · rw [hkb]; exact List.getElem?_set_self (by omega)
          · rw [List.getElem?_set_ne (Ne.symm hkb)]
            exact h5 k (by omega) hkj
        · exact h12 k (by omega) hk2
    · have hbc : b = c.capacity_ := by omega
      refine ⟨c, ?_, ?_, rfl, rfl, fun _ _ => rfl, fun j h1 h2 => by omega⟩
      · unfold erase_loop
        rw [if_pos (by rw [hbc])]
      · rw [hbc, Nat.sub_self]
        simpa using inv

theorem last_of_sorted {X : List Nat} (hs : X.Pairwise (fun i j => i < j)) {y m : Nat}
    {ys : List Nat} (hr : X.reverse = y :: ys) (hm : m ∈ X) : m ≤ y := by
  have hX : X = ys.reverse ++ [y] := by
    have := congrArg List.reverse hr
    simpa using this
  rw [hX] at hs hm
  rcases List.mem_append.1 hm with h | h
  · exact Nat.le_of_lt ((List.pairwise_append.1 hs).2.2 m h y (List.mem_singleton_self y))
  · rw [List.mem_singleton] at h
    omega

/-- C39: in every reachable arena state, `erase(begin(), end())` returns (no assertion
fails and the loop ends within `capacity()` iterations); afterwards `size() == 0`,
`empty()` holds, every index below the capacity is free and no index is used, `capacity()`
is unchanged, and, when some index was used before the call, the next insertion returns
the largest of the indices that were used. -/
theorem erase_all_empties_the_arena (c : Compact_container_with_index T P)
    (hc : Reachable c) :
    ∃ (first : CC_iterator_with_index) (c1 : Compact_container_with_index T P),
      c.begin = some first ∧ c.erase_range first c.end = some c1 ∧
      c1.size = 0 ∧ c1.empty = true ∧
      (∀ i, i < c.capacity → c1.is_used i = some false) ∧
      (∀ i, c1.is_used i ≠ some true) ∧
      c1.capacity = c.capacity ∧
      (∀ m, c.is_used m = some true → (∀ j, c.is_used j = some true → j ≤ m) →
        ∀ v : T, ∃ c2, c1.insert v = some (m, c2)) := by
  obtain ⟨l, inv⟩ := hc.inv
  obtain ⟨b, h1, h2, _, h4, h5⟩ := begin_spec inv
  obtain ⟨c1, h6, inv1, h8, _, h10, h11⟩ :=
    erase_loop_all c.capacity_ c l b inv h2 h4 (by omega)
  have hfree : ∀ i, i < c.capacity_ → c1.free_list.m_used[i]? = some false := by
    intro i hi
    by_cases hib : i < b
    · rw [h10 i hib]; exact h5 i hib
    · exact h11 i (by omega) hi
  have hnot : ∀ i : Nat, c1.free_list.m_used[i]? ≠ some true := by
    intro i h
    have hlen := inv1.used_len
    by_cases hi : i < c.capacity_
    · rw [hfree i hi] at h; exact absurd h (by simp)
    · rw [List.getElem?_eq_none (by omega)] at h; exact absurd h (by simp)
  have hsize : c1.size_ = 0 := by
    have hnil : ∀ i : Nat, i ∈ ([] : List Nat) ↔ c1.free_list.m_used[i]? = some true :=
      fun i => ⟨fun h => absurd h (List.not_mem_nil i), fun h => absurd h (hnot i)⟩
    have := inv1.count_live List.nodup_nil hnil
    simpa using this.symm
  refine ⟨{ m_index := b }, c1, h1, h6, hsize, ?_, fun i hi => ?_, fun i h => ?_, h8, ?_⟩
  · simp [Compact_container_with_index.empty, hsize]
  · have hi1 : i < c1.capacity_ := by rw [h8]; exact hi
    rw [inv1.is_used_eq hi1]
    exact hfree i hi
  · exact hnot i (inv1.used_of_is_used h).2
  · intro m hm hmax v
    obtain ⟨hmlt, hmu⟩ := inv.used_of_is_used hm
    have hmb : b ≤ m := by
      by_contra hn
      rw [h5 m (by omega)] at hmu
      exact absurd hmu (by simp)
    have hmem : m ∈ (List.range' b (c.capacity_ - b)).filter
        (fun k => c.free_list.m_used[k]? == some true) := by
      rw [List.mem_filter, List.mem_range'_1]
      exact ⟨⟨hmb, by omega⟩, by rw [hmu]; rfl⟩
    have hsorted : ((List.range' b (c.capacity_ - b)).filter
        (fun k => c.free_list.m_used[k]? == some true)).Pairwise (fun i j => i < j) :=
      List.Pairwise.filter _ (List.pairwise_lt_range' b (c.capacity_ - b))
    cases hrev : ((List.range' b (c.capacity_ - b)).filter
        (fun k => c.free_list.m_used[k]? == some true)).reverse with
    | nil =>
      rw [List.reverse_eq_nil_iff] at hrev
      rw [hrev] at hmem
      exact absurd hmem (List.not_mem_nil m)
    | cons y ys =>
      have hym : y = m := by
        have h1 := last_of_sorted hsorted hrev hmem
        have hy : y ∈ (List.range' b (c.capacity_ - b)).filter
            (fun k => c.free_list.m_used[k]? == some true) := by
          rw [← List.mem_reverse, hrev]; exact List.mem_cons_self _ _
        rw [List.mem_filter, List.mem_range'_1] at hy
        have hyu : c.is_used y = some true := by
          rw [inv.is_used_eq (by omega)]
          simpa using hy.2
        have := hmax y hyu
        omega
      rw [hrev, List.cons_append] at inv1
      have hlinks := inv1.links
      simp only [Links] at hlinks
      obtain ⟨hhead, hne, _⟩ := hlinks
      obtain ⟨e, xs, _, _, hins, _⟩ := insert_spec_nonempty inv1 (by rw [hhead]; exact hne) v
      rw [hhead, hym] at hins
      exact ⟨_, hins⟩

theorem erase_all_empties_the_arena_witness :
    Reachable arena_AC ∧
    ∃ (first : CC_iterator_with_index)
      (c1 : Compact_container_with_index Index_for_cc_with_index doubling_2),
      arena_AC.begin = some first ∧ arena_AC.erase_range first arena_AC.end = some c1 ∧
      c1.size = 0 ∧ c1.empty = true ∧
      (∀ i, i < arena_AC.capacity → c1.is_used i = some false) ∧
      (∀ i, c1.is_used i ≠ some true) ∧
      c1.capacity = arena_AC.capacity ∧
      (∀ m, arena_AC.is_used m = some true →
        (∀ j, arena_AC.is_used j = some true → j ≤ m) →
        ∀ v : Index_for_cc_with_index, ∃ c2, c1.insert v = some (m, c2)) :=
  ⟨arena_AC_reachable, erase_all_empties_the_arena arena_AC arena_AC_reachable⟩

theorem link_free_successors_spec (w n : Nat) :
    ∀ (i : Nat) (c : Compact_container_with_index T P) (items : List T),
      c.all_items = some items → items.length = c.capacity_ → i + n ≤ c.capacity_ →
      ∃ items1, Free_list_management_Tag_false_Tag_false.link_free_successors w c i n =
          some { c with all_items := some items1 } ∧
        items1.length = items.length ∧
        (∀ j, j < i ∨ i + n ≤ j → items1[j]? = items[j]?) ∧
        (∀ j e, i ≤ j → j < i + n → items[j]? = some e →
          items1[j]? = some (Free_list_management_Tag_false_Tag_false.static_set_val w e
            ((j + 1) % 2 ^ w) .FREE)) := by
  induction n with
  | zero =>
    intro i c items h _ _
    refine ⟨items, ?_, rfl, fun _ _ => rfl, fun j e h1 h2 => by omega⟩
    simp only [Free_list_management_Tag_false_Tag_false.link_free_successors]
    congr
    cases c; simp_all
  | succ n ih =>
    intro i c items h hl hi
    have hi1 : i < items.length := by omega
    obtain ⟨e, he⟩ : ∃ e, items[i]? = some e := ⟨items[i], List.getElem?_eq_getElem hi1⟩
    have hs : c.subscript i = some e := by
      simp only [subscript, h]; rw [if_pos (by omega)]; exact he
    have ha : ∀ t : T, c.assign_subscript i t =
        some { c with all_items := some (items.set i t) } := by
      intro t
      simp only [assign_subscript, h]; rw [if_pos ⟨by omega, hi1⟩]
    obtain ⟨items1, h1, h2, h3, h4⟩ := ih (i + 1)
      { c with all_items := some (items.set i
        (Free_list_management_Tag_false_Tag_false.static_set_val w e ((i + 1) % 2 ^ w) .FREE)) }
      (items.set i
        (Free_list_management_Tag_false_Tag_false.static_set_val w e ((i + 1) % 2 ^ w) .FREE))
      rfl (by simp [hl]) (by simp; omega)
    refine ⟨items1, ?_, by simpa using h2, ?_, ?_⟩
    · simp only [Free_list_management_Tag_false_Tag_false.link_free_successors, hs, ha,
        Option.bind_eq_bind, Option.some_bind]
      exact h1
    · intro j hj
      rw [h3 j (by omega), List.getElem?_set_ne (by omega)]
    · intro j e1 hj1 hj2 hje
      by_cases hji : j = i
      · subst hji
        rw [h3 j (by omega), List.getElem?_set_self hi1]
        simp only [he, Option.some.injEq] at hje
        rw [hje]
      · apply h4 j e1 (by omega) (by omega)
        rw [List.getElem?_set_ne (by omega)]; exact hje

theorem static_type_used_or_free (w : Nat) (hw : 1 ≤ w) (e : T) :
    Free_list_management_Tag_false_Tag_false.static_type w e = some .USED ∨
    Free_list_management_Tag_false_Tag_false.static_type w e = some .FREE := by
  rw [static_type_eq w hw]
  cases (size_t e).testBit (w - 1)
  · exact Or.inl rfl
  · exact Or.inr rfl

theorem Tagged_links_congr (w : Nat) {items1 items2 : List T} (capacity : Nat) :
    ∀ (l : List Nat) (h : Nat), (∀ x, x ∈ l → items1[x]? = items2[x]?) →
      Tagged_links w items1 capacity h l → Tagged_links w items2 capacity h l := by
  intro l
  induction l with
  | nil => intro h _ hl; exact hl
  | cons x xs ih =>
    intro h hx hl
    simp only [Tagged_links] at hl ⊢
    obtain ⟨h1, h2, e, h3, h4, h5⟩ := hl
    refine ⟨h1, h2, e, ?_, h4, ih _ (fun y hy => hx y (List.mem_cons_of_mem _ hy)) h5⟩
    rw [← hx x (List.mem_cons_self _ _)]; exact h3

theorem Tagged_links_range (w : Nat) (items : List T) (capacity m : Nat) :
    ∀ (a : Nat), a + m = capacity →
      (∀ j, a ≤ j → j < capacity → ∃ e, items[j]? = some e ∧
        Free_list_management_Tag_false_Tag_false.static_type w e = some .FREE ∧
        Free_list_management_Tag_false_Tag_false.static_get_val w e = j + 1) →
      Tagged_links w items capacity a (List.range' a m) := by
  induction m with
  | zero =>
    intro a ha _
    simp only [List.range'_zero, Tagged_links]
    omega
  | succ m ih =>
    intro a ha hj
    rw [List.range'_succ]
    simp only [Tagged_links]
    obtain ⟨e, h1, h2, h3⟩ := hj a (Nat.le_refl _) (by omega)
    refine ⟨trivial, by omega, e, h1, h2, ?_⟩
    rw [h3]
    exact ih (a + 1) (by omega) (fun j hj1 hj2 => hj j (by omega) hj2)

theorem static_set_val_free (w : Nat) (hw : 1 ≤ w) (e : T) {v : Nat}
    (hv : v < 2 ^ (w - 1)) :
    Free_list_management_Tag_false_Tag_false.static_type w
      (Free_list_management_Tag_false_Tag_false.static_set_val w e v .FREE) = some .FREE ∧
    Free_list_management_Tag_false_Tag_false.static_get_val w
      (Free_list_management_Tag_false_Tag_false.static_set_val w e v .FREE) = v := by
  obtain ⟨h1, h2⟩ := static_set_val_spec w hw e v .FREE
  exact ⟨h2 hv, by rw [h1, Nat.mod_eq_of_lt hv]⟩

theorem size_t_static_set_type_used (w : Nat) (e : T) :
    size_t (Free_list_management_Tag_false_Tag_false.static_set_type w e .USED) =
      Free_list_management_Tag_false_Tag_false.static_get_val w e := by
  unfold Free_list_management_Tag_false_Tag_false.static_set_type
  rw [Compact_container_with_index_traits.size_t_set_size_t]
  simp [Free_list_management_Tag_false_Tag_false.«Type».to_size_type]

theorem Bit_squatting_inv.bit_subscript {w : Nat} {s : Bit_squatting_state T P}
    {l : List Nat} (inv : Bit_squatting_inv w s l) {i : Nat}
    (hi : i < s.container.capacity_) :
    s.container.subscript i = s.container.items[i]? := by
  simp only [subscript, inv.items_some (by omega)]
  rw [if_pos hi]

theorem Bit_squatting_inv.bit_assign {w : Nat} {s : Bit_squatting_state T P}
    {l : List Nat} (inv : Bit_squatting_inv w s l) {i : Nat}
    (hi : i < s.container.capacity_) (t : T) :
    s.container.assign_subscript i t =
      some { s.container with all_items := some (s.container.items.set i t) } := by
  have h := inv.items_len
  simp only [assign_subscript, inv.items_some (by omega)]
  rw [if_pos ⟨hi, by omega⟩]

theorem Bit_squatting_inv.bit_is_used {w : Nat} {s : Bit_squatting_state T P}
    {l : List Nat} (inv : Bit_squatting_inv w s l) {i : Nat}
    (hi : i < s.container.capacity_) :
    Free_list_management_Tag_false_Tag_false.is_used w s.container i =
      some (decide (i ∉ l)) := by
  have hlen := inv.items_len
  unfold Free_list_management_Tag_false_Tag_false.is_used
  rw [inv.bit_subscript hi, List.getElem?_eq_getElem (by omega)]
  simp only [Option.bind_eq_bind, Option.some_bind]
  have hmem := inv.mem i
  rw [List.getElem?_eq_getElem (by omega)] at hmem
  rcases static_type_used_or_free w inv.width s.container.items[i] with h | h
  · rw [h]
    have : i ∉ l := by
      intro hin
      obtain ⟨e, h1, h2⟩ := hmem.1 hin
      simp only [Option.some.injEq] at h1
      rw [← h1, h] at h2
      exact absurd h2 (by decide)
    simp [this]
  · rw [h]
    have : i ∈ l := hmem.2 ⟨_, rfl, h⟩
    simp [this]

theorem Bit_squatting_inv.bit_init {w : Nat} (hw : 1 ≤ w)
    (c0 : Compact_container_with_index T P) (s0 : Free_list_management_Tag_false_Tag_false)
    (hcap : c0.capacity_ < 2 ^ (w - 1)) (hlen : c0.items.length = c0.capacity_)
    (hsome : 0 < c0.capacity_ → c0.all_items = some c0.items) :
    ∃ c1 : Compact_container_with_index T P,
      Free_list_management_Tag_false_Tag_false.init w c0 s0 =
        some (c1, { m_free_list := 0 }) ∧
      c1.capacity_ = c0.capacity_ ∧
      Bit_squatting_inv w { container := c1, free_list := { m_free_list := 0 } }
        (List.range' 0 c0.capacity_) := by
  by_cases hpos : 0 < c0.capacity_
  · obtain ⟨items1, h1, h2, _, h4⟩ :=
      link_free_successors_spec w c0.capacity_ 0 c0 c0.items (hsome hpos) hlen (by omega)
    have hpow : 2 ^ (w - 1) ≤ 2 ^ w := Nat.pow_le_pow_right (by decide) (by omega)
    have hslot : ∀ j, j < c0.capacity_ → ∃ e, items1[j]? = some e ∧
        Free_list_management_Tag_false_Tag_false.static_type w e = some .FREE ∧
        Free_list_management_Tag_false_Tag_false.static_get_val w e = j + 1 := by
      intro j hj
      obtain ⟨e, he⟩ : ∃ e, c0.items[j]? = some e :=
        ⟨_, List.getElem?_eq_getElem (by omega)⟩
      have hmod : (j + 1) % 2 ^ w = j + 1 := Nat.mod_eq_of_lt (by omega)
      have := h4 j e (by omega) (by omega) he
      rw [hmod] at this
      obtain ⟨h5, h6⟩ := static_set_val_free w hw e (show j + 1 < 2 ^ (w - 1) by omega)
      exact ⟨_, this, h5, h6⟩
    refine ⟨{ c0 with all_items := some items1 }, ?_, ?_, ?_⟩
    · unfold Free_list_management_Tag_false_Tag_false.init
      simp only [h1, Option.bind_eq_bind, Option.some_bind]
    · rfl
    · constructor
      · exact hw
      · exact hcap
      · simp only [Compact_container_with_index.items, Option.getD_some]
        omega
      · intro _; rfl
      · simp only [Compact_container_with_index.items, Option.getD_some]
        exact Tagged_links_range w items1 c0.capacity_ c0.capacity_ 0 (by omega)
          (fun j _ hj => hslot j hj)
      · exact List.nodup_range' 0 c0.capacity_
      · intro i
        simp only [Compact_container_with_index.items, Option.getD_some]
        rw [List.mem_range'_1]
        constructor
        · intro hi
          obtain ⟨e, h5, h6, _⟩ := hslot i (by omega)
          exact ⟨e, h5, h6⟩
        · rintro ⟨e, h5, _⟩
          have : i < items1.length := by
            by_contra hn
            rw [List.getElem?_eq_none (by omega)] at h5
            exact absurd h5 (by simp)
          omega
  · have h0 : c0.capacity_ = 0 := by omega
    refine ⟨c0, ?_, rfl, ?_⟩
    · unfold Free_list_management_Tag_false_Tag_false.init
      rw [h0]
      simp only [Free_list_management_Tag_false_Tag_false.link_free_successors,
        Option.bind_eq_bind, Option.some_bind]
    · rw [h0]
      constructor
      · exact hw
      · exact hcap
      · exact hlen
      · exact hsome
      · simp only [List.range'_zero, Tagged_links]
        exact h0.symm
      · simp
      · intro i
        simp only [List.range'_zero, List.not_mem_nil, false_iff]
        rintro ⟨e, h5, _⟩
        rw [List.getElem?_eq_none (by omega)] at h5
        exact absurd h5 (by simp)

omit [Compact_container_with_index_traits T] in
theorem items_with_all_items (c : Compact_container_with_index T P) (xs : List T) :
    ({ c with all_items := some xs } : Compact_container_with_index T P).items = xs := rfl

theorem Bit_squatting_inv.bit_pop {w : Nat} {s : Bit_squatting_state T P} {l : List Nat}
    (inv : Bit_squatting_inv w s l)
    (hne : Free_list_management_Tag_false_Tag_false.is_empty s.container s.free_list =
      false) :
    ∃ (x : Nat) (xs : List Nat) (e : T), l = x :: xs ∧ s.free_list.m_free_list = x ∧
      x < s.container.capacity_ ∧ s.container.items[x]? = some e ∧
      Free_list_management_Tag_false_Tag_false.top s.container s.free_list = some x ∧
      Free_list_management_Tag_false_Tag_false.pop w s.container s.free_list =
        some (x,
          { s.container with all_items := some (s.container.items.set x
              (Free_list_management_Tag_false_Tag_false.static_set_type w e .USED)) },
          { m_free_list := Free_list_management_Tag_false_Tag_false.static_get_val w e }) ∧
      Bit_squatting_inv w
        ({ container := { s.container with all_items := some (s.container.items.set x
             (Free_list_management_Tag_false_Tag_false.static_set_type w e .USED)) },
           free_list :=
             { m_free_list := Free_list_management_Tag_false_Tag_false.static_get_val w e } } :
          Bit_squatting_state T P)
        xs := by
  have hlen := inv.items_len
  have hne1 : s.free_list.m_free_list ≠ s.container.capacity_ := by
    simpa [Free_list_management_Tag_false_Tag_false.is_empty] using hne
  cases l with
  | nil =>
    have := inv.links
    simp only [Tagged_links] at this
    exact absurd this hne1
  | cons x xs =>
    have hlinks := inv.links
    simp only [Tagged_links] at hlinks
    obtain ⟨hx, hxlt, e, he, hfree, hrest⟩ := hlinks
    have hnd := List.nodup_cons.1 inv.nodup
    have hsub : s.container.subscript x = some e := by rw [inv.bit_subscript hxlt]; exact he
    have hset : (s.container.items.set x
        (Free_list_management_Tag_false_Tag_false.static_set_type w e .USED))[x]? =
        some (Free_list_management_Tag_false_Tag_false.static_set_type w e .USED) :=
      List.getElem?_set_self (by omega)
    refine ⟨x, xs, e, rfl, hx, hxlt, he, ?_, ?_, ?_⟩
    · unfold Free_list_management_Tag_false_Tag_false.top
      rw [hne, hx]
      rfl
    · have hsub2 : Compact_container_with_index.subscript
          ({ s.container with all_items := some (s.container.items.set x
              (Free_list_management_Tag_false_Tag_false.static_set_type w e .USED)) } :
            Compact_container_with_index T P) x =
          some (Free_list_management_Tag_false_Tag_false.static_set_type w e .USED) := by
        simp only [subscript]
        rw [if_pos hxlt]
        exact hset
      unfold Free_list_management_Tag_false_Tag_false.pop
      rw [hne, hx]
      simp only [Bool.false_eq_true, if_false, hsub, inv.bit_assign hxlt, hsub2,
        Option.bind_eq_bind, Option.some_bind, size_t_static_set_type_used]
    · constructor
      · exact inv.width
      · exact inv.cap_lt
      · simp only [items_with_all_items, List.length_set]
        exact hlen
      · intro _; rfl
      · simp only [items_with_all_items]
        apply Tagged_links_congr w _ xs _ _ hrest
        intro y hy
        have : x ≠ y := fun h => hnd.1 (h ▸ hy)
        rw [List.getElem?_set_ne this]
      · exact hnd.2
      · intro i
        simp only [items_with_all_items]
        by_cases hix : i = x
        · rw [hix, hset]
          constructor
          · intro h; exact absurd h hnd.1
          · rintro ⟨e1, h1, h2⟩
            simp only [Option.some.injEq] at h1
            rw [← h1, (static_set_type_spec w inv.width e .USED).1] at h2
            exact absurd h2 (by decide)
        · rw [List.getElem?_set_ne (Ne.symm hix)]
          have := inv.mem i
          simp only [List.mem_cons, hix, false_or] at this
          exact this

theorem Bit_squatting_inv.bit_empty_iff {w : Nat} {s : Bit_squatting_state T P}
    {l : List Nat} (inv : Bit_squatting_inv w s l) :
    Free_list_management_Tag_false_Tag_false.is_empty s.container s.free_list = true ↔
      l = [] := by
  simp only [Free_list_management_Tag_false_Tag_false.is_empty, beq_iff_eq]
  have hlinks := inv.links
  cases l with
  | nil =>
    simp only [Tagged_links] at hlinks
    simp [hlinks]
  | cons x xs =>
    simp only [Tagged_links] at hlinks
    simp only [reduceCtorEq, iff_false]
    omega

theorem Bit_squatting_inv.bit_pops {w : Nat} (l : List Nat) :
    ∀ {s : Bit_squatting_state T P}, Bit_squatting_inv w s l →
      ∃ (c2 : Compact_container_with_index T P)
        (s2 : Free_list_management_Tag_false_Tag_false),
        Free_list_management_Tag_false_Tag_false.pops w l.length s.container s.free_list =
          some (l, c2, s2) ∧
        Bit_squatting_inv w ({ container := c2, free_list := s2 } : Bit_squatting_state T P)
          [] ∧
        c2.capacity_ = s.container.capacity_ := by
  induction l with
  | nil =>
    intro s inv
    exact ⟨s.container, s.free_list, rfl, inv, rfl⟩
  | cons x xs ih =>
    intro s inv
    have hne : Free_list_management_Tag_false_Tag_false.is_empty s.container s.free_list =
        false := by
      cases he : Free_list_management_Tag_false_Tag_false.is_empty s.container s.free_list with
      | false => rfl
      | true => exact absurd (inv.bit_empty_iff.1 he) (by simp)
    obtain ⟨y, ys, e, h1, _, _, _, _, h2, h3⟩ := inv.bit_pop hne
    simp only [List.cons.injEq] at h1
    obtain ⟨c2, s2, h4, h5, h6⟩ := ih (h1.2 ▸ h3)
    refine ⟨c2, s2, ?_, h5, h6⟩
    rw [List.length_cons, Free_list_management_Tag_false_Tag_false.pops]
    simp only [h2, Option.bind_eq_bind, Option.some_bind, h4, h1.1]

theorem strategy_init_spec (c : Compact_container_with_index T P) (items : List T)
    (h : c.all_items = some items) (hl : items.length = c.capacity_)
    (hpos : 0 < c.capacity_) :
    ∃ items1, Free_list_management_Tag_false_Tag_true.init c = some { c with
        all_items := some items1,
        free_list := { m_free_list := 0, m_used := List.replicate c.capacity_ false } } ∧
      items1.length = c.capacity_ ∧
      (∀ j, j + 1 < c.capacity_ → ∃ e, items1[j]? = some e ∧ size_t e = j + 1) ∧
      ∃ e, items1[c.capacity_ - 1]? = some e ∧ size_t e = null_descriptor := by
  obtain ⟨items1, h1, h2, h3, h4⟩ := link_successors_spec (c.capacity_ - 1) 0
    ({ c with free_list := { m_free_list := 0, m_used := List.replicate c.capacity_ false } } :
      Compact_container_with_index T P) items h hl (by simp only []; omega)
  obtain ⟨e, he⟩ : ∃ e, items1[c.capacity_ - 1]? = some e :=
    ⟨_, List.getElem?_eq_getElem (by omega)⟩
  refine ⟨items1.set (c.capacity_ - 1) (set_size_t e null_descriptor), ?_, ?_, ?_, ?_⟩
  · unfold Free_list_management_Tag_false_Tag_true.init
    rw [if_pos hpos]
    simp only [h1, Option.bind_eq_bind, Option.some_bind, subscript, assign_subscript]
    rw [if_pos (by omega), he]
    simp only [Option.some_bind]
    rw [if_pos ⟨by omega, by omega⟩]
  · simp only [List.length_set]; omega
  · intro j hj
    obtain ⟨e1, he1⟩ : ∃ e1, items[j]? = some e1 :=
      ⟨_, List.getElem?_eq_getElem (by omega)⟩
    refine ⟨_, ?_, Compact_container_with_index_traits.size_t_set_size_t e1 (j + 1)⟩
    rw [List.getElem?_set_ne (by omega)]
    exact h4 j e1 (by omega) (by omega) he1
  · exact ⟨_, List.getElem?_set_self (by omega),
      Compact_container_with_index_traits.size_t_set_size_t _ _⟩

theorem Stack_strategy_inv.stack_pop_counter {s : Stack_strategy_state}
    (inv : Stack_strategy_inv s) (hlt : s.free_list.m_first_free_index < s.capacity) :
    Free_list_management_Tag_true_Tag_true.pop s.capacity s.free_list =
      some (s.free_list.m_first_free_index,
        { s.free_list with
          m_first_free_index := s.free_list.m_first_free_index + 1,
          m_used := s.free_list.m_used.set s.free_list.m_first_free_index true }) ∧
    Stack_strategy_inv
      { capacity := s.capacity,
        free_list := { s.free_list with
          m_first_free_index := s.free_list.m_first_free_index + 1,
          m_used := s.free_list.m_used.set s.free_list.m_first_free_index true } } := by
  have hc := inv.cap_lt
  have hne : Free_list_management_Tag_true_Tag_true.is_empty s.capacity s.free_list =
      false := by
    simp only [Free_list_management_Tag_true_Tag_true.is_empty, Bool.and_eq_false_iff,
      beq_eq_false_iff_ne]
    right; omega
  have hlen := inv.used_len
  have hf : s.free_list.m_first_free_index ≠ s.capacity := by omega
  have hfree : s.free_list.m_used[s.free_list.m_first_free_index]? = some false :=
    (inv.free_iff _ hlt).2 (Or.inl (Nat.le_refl _))
  have htop : Free_list_management_Tag_true_Tag_true.top s.capacity s.free_list =
      some s.free_list.m_first_free_index := by
    unfold Free_list_management_Tag_true_Tag_true.top
    rw [hne]
    simp [hf]
  have hmod : (s.free_list.m_first_free_index + 1) % size_type_range =
      s.free_list.m_first_free_index + 1 := Nat.mod_eq_of_lt (by omega)
  have hpop : Free_list_management_Tag_true_Tag_true.pop s.capacity s.free_list =
      some (s.free_list.m_first_free_index,
        { s.free_list with
          m_first_free_index := (s.free_list.m_first_free_index + 1) % size_type_range,
          m_used := s.free_list.m_used.set s.free_list.m_first_free_index true }) := by
    unfold Free_list_management_Tag_true_Tag_true.pop
    rw [hne]
    simp only [Bool.false_eq_true, if_false, htop, Option.bind_eq_bind, Option.some_bind,
      inv.stack_is_used_eq hlt, hfree]
    simp [hf]
    omega
  rw [hmod] at hpop
  refine ⟨hpop, ?_⟩
  obtain ⟨res, f1, _, h2, _, _, _, _, _, h8⟩ := inv.stack_pop_spec hne
  rw [hpop] at h2
  simp only [Option.some.injEq, Prod.mk.injEq] at h2
  rw [h2.2]
  exact h8

theorem stack_pops_counter (m : Nat) :
    ∀ (s : Stack_strategy_state), Stack_strategy_inv s → s.free_list.m_free_list = [] →
      s.free_list.m_first_free_index + m = s.capacity →
      ∃ f, Free_list_management_Tag_true_Tag_true.pops s.capacity m s.free_list =
          some (List.range' s.free_list.m_first_free_index m, f) ∧
        f.m_free_list = [] ∧ f.m_first_free_index = s.capacity ∧
        Free_list_management_Tag_true_Tag_true.is_empty s.capacity f = true := by
  induction m with
  | zero =>
    intro s _ h1 h2
    refine ⟨s.free_list, rfl, h1, by omega, ?_⟩
    simp only [Free_list_management_Tag_true_Tag_true.is_empty, h1, List.isEmpty_nil,
      Bool.true_and, beq_iff_eq]
    omega
  | succ m ih =>
    intro s inv h1 h2
    obtain ⟨h3, inv1⟩ := inv.stack_pop_counter (by omega)
    obtain ⟨f, h4, h5, h6, h7⟩ := ih _ inv1 h1 (by simp only []; omega)
    refine ⟨f, ?_, h5, h6, h7⟩
    rw [Free_list_management_Tag_true_Tag_true.pops]
    simp only [h3, Option.bind_eq_bind, Option.some_bind]
    simp only [] at h4
    rw [h4, List.range'_succ]
    rfl

set_option maxRecDepth 100000 in
/-- C34 (counterexample): with a `size_type` of 8 bits, in the bit-squatting strategy on a
container of capacity 128, `init()` followed by 128 calls of `pop()` returns the indices
0, 1, ..., 127, but `is_empty()` does not hold afterwards: the successor 128 written into
slot 127 with the tag `FREE` reads back as 0, so the head of the free list is 0 and not
`capacity()`. -/
theorem bit_squatting_init_at_half_range_never_empties :
    arena_128.capacity = 2 ^ (8 - 1) ∧
    (Free_list_management_Tag_false_Tag_false.init 8 arena_128 { m_free_list := 0 }).bind
      (fun r => (Free_list_management_Tag_false_Tag_false.pops 8 128 r.1 r.2).map
        (fun q => (q.1, q.2.2.m_free_list,
          Free_list_management_Tag_false_Tag_false.is_empty q.2.1 q.2.2))) =
      some (List.range 128, 0, false) := by
  refine ⟨by decide, ?_⟩
  decide

/-- C34 (amended): immediately after `init()` on a container of capacity `n` whose block
is allocated, in each of the three strategies, for every `n >= 0` that `size_type` can hold
and, in the bit-squatting strategy on `w` bits, for every `n < 2^(w-1)`: every index
`i < n` is reported free, `is_empty()` holds iff `n == 0`, and `n` successive calls of
`pop()` return `0, 1, ..., n-1` in that order, after which `is_empty()` holds; in the
strategy with a stack the stack is empty before and after these calls. -/
theorem init_then_pops_return_every_index :
    (∀ (n uninitialized : Nat), n < size_type_range →
      (∀ i, i < n → Free_list_management_Tag_true_Tag_true.is_used n
        (Free_list_management_Tag_true_Tag_true.init n
          (Free_list_management_Tag_true_Tag_true.construct uninitialized)) i = some false) ∧
      (Free_list_management_Tag_true_Tag_true.is_empty n
        (Free_list_management_Tag_true_Tag_true.init n
          (Free_list_management_Tag_true_Tag_true.construct uninitialized)) = true ↔ n = 0) ∧
      (Free_list_management_Tag_true_Tag_true.init n
        (Free_list_management_Tag_true_Tag_true.construct uninitialized)).m_free_list = [] ∧
      ∃ f, Free_list_management_Tag_true_Tag_true.pops n n
          (Free_list_management_Tag_true_Tag_true.init n
            (Free_list_management_Tag_true_Tag_true.construct uninitialized)) =
          some (List.range n, f) ∧
        Free_list_management_Tag_true_Tag_true.is_empty n f = true ∧ f.m_free_list = []) ∧
    (∀ (c : Compact_container_with_index T P), c.capacity < size_type_range →
      c.items.length = c.capacity → (0 < c.capacity → c.all_items = some c.items) →
      ∃ c1 : Compact_container_with_index T P,
        Free_list_management_Tag_false_Tag_true.init c = some c1 ∧
        c1.capacity = c.capacity ∧
        (∀ i, i < c.capacity →
          Free_list_management_Tag_false_Tag_true.is_used c1 i = some false) ∧
        (Free_list_management_Tag_false_Tag_true.is_empty c1 = true ↔ c.capacity = 0) ∧
        ∃ c2, Free_list_management_Tag_false_Tag_true.pops c.capacity c1 =
            some (List.range c.capacity, c2) ∧
          Free_list_management_Tag_false_Tag_true.is_empty c2 = true) ∧
    (∀ (w : Nat) (c : Compact_container_with_index T P)
      (s : Free_list_management_Tag_false_Tag_false), 1 ≤ w → c.capacity < 2 ^ (w - 1) →
      c.items.length = c.capacity → (0 < c.capacity → c.all_items = some c.items) →
      ∃ (c1 : Compact_container_with_index T P)
        (s1 : Free_list_management_Tag_false_Tag_false),
        Free_list_management_Tag_false_Tag_false.init w c s = some (c1, s1) ∧
        c1.capacity = c.capacity ∧
        (∀ i, i < c.capacity →
          Free_list_management_Tag_false_Tag_false.is_used w c1 i = some false) ∧
        (Free_list_management_Tag_false_Tag_false.is_empty c1 s1 = true ↔ c.capacity = 0) ∧
        ∃ c2 s2, Free_list_management_Tag_false_Tag_false.pops w c.capacity c1 s1 =
            some (List.range c.capacity, c2, s2) ∧
          Free_list_management_Tag_false_Tag_false.is_empty c2 s2 = true) := by
  refine ⟨fun n u hn => ?_, fun c hc hlen hsome => ?_, fun w c s hw hc hlen hsome => ?_⟩
  · -- the strategy with a stack
    have inv := Stack_strategy_inv.stack_init n u hn
    have hfirst : (Free_list_management_Tag_true_Tag_true.init n
        (Free_list_management_Tag_true_Tag_true.construct u)).m_first_free_index = 0 := rfl
    have hstack : (Free_list_management_Tag_true_Tag_true.init n
        (Free_list_management_Tag_true_Tag_true.construct u)).m_free_list = [] := rfl
    refine ⟨fun i hi => ?_, ?_, hstack, ?_⟩
    · have h1 := inv.stack_is_used_eq (i := i) hi
      have h2 := (inv.free_iff i hi).2 (Or.inl (by rw [hfirst]; omega))
      simp only [] at h1 h2
      rw [h1]; exact h2
    · simp only [Free_list_management_Tag_true_Tag_true.is_empty, hstack, hfirst,
        List.isEmpty_nil, Bool.true_and, beq_iff_eq]
      omega
    · obtain ⟨f, h1, h2, _, h4⟩ := stack_pops_counter n _ inv hstack
        (by simp only [hfirst]; omega)
      simp only [hfirst] at h1
      exact ⟨f, by rw [List.range_eq_range']; exact h1, h4, h2⟩
  · -- the strategy with an in-place free list and a vector of Booleans
    unfold Compact_container_with_index.capacity at hc hlen hsome ⊢
    have hnull := null_descriptor_succ
    by_cases hpos : 0 < c.capacity_
    · obtain ⟨items1, h1, h2, h3, h4⟩ := strategy_init_spec c c.items (hsome hpos) hlen hpos
      obtain ⟨c2, h5, h6, _⟩ := pops_chain items1 c.capacity_ 0
        ({ c with all_items := some items1,
                  free_list := { m_free_list := 0,
                                 m_used := List.replicate c.capacity_ false } })
        rfl (by simp only []; omega) hc h2 (fun j _ hj => h3 j hj) (fun _ => h4)
        (fun j _ hj => by
          have hj1 : j < c.capacity_ := hj
          simp only []
          rw [List.getElem?_replicate, if_pos hj1])
        (by simp only []; rw [if_neg (by omega)])
      refine ⟨_, h1, rfl, fun i hi => ?_, ?_, c2, ?_, ?_⟩
      · unfold Free_list_management_Tag_false_Tag_true.is_used
        simp only []
        rw [if_pos ⟨hi, by omega⟩, List.getElem?_replicate, if_pos hi]
      · simp only [is_empty, beq_iff_eq]
        omega
      · rw [List.range_eq_range']; exact h5
      · simp only [is_empty, h6, beq_self_eq_true]
    · have h0 : c.capacity_ = 0 := by omega
      refine ⟨{ c with free_list := { m_free_list := null_descriptor, m_used := [] } },
        ?_, rfl, fun i hi => by omega, ?_,
        { c with free_list := { m_free_list := null_descriptor, m_used := [] } }, ?_, ?_⟩
      · unfold Free_list_management_Tag_false_Tag_true.init
        rw [if_neg hpos]
      · simp [is_empty, h0]
      · rw [h0]; rfl
      · simp [is_empty]
  · -- the strategy with bit squatting
    unfold Compact_container_with_index.capacity at hc hlen hsome ⊢
    obtain ⟨c1, h1, h2, inv⟩ := Bit_squatting_inv.bit_init hw c s hc hlen hsome
    obtain ⟨c2, s2, h3, inv2, _⟩ := Bit_squatting_inv.bit_pops _ inv
    simp only [List.length_range'] at h3
    refine ⟨c1, _, h1, h2, fun i hi => ?_, ?_, c2, s2, ?_, inv2.bit_empty_iff.2 rfl⟩
    · have := inv.bit_is_used (i := i) (by simp only []; omega)
      simp only [] at this
      rw [this]
      simp [List.mem_range'_1, hi]
    · rw [inv.bit_empty_iff]
      constructor
      · intro h
        have := congrArg List.length h
        simpa using this
      · intro h
        rw [h]; rfl
    · rw [List.range_eq_range']; exact h3

theorem init_then_pops_return_every_index_witness :
    (2 < size_type_range ∧ arena_two_slots.capacity < size_type_range ∧
      arena_two_slots.items.length = arena_two_slots.capacity ∧
      arena_two_slots.all_items = some arena_two_slots.items ∧
      1 ≤ 64 ∧ arena_two_slots.capacity < 2 ^ (64 - 1)) ∧
    (∃ f, Free_list_management_Tag_true_Tag_true.pops 2 2
        (Free_list_management_Tag_true_Tag_true.init 2
          (Free_list_management_Tag_true_Tag_true.construct 0)) = some (List.range 2, f) ∧
      Free_list_management_Tag_true_Tag_true.is_empty 2 f = true ∧ f.m_free_list = []) ∧
    (∃ c1 : Compact_container_with_index Index_for_cc_with_index constant_2,
      Free_list_management_Tag_false_Tag_true.init arena_two_slots = some c1 ∧
      c1.capacity = arena_two_slots.capacity ∧
      (∀ i, i < arena_two_slots.capacity →
        Free_list_management_Tag_false_Tag_true.is_used c1 i = some false) ∧
      (Free_list_management_Tag_false_Tag_true.is_empty c1 = true ↔
        arena_two_slots.capacity = 0) ∧
      ∃ c2, Free_list_management_Tag_false_Tag_true.pops arena_two_slots.capacity c1 =
          some (List.range arena_two_slots.capacity, c2) ∧
        Free_list_management_Tag_false_Tag_true.is_empty c2 = true) ∧
    (∃ (c1 : Compact_container_with_index Index_for_cc_with_index constant_2)
      (s1 : Free_list_management_Tag_false_Tag_false),
      Free_list_management_Tag_false_Tag_false.init 64 arena_two_slots { m_free_list := 7 } =
        some (c1, s1) ∧
      c1.capacity = arena_two_slots.capacity ∧
      (∀ i, i < arena_two_slots.capacity →
        Free_list_management_Tag_false_Tag_false.is_used 64 c1 i = some false) ∧
      (Free_list_management_Tag_false_Tag_false.is_empty c1 s1 = true ↔
        arena_two_slots.capacity = 0) ∧
      ∃ c2 s2, Free_list_management_Tag_false_Tag_false.pops 64 arena_two_slots.capacity
          c1 s1 = some (List.range arena_two_slots.capacity, c2, s2) ∧
        Free_list_management_Tag_false_Tag_false.is_empty c2 s2 = true) :=
  have h := init_then_pops_return_every_index (T := Index_for_cc_with_index)
    (P := constant_2)
  ⟨⟨by decide, by decide, by decide, rfl, by decide, by decide⟩,
    (h.1 2 0 (by decide)).2.2.2,
    h.2.1 arena_two_slots (by decide) (by decide) (fun _ => rfl),
    h.2.2 64 arena_two_slots { m_free_list := 7 } (by decide) (by decide) (by decide)
      (fun _ => rfl)⟩

end lemmas

end CGAL
